import Mathlib

/-!
# pf: the versioned encrypted entry store

A shallow embedding of `internal/store/store.go`, `internal/age/age.go`,
`internal/audit/audit.go` and, of `internal/cli`, the commands `get` and
`rollback`.

Conventions of the embedding.

* A Go `string` is a `Str`, a list of characters. Go compares strings byte by
  byte; on well-formed UTF-8 that is the order of the code points, which is the
  lexicographic order of `List Char`.
* The operating system is a value `FS`: a finite table from absolute, cleaned
  paths (lists of path components, separator `/`) to nodes, a node being a
  regular file with its content or a directory. The root directory `[]` always
  exists. The table is taken to record what exists; names that no directory
  can hold (longer than `NAME_MAX`, with a NUL byte, beyond `PATH_MAX`) are
  refused when they are looked up and missing, and when they are to be
  created. Permissions and symbolic links are not modelled, and the only
  device error is the one `Env` injects into the write on the audit log.
* What the process reads from its surroundings during one call (clock, `USER`,
  entropy of the encryption) is an explicit `Env`.
* The libraries the program links against (`filippo.io/age`, `gopkg.in/yaml.v3`)
  are parameters, gathered in `Ext`.
* A Go `int` is an `Int`; the only arithmetic on it is `len + 1` and
  `version - 1`, far from the 64-bit bounds.
-/

set_option linter.dupNamespace false

namespace Pf

/-- A Go string. -/
abbrev Str := List Char

/-- An absolute, cleaned path: its components below `/`. -/
abbrev Path := List Str

/-! ## `strings` and `path/filepath` -/

/-- Go `strings.HasSuffix`. -/
def HasSuffix (s suffix : Str) : Bool := decide (suffix <:+ s)

/-- Go `strings.HasPrefix`. -/
def HasPrefix (s pre : Str) : Bool := decide (pre <+: s)

/-- Go `strings.Contains`. -/
def Contains (s substr : Str) : Bool := decide (substr <:+: s)

/-- Go `strings.TrimSuffix`: `s` without the trailing `suffix`, or `s` itself
when it does not end in `suffix`. -/
def TrimSuffix (s suffix : Str) : Str :=
  if HasSuffix s suffix then s.take (s.length - suffix.length) else s

/-- The `/`-separated segments of a string (Go `strings.Split(s, "/")`): never
the empty list, and `n` separators give `n + 1` segments. -/
def splitSlash : Str → List Str
  | [] => [[]]
  | c :: cs =>
    if c = '/' then [] :: splitSlash cs
    else
      match splitSlash cs with
      | [] => [[c]]
      | seg :: segs => (c :: seg) :: segs

/-- Segments joined with `/`. -/
def joinSlash : List Str → Str
  | [] => []
  | [seg] => seg
  | seg :: segs => seg ++ '/' :: joinSlash segs

/-- Go `filepath.Base` (Unix): the last element of the path; trailing
slashes are dropped first; `"."` for the empty path, `"/"` for a path of
slashes only. -/
def Base (path : Str) : Str :=
  if path = [] then ['.']
  else
    let stripped := (path.reverse.dropWhile (fun c => c == '/')).reverse
    let last := (stripped.reverse.takeWhile (fun c => c != '/')).reverse
    if last = [] then ['/'] else last

/-- One step of Go `filepath.Clean` on a rooted path, component by component:
empty components and `.` vanish, `..` removes the component before it (and
vanishes at the root). -/
def cleanStep (acc : Path) (seg : Str) : Path :=
  if seg = [] ∨ seg = ['.'] then acc
  else if seg = ['.', '.'] then acc.dropLast
  else acc ++ [seg]

/-- Go `filepath.Join(dir, rel)` for a cleaned absolute `dir` and a non-empty
`rel`: `Clean(dir + "/" + rel)`. -/
def Join (dir : Path) (rel : Str) : Path :=
  (splitSlash rel).foldl cleanStep dir

/-- Go `filepath.Rel(base, target)` for a `target` at or below `base`, both
cleaned: the remaining components joined by `/`, and `"."` when there are
none. -/
def Rel (base target : Path) : Str :=
  match target.drop base.length with
  | [] => ['.']
  | segs => joinSlash segs

/-- Go `unicode.IsSpace`: the white space of `strings.TrimSpace`. -/
def isSpace (c : Char) : Bool :=
  c = '\t' || c = '\n' || c = Char.ofNat 0x0B || c = Char.ofNat 0x0C || c = '\r' || c = ' ' ||
    c = Char.ofNat 0x85 || c = Char.ofNat 0xA0 || c = Char.ofNat 0x1680 ||
    (0x2000 ≤ c.toNat && c.toNat ≤ 0x200A) || c = Char.ofNat 0x2028 || c = Char.ofNat 0x2029 ||
    c = Char.ofNat 0x202F || c = Char.ofNat 0x205F || c = Char.ofNat 0x3000

/-- Go `strings.TrimSpace`: the string without its leading and trailing white
space. -/
def TrimSpace (s : Str) : Str :=
  ((s.dropWhile isSpace).reverse.dropWhile isSpace).reverse

/-- Go `strings.Split(s, "\n")`: the lines of a text, `n` line feeds giving
`n + 1` lines. -/
def splitLines : Str → List Str
  | [] => [[]]
  | c :: cs =>
    if c = '\n' then [] :: splitLines cs
    else
      match splitLines cs with
      | [] => [[c]]
      | line :: lines => (c :: line) :: lines

/-- Go `sort.Strings`: ascending byte-wise order. The sorted arrangement of a
list of strings is unique, so the algorithm does not matter. -/
def sortStrings (keys : List Str) : List Str :=
  keys.insertionSort (fun a b => a ≤ b)

/-! ## The file system -/

/-- What a path may name. -/
inductive Node where
  | file (data : Str)
  | dir
  deriving DecidableEq, Repr, Inhabited

/-- The error numbers the program can meet. -/
inductive Errno where
  | ENOENT
  | ENOTDIR
  | EISDIR
  | ENOTEMPTY
  | EBUSY
  | ENOSPC
  | ENAMETOOLONG
  | EINVAL
  deriving DecidableEq, Repr

/-- Is the node a regular file? -/
def Node.isFile : Node → Bool
  | Node.file _ => true
  | Node.dir => false

/-- Go `os.IsNotExist`: on Unix, exactly `ENOENT`. -/
def Errno.IsNotExist (e : Errno) : Bool := decide (e = Errno.ENOENT)

/-- The file system: the table of the nodes below the root directory. -/
abbrev FS := List (Path × Node)

/-- The length in bytes of a Go string with this text (UTF-8). -/
def byteLen (s : Str) : Nat := (s.map Char.utf8Size).sum

/-- A name longer than `NAME_MAX`, 255 bytes: no directory holds it. -/
def tooLong (name : Str) : Bool := decide (255 < byteLen name)

/-- The length in bytes of the path as the program writes it, each component
after a `/`. -/
def pathLen (p : Path) : Nat := (p.map (fun c => byteLen c + 1)).sum

/-- What is wrong with a path before any directory is looked at: a NUL byte
(Go does not pass the path on: `EINVAL`), or `PATH_MAX`, 4096 bytes with the
closing NUL, exceeded (`ENAMETOOLONG`). -/
def FS.pathErr (p : Path) : Option Errno :=
  if p.any (fun c => c.contains (Char.ofNat 0)) = true then some Errno.EINVAL
  else if 4095 < pathLen p then some Errno.ENAMETOOLONG
  else none

/-- The error of looking up the last name of `p` in its directory when no node
is recorded at `p`: the name is too long for a directory, or it is not
there. -/
def FS.missing (p : Path) : Errno :=
  if tooLong (p.getLastD []) = true then Errno.ENAMETOOLONG else Errno.ENOENT

/-- The error a call on the path `p` reports when the walk along `p` fails
with `e`: what is wrong with the path itself comes first. -/
def FS.fail (p : Path) (e : Errno) : Errno :=
  match FS.pathErr p with
  | some e1 => e1
  | none => e

/-- The error of a call on `p` when all directories above `p` exist and no
node is recorded at `p`; it is `ENOENT` exactly for a name the file system
can hold. -/
def FS.absent (p : Path) : Errno := FS.fail p (FS.missing p)

/-- The node the table records for a path (the first record counts). -/
def FS.get : FS → Path → Option Node
  | [], _ => none
  | (q, n) :: rest, p => if q = p then some n else FS.get rest p

/-- The node at a path, the root directory included. -/
def FS.node (fs : FS) (p : Path) : Option Node :=
  if p = [] then some Node.dir else fs.get p

/-- Path resolution from the directory `cur` along `rest`: every component
passed through must be a directory. The table is taken to record what
exists; a name it does not record is missing, or too long to be looked
up. -/
def FS.resolve (fs : FS) : Path → List Str → Except Errno Node
  | cur, [] =>
    match fs.node cur with
    | some n => .ok n
    | none => .error (FS.missing cur)
  | cur, c :: cs =>
    match fs.node cur with
    | some Node.dir => FS.resolve fs (cur ++ [c]) cs
    | some (Node.file _) => .error Errno.ENOTDIR
    | none => .error (FS.missing cur)

/-- Go `os.Stat`, without following links. -/
def FS.stat (fs : FS) (p : Path) : Except Errno Node :=
  match fs.resolve [] p with
  | .ok n => .ok n
  | .error e => .error (FS.fail p e)

/-- Record `n` at `p`, replacing the record there if there is one. -/
def FS.set : FS → Path → Node → FS
  | [], p, n => [(p, n)]
  | (q, m) :: rest, p, n =>
    if q = p then (p, n) :: rest else (q, m) :: FS.set rest p n

/-- Drop every record at `p`. -/
def FS.erase (fs : FS) (p : Path) : FS := fs.filter (fun e => decide (e.1 ≠ p))

/-- Does the directory `p` hold anything? -/
def FS.hasChild (fs : FS) (p : Path) : Bool :=
  fs.any (fun e => decide (e.1 ≠ [] ∧ e.1.dropLast = p))

/-- Go `os.ReadFile`. -/
def FS.ReadFile (fs : FS) (p : Path) : Except Errno Str :=
  match fs.stat p with
  | .ok (Node.file data) => .ok data
  | .ok Node.dir => .error Errno.EISDIR
  | .error e => .error e

/-- Go `os.WriteFile`: truncate the file at `p`, or create it when only its
last name is missing (the walk reports `ENOENT` and the parent directory
exists). -/
def FS.WriteFile (fs : FS) (p : Path) (data : Str) : Except Errno FS :=
  match fs.stat p with
  | .ok (Node.file _) => .ok (fs.set p (Node.file data))
  | .ok Node.dir => .error Errno.EISDIR
  | .error e =>
    match e, fs.stat p.dropLast with
    | Errno.ENOENT, .ok Node.dir => .ok (fs.set p (Node.file data))
    | _, _ => .error e

/-- Go `os.MkdirAll`, from `cur` along `rest`: existing directories are
passed through, missing ones created; a regular file on the way is
`ENOTDIR`, and a missing directory whose name the file system cannot hold is
not created. Directories created before a failure stay. -/
def FS.mkdirFrom (fs : FS) : Path → List Str → FS × Option Errno
  | cur, [] =>
    match fs.node cur with
    | some Node.dir => (fs, none)
    | some (Node.file _) => (fs, some Errno.ENOTDIR)
    | none =>
      if FS.absent cur = Errno.ENOENT then (fs.set cur Node.dir, none)
      else (fs, some (FS.absent cur))
  | cur, c :: cs =>
    match fs.node cur with
    | some Node.dir => FS.mkdirFrom fs (cur ++ [c]) cs
    | some (Node.file _) => (fs, some Errno.ENOTDIR)
    | none =>
      if FS.absent cur = Errno.ENOENT then FS.mkdirFrom (fs.set cur Node.dir) (cur ++ [c]) cs
      else (fs, some (FS.absent cur))

/-- Go `os.MkdirAll`. -/
def FS.MkdirAll (fs : FS) (p : Path) : FS × Option Errno := fs.mkdirFrom [] p

/-- Go `os.Remove`: unlink a file or remove an empty directory. -/
def FS.Remove (fs : FS) (p : Path) : Except Errno FS :=
  match fs.stat p with
  | .error e => .error e
  | .ok (Node.file _) => .ok (fs.erase p)
  | .ok Node.dir =>
    if p = [] then .error Errno.EBUSY
    else if fs.hasChild p then .error Errno.ENOTEMPTY
    else .ok (fs.erase p)

/-- Go `os.OpenFile(p, O_CREATE|O_WRONLY|O_APPEND, _)`: the file system after
the open; the file is created empty when only its last name is missing. -/
def FS.OpenAppend (fs : FS) (p : Path) : Except Errno FS :=
  match fs.stat p with
  | .ok (Node.file _) => .ok fs
  | .ok Node.dir => .error Errno.EISDIR
  | .error e =>
    match e, fs.stat p.dropLast with
    | Errno.ENOENT, .ok Node.dir => .ok (fs.set p (Node.file []))
    | _, _ => .error e

/-- The write of `text` at the end of the regular file `p` opened for
appending. -/
def FS.appendTo (fs : FS) (p : Path) (text : Str) : FS :=
  match fs.node p with
  | some (Node.file data) => fs.set p (Node.file (data ++ text))
  | _ => fs

/-- Go `filepath.Walk(root, fn)`: the nodes `fn` is called on, those at or
below `root`. A well-formed table records every node once, below a recorded
directory; it is then the tree `Walk` descends. `Walk` visits in lexical
order, the table in the order of its records: a caller that sorts its result
does not see the difference. -/
def FS.walk (fs : FS) (root : Path) : List (Path × Node) :=
  fs.filter (fun e => decide (root <+: e.1))

/-! ## Data model (`store.go`) -/

/-- Go `store.Version`. -/
structure Version where
  Version : Int
  Password : Str
  Timestamp : Int
  Author : Str
  Message : Str
  deriving DecidableEq, Repr

/-- Go `store.Entry`. -/
structure Entry where
  Key : Str
  Versions : List Version
  deriving DecidableEq, Repr

/-! ## The libraries and the surroundings -/

/-- The step of `age.Encrypt` under `armor.NewWriter` that failed. -/
inductive EncFail where
  | create
  | write
  | close
  | closeArmor
  deriving DecidableEq, Repr

/-- The step of `age.Decrypt` under `armor.NewReader` that failed. -/
inductive DecFail where
  | decrypt
  | read
  deriving DecidableEq, Repr

/-- The external libraries: `filippo.io/age` over recipients `R` and
identities `I`, and `gopkg.in/yaml.v3` at the type `Entry`. -/
structure Ext (R I : Type) where
  /-- Go `age.ParseX25519Recipient`. -/
  ParseX25519Recipient : Str → Option R
  /-- Go `age.ParseX25519Identity`. -/
  ParseX25519Identity : Str → Option I
  /-- Go `age.Encrypt` writing through `armor.NewWriter`, on the entropy it
  draws: the armored text, or the step that failed. -/
  EncryptArmor : Nat → List R → Str → Except EncFail Str
  /-- Go `age.Decrypt` reading through `armor.NewReader`. -/
  DecryptArmor : List I → Str → Except DecFail Str
  /-- Go `yaml.Marshal` of an `Entry`. -/
  Marshal : Entry → Option Str
  /-- Go `yaml.Unmarshal` into an `Entry`. -/
  Unmarshal : Str → Option Entry

/-- What one call reads from its surroundings. -/
structure Env where
  /-- Go `time.Now().Unix()`. -/
  now : Int
  /-- Go `time.Now().Format("2006-01-02T15:04:05Z07:00")`. -/
  stamp : Str
  /-- Go `os.Getenv("USER")`. -/
  user : Str
  /-- The randomness `age.Encrypt` draws. -/
  entropy : Nat
  /-- The error, if any, of `WriteString` on the opened audit file. -/
  auditWriteErr : Option Errno

/-! ## `internal/age/age.go` -/

/-- The errors of `age.go`. -/
inductive AgeError where
  /-- Go message "no recipients specified" -/
  | noRecipients
  /-- Go message "invalid recipient %s: %w" -/
  | invalidRecipient (recipient : Str)
  /-- Go message "failed to create encryptor", "failed to write data", "failed to close
  encryptor", "failed to close armor writer" -/
  | encryptor (step : EncFail)
  /-- Go message "no identities provided" -/
  | noIdentities
  /-- Go message "failed to decrypt", "failed to read decrypted data" -/
  | decryptor (step : DecFail)
  deriving DecidableEq, Repr

/-- The recipient-parsing loop of `Encrypt`: in order, stopping at the first
string that does not parse. -/
def parseRecipients {R I : Type} (x : Ext R I) : List Str → Except AgeError (List R)
  | [] => .ok []
  | recipient :: rest =>
    match x.ParseX25519Recipient recipient with
    | none => .error (AgeError.invalidRecipient recipient)
    | some r =>
      match parseRecipients x rest with
      | .error e => .error e
      | .ok rs => .ok (r :: rs)

/-- Go `age.Encrypt` of `age.go`. -/
def Encrypt {R I : Type} (x : Ext R I) (entropy : Nat) (data : Str)
    (recipients : List Str) : Except AgeError Str :=
  if recipients.length = 0 then .error AgeError.noRecipients
  else
    match parseRecipients x recipients with
    | .error e => .error e
    | .ok ageRecipients =>
      match x.EncryptArmor entropy ageRecipients data with
      | .error step => .error (AgeError.encryptor step)
      | .ok encrypted => .ok encrypted

/-- Go `age.Decrypt` of `age.go`. -/
def Decrypt {R I : Type} (x : Ext R I) (encrypted : Str)
    (identities : List I) : Except AgeError Str :=
  if identities.length = 0 then .error AgeError.noIdentities
  else
    match x.DecryptArmor identities encrypted with
    | .error step => .error (AgeError.decryptor step)
    | .ok decrypted => .ok decrypted

/-- Go `ParseIdentity` of `age.go`; `none` is its error "failed to parse
identity". -/
def ParseIdentity {R I : Type} (x : Ext R I) (s : Str) : Option I :=
  match x.ParseX25519Identity s with
  | none => none
  | some identity => some identity

/-- Go `ParseRecipient` of `age.go`; `none` is its error "failed to parse
recipient". -/
def ParseRecipient {R I : Type} (x : Ext R I) (s : Str) : Option R :=
  match x.ParseX25519Recipient s with
  | none => none
  | some recipient => some recipient

/-- The errors of `LoadIdentityFile`. -/
inductive IdentityFileError where
  /-- Go message "failed to read identity file: %w" -/
  | readFile (e : Errno)
  /-- Go message "no valid identities found in file" -/
  | noValidIdentities
  deriving DecidableEq, Repr

/-- The loop of `LoadIdentityFile` over the lines still to read, `identities`
being what it has collected. -/
def identityLoop {R I : Type} (x : Ext R I) : List Str → List I → List I
  | [], identities => identities
  | line :: rest, identities =>
    let line := TrimSpace line
    if line = [] ∨ HasPrefix line ['#'] = true then identityLoop x rest identities
    else
      match ParseIdentity x line with
      | none => identityLoop x rest identities
      | some identity => identityLoop x rest (identities ++ [identity])

/-- Go `LoadIdentityFile`. -/
def LoadIdentityFile {R I : Type} (x : Ext R I) (fs : FS) (path : Path) :
    Except IdentityFileError (List I) :=
  match fs.ReadFile path with
  | .error e => .error (IdentityFileError.readFile e)
  | .ok data =>
    let identities := identityLoop x (splitLines data) []
    if identities.length = 0 then .error IdentityFileError.noValidIdentities
    else .ok identities

/-! ## `internal/audit/audit.go` -/

/-- Go `audit.EventAccess`. -/
def EventAccess : Str := "ACCESS".toList

/-- Go `audit.EventModify`. -/
def EventModify : Str := "MODIFY".toList

/-- Go `audit.EventDelete`. -/
def EventDelete : Str := "DELETE".toList

/-- Go `audit.Logger`. -/
structure Logger where
  path : Path
  enabled : Bool
  deriving DecidableEq, Repr

/-- Go `audit.New`; `pfAudit` is `os.Getenv("PF_AUDIT")`. -/
def Logger.New (path : Path) (pfAudit : Str) : Logger :=
  { path := path, enabled := decide (pfAudit ≠ "false".toList) }

/-- The line `Log` formats. -/
def Logger.line (env : Env) (event key details : Str) : Str :=
  let user := if env.user = [] then "unknown".toList else env.user
  let entry := env.stamp ++ " | ".toList ++ user ++ " | ".toList ++ event ++ " | ".toList ++ key
  let entry := if details ≠ [] then entry ++ " | ".toList ++ details else entry
  entry ++ ['\n']

/-- Go `Logger.Log`: the file system afterwards and the error returned. -/
def Logger.Log (l : Logger) (env : Env) (fs : FS) (event key details : Str) :
    FS × Option Errno :=
  if l.enabled = false then (fs, none)
  else
    match fs.OpenAppend l.path with
    | .error _ => (fs, none)
    | .ok fs1 =>
      match env.auditWriteErr with
      | some e => (fs1, some e)
      | none => (fs1.appendTo l.path (Logger.line env event key details), none)

/-! ## `internal/store/store.go` -/

/-- The errors of `store.go`. -/
inductive StoreError where
  /-- Go message "password '%s' not found" -/
  | notFound (key : Str)
  /-- Go message "failed to read entry: %w" -/
  | readEntry (e : Errno)
  /-- Go message "failed to parse entry: %w" -/
  | parseEntry
  /-- Go message "failed to decrypt password: %w" -/
  | decrypt (e : AgeError)
  /-- Go message "failed to encrypt password: %w" -/
  | encrypt (e : AgeError)
  /-- Go message "failed to create directory structure: %w" -/
  | mkdir (e : Errno)
  /-- Go message "failed to marshal entry: %w" -/
  | marshal
  /-- Go message "failed to save entry: %w" -/
  | saveEntry (e : Errno)
  /-- Go message "failed to delete password: %w" -/
  | delete (e : Errno)
  /-- Go message "failed to walk store directory: %w" -/
  | walk (e : Errno)
  deriving DecidableEq, Repr

/-- How a call that may also panic ends. -/
inductive Outcome (α : Type) where
  | ok (a : α)
  | err (e : StoreError)
  /-- A run-time panic: index out of range. -/
  | fault
  deriving DecidableEq, Repr

/-- Go `store.Store`. The store root is an absolute, cleaned path. -/
structure Store (I : Type) where
  path : Path
  recipients : List Str
  identities : List I
  auditor : Logger

/-- The name of the audit log below the store root. -/
def auditName : Str := ".audit.log".toList

/-- The extension of an entry file. -/
def yamlExt : Str := ".yaml".toList

/-- The auditor is the one `New` builds:
`audit.New(filepath.Join(path, ".audit.log"))`. -/
def Store.Built {I : Type} (s : Store I) : Prop :=
  s.auditor.path = s.path ++ [auditName]

/-- Go `Store.getEntryPath`. -/
def Store.getEntryPath {I : Type} (s : Store I) (key : Str) : Path :=
  Join s.path (key ++ yamlExt)

/-- Go `Store.loadEntry`. -/
def Store.loadEntry {R I : Type} (x : Ext R I) (s : Store I) (fs : FS) (key : Str) :
    Except StoreError Entry :=
  let entryPath := s.getEntryPath key
  match fs.ReadFile entryPath with
  | .error e =>
    if e.IsNotExist then .error (StoreError.notFound key)
    else .error (StoreError.readEntry e)
  | .ok data =>
    match x.Unmarshal data with
    | none => .error StoreError.parseEntry
    | some entry => .ok entry

/-- Go `Store.saveEntry`. `filepath.Dir` of a cleaned path drops its last
component. -/
def Store.saveEntry {R I : Type} (x : Ext R I) (s : Store I) (fs : FS) (entry : Entry) :
    FS × Option StoreError :=
  let entryPath := s.getEntryPath entry.Key
  let parentDir := entryPath.dropLast
  match fs.MkdirAll parentDir with
  | (fs1, some e) => (fs1, some (StoreError.mkdir e))
  | (fs1, none) =>
    match x.Marshal entry with
    | none => (fs1, some StoreError.marshal)
    | some data =>
      match fs1.WriteFile entryPath data with
      | .error e => (fs1, some (StoreError.saveEntry e))
      | .ok fs2 => (fs2, none)

/-- Go slice indexing `xs[i]`: out of range is a panic (`none`). -/
def goIndex {α : Type} (xs : List α) (i : Int) : Option α :=
  if i < 0 then none else xs[i.toNat]?

/-- The end of `Get`: decrypt the selected version with the identities of the
store. -/
def Store.decryptVersion {R I : Type} (x : Ext R I) (s : Store I) (v : Version) :
    Outcome Str :=
  match Decrypt x v.Password s.identities with
  | .error e => Outcome.err (StoreError.decrypt e)
  | .ok password => Outcome.ok password

/-- Go `Store.Get`. -/
def Store.Get {R I : Type} (x : Ext R I) (s : Store I) (env : Env) (fs : FS)
    (key : Str) (version : Int) : FS × Outcome Str :=
  let fs1 := (s.auditor.Log env fs EventAccess key []).1
  match s.loadEntry x fs1 key with
  | .error e => (fs1, Outcome.err e)
  | .ok entry =>
    let version :=
      if version ≤ 0 ∨ version > (entry.Versions.length : Int) then
        (entry.Versions.length : Int)
      else version
    match goIndex entry.Versions (version - 1) with
    | none => (fs1, Outcome.fault)
    | some v => (fs1, s.decryptVersion x v)

/-- The version `Put` appends to the entry it loaded. -/
def newVersion (env : Env) (entry : Entry) (encrypted message : Str) : Version :=
  { Version := (entry.Versions.length : Int) + 1
    Password := encrypted
    Timestamp := env.now
    Author := env.user
    Message := message }

/-- Go `Store.Put`. -/
def Store.Put {R I : Type} (x : Ext R I) (s : Store I) (env : Env) (fs : FS)
    (key password message : Str) : FS × Option StoreError :=
  let fs1 := (s.auditor.Log env fs EventModify key message).1
  match Encrypt x env.entropy password s.recipients with
  | .error e => (fs1, some (StoreError.encrypt e))
  | .ok encrypted =>
    let entry : Entry :=
      match s.loadEntry x fs1 key with
      | .error _ => { Key := key, Versions := [] }
      | .ok entry => entry
    s.saveEntry x fs1
      { entry with Versions := entry.Versions ++ [newVersion env entry encrypted message] }

/-- Go `Store.Delete`. -/
def Store.Delete {I : Type} (s : Store I) (env : Env) (fs : FS) (key : Str) :
    FS × Option StoreError :=
  let fs1 := (s.auditor.Log env fs EventDelete key []).1
  let entryPath := s.getEntryPath key
  match fs1.Remove entryPath with
  | .error e =>
    if e.IsNotExist then (fs1, some (StoreError.notFound key))
    else (fs1, some (StoreError.delete e))
  | .ok fs2 => (fs2, none)

/-- The swap `versions[i], versions[j] = versions[j], versions[i]`. -/
def swapAt (versions : List Version) (i j : Nat) : List Version :=
  match versions[i]?, versions[j]? with
  | some a, some b => (versions.set i b).set j a
  | _, _ => versions

/-- The loop `for i, j := 0, len-1; i < j; i, j = i+1, j-1` of `GetHistory`,
run for at most `fuel` rounds. -/
def reverseLoop : Nat → List Version → Int → Int → List Version
  | 0, versions, _, _ => versions
  | fuel + 1, versions, i, j =>
    if i < j then reverseLoop fuel (swapAt versions i.toNat j.toNat) (i + 1) (j - 1)
    else versions

/-- Go `Store.GetHistory`. The loop runs fewer than `len` rounds. -/
def Store.GetHistory {R I : Type} (x : Ext R I) (s : Store I) (fs : FS)
    (key : Str) (limit : Int) : Except StoreError (List Version) :=
  match s.loadEntry x fs key with
  | .error e => .error e
  | .ok entry =>
    let versions := entry.Versions
    let versions :=
      reverseLoop versions.length versions 0 ((versions.length : Int) - 1)
    let versions :=
      if limit > 0 ∧ limit < (versions.length : Int) then versions.take limit.toNat
      else versions
    .ok (versions.map (fun v => { v with Password := [] }))

/-- The function `List` hands to `filepath.Walk`, on one visited node. On
Unix `filepath.ToSlash` changes nothing. -/
def listVisit {I : Type} (s : Store I) (keys : List Str) (path : Path) (info : Node) :
    List Str :=
  if info.isFile = false then keys
  else if HasSuffix (path.getLastD []) yamlExt then
    let relPath := Rel s.path path
    let key := TrimSuffix relPath yamlExt
    if (!HasPrefix (Base key) ['.']) && (!Contains key ['/', '.']) then keys ++ [key]
    else keys
  else keys

/-- Go `Store.List` (here `ListKeys`: inside `Store`, `List` is the list type). -/
def Store.ListKeys {I : Type} (s : Store I) (fs : FS) : Except StoreError (List Str) :=
  match fs.stat s.path with
  | .error e => .error (StoreError.walk e)
  | .ok _ =>
    .ok (sortStrings ((fs.walk s.path).foldl (fun keys e => listVisit s keys e.1 e.2) []))

/-- The name of the recipient list below the store root. -/
def recipientsName : Str := ".recipients".toList

/-- The loop of `loadRecipients` over the lines still to read, `recipients`
being what it has collected. -/
def recipientLoop {R I : Type} (x : Ext R I) : List Str → List Str → List Str
  | [], recipients => recipients
  | line :: rest, recipients =>
    let line := TrimSpace line
    if line = [] ∨ HasPrefix line ['#'] = true then recipientLoop x rest recipients
    else
      match ParseRecipient x line with
      | some _ => recipientLoop x rest (recipients ++ [line])
      | none => recipientLoop x rest recipients

/-- Go `loadRecipients`. -/
def loadRecipients {R I : Type} (x : Ext R I) (fs : FS) (path : Path) :
    Except Errno (List Str) :=
  match fs.ReadFile path with
  | .error e => if e.IsNotExist then .ok [] else .error e
  | .ok data => .ok (recipientLoop x (splitLines data) [])

/-- The error of `New`: "failed to load recipients: %w". -/
inductive NewError where
  | loadRecipients (e : Errno)
  deriving DecidableEq, Repr

/-- Go `store.New`. The key file is `none` for the empty `ageKeyPath`;
`pfAudit` is `os.Getenv("PF_AUDIT")`, read by `audit.New`. -/
def Store.New {R I : Type} (x : Ext R I) (fs : FS) (path : Path) (ageKeyPath : Option Path)
    (pfAudit : Str) : Except NewError (Store I) :=
  let recipientsFile := Join path recipientsName
  match loadRecipients x fs recipientsFile with
  | .error e => .error (NewError.loadRecipients e)
  | .ok recipients =>
    let identities : List I :=
      match ageKeyPath with
      | none => []
      | some keyPath =>
        match LoadIdentityFile x fs keyPath with
        | .error _ => []
        | .ok identities => identities
    let auditor := Logger.New (Join path auditName) pfAudit
    .ok { path := path, recipients := recipients, identities := identities, auditor := auditor }

/-! ## `internal/cli`

The commands `get` and `rollback`. What comes from outside the store is
passed in: the configuration `config.Load` returns, the flags `cobra` parsed,
the number `fmt.Sscanf` read, the outcome of the clipboard library. -/

/-- Go `config.StoreConfig`. The store root is an absolute, cleaned path. -/
structure StoreConfig where
  Path : Path
  Recipients : List Str

/-- Go `config.Config`, as far as the commands read it. The key file is `none`
for the empty `AgeKeyPath`. -/
structure Config where
  DefaultStore : Str
  Stores : List (Str × StoreConfig)
  AgeKeyPath : Option Path

/-- The errors of the commands `get` and `rollback`. -/
inductive CliError where
  /-- Go message "failed to load config: %w" -/
  | loadConfig
  /-- Go message "store '%s' not found" -/
  | storeNotFound (name : Str)
  /-- Go message "failed to initialize store: %w" -/
  | initStore (e : NewError)
  /-- Go message "failed to get password: %w" -/
  | getPassword (e : StoreError)
  /-- Go message "failed to copy to clipboard: %w" -/
  | clipboard
  /-- Go message "invalid version number: %s" -/
  | invalidVersion (version : Str)
  /-- Go message "failed to get version %d: %w" -/
  | getVersion (versionNum : Int) (e : StoreError)
  /-- Go message "failed to rollback: %w" -/
  | rollback (e : StoreError)
  deriving DecidableEq, Repr

/-- How a command ends: what it printed, its error, or a run-time panic. -/
inductive CliOutcome where
  | ok (printed : Str)
  | err (e : CliError)
  /-- A run-time panic: index out of range. -/
  | fault
  deriving DecidableEq, Repr

/-- The opening both commands share (`get.go` lines 37 to 58, `rollback.go`
lines 46 to 67): the configuration is loaded (`none` is the error of
`config.Load`), the store is looked up under the `--store` flag or, when the
flag is empty, under the default name, and `store.New` is called. -/
def openStore {R I : Type} (x : Ext R I) (fs : FS) (cfg : Option Config) (pfAudit : Str)
    (storeFlag : Str) : Except CliError (Store I) :=
  match cfg with
  | none => .error CliError.loadConfig
  | some cfg =>
    let storeName := if storeFlag = [] then cfg.DefaultStore else storeFlag
    match cfg.Stores.lookup storeName with
    | none => .error (CliError.storeNotFound storeName)
    | some storeConfig =>
      match Store.New x fs storeConfig.Path cfg.AgeKeyPath pfAudit with
      | .error e => .error (CliError.initStore e)
      | .ok s => .ok s

/-- The flags of `get`; `clipTime` is the duration as `%s` prints it. -/
structure GetFlags where
  store : Str
  clip : Bool
  clipTime : Str
  version : Int

/-- Go `runGet`. `clipboardOk` tells whether `clipboard.WriteAll` succeeds.
Without `--clip` the password is printed, followed by a line feed unless
its last byte `password[len(password)-1]` is one. -/
def runGet {R I : Type} (x : Ext R I) (env : Env) (fs : FS) (cfg : Option Config)
    (pfAudit : Str) (flags : GetFlags) (clipboardOk : Bool) (key : Str) : FS × CliOutcome :=
  match openStore x fs cfg pfAudit flags.store with
  | .error e => (fs, CliOutcome.err e)
  | .ok (s : Store I) =>
    match s.Get x env fs key flags.version with
    | (fs1, Outcome.fault) => (fs1, CliOutcome.fault)
    | (fs1, Outcome.err e) => (fs1, CliOutcome.err (CliError.getPassword e))
    | (fs1, Outcome.ok password) =>
      if flags.clip = true then
        if clipboardOk = true then
          (fs1, CliOutcome.ok ("Password for '".toList ++ key ++
            "' copied to clipboard. Will clear in ".toList ++ flags.clipTime ++ ".\n".toList))
        else (fs1, CliOutcome.err CliError.clipboard)
      else
        match goIndex password ((password.length : Int) - 1) with
        | none => (fs1, CliOutcome.fault)
        | some last =>
          if last ≠ '\n' then (fs1, CliOutcome.ok (password ++ ['\n']))
          else (fs1, CliOutcome.ok password)

/-- Go `%d` of `fmt.Sprintf` on an `int`. -/
def formatInt : Int → Str
  | Int.ofNat n => Nat.toDigits 10 n
  | Int.negSucc n => '-' :: Nat.toDigits 10 (n + 1)

/-- The message of a rollback: the `--message` flag or, when it is empty,
`Rollback to version %d`. -/
def rollbackMessage (messageFlag : Str) (versionNum : Int) : Str :=
  if messageFlag = [] then "Rollback to version ".toList ++ formatInt versionNum
  else messageFlag

/-- Go `runRollback`. `scan` is `fmt.Sscanf(version, "%d", &versionNum)`, with
`none` for its error; `envGet` and `envPut` are the surroundings of the two
calls on the store. -/
def runRollback {R I : Type} (x : Ext R I) (scan : Str → Option Int) (envGet envPut : Env)
    (fs : FS) (cfg : Option Config) (pfAudit : Str) (storeFlag messageFlag : Str)
    (key version : Str) : FS × CliOutcome :=
  match scan version with
  | none => (fs, CliOutcome.err (CliError.invalidVersion version))
  | some versionNum =>
    match openStore x fs cfg pfAudit storeFlag with
    | .error e => (fs, CliOutcome.err e)
    | .ok (s : Store I) =>
      match s.Get x envGet fs key versionNum with
      | (fs1, Outcome.fault) => (fs1, CliOutcome.fault)
      | (fs1, Outcome.err e) => (fs1, CliOutcome.err (CliError.getVersion versionNum e))
      | (fs1, Outcome.ok oldPassword) =>
        let message := rollbackMessage messageFlag versionNum
        match s.Put x envPut fs1 key oldPassword message with
        | (fs2, some e) => (fs2, CliOutcome.err (CliError.rollback e))
        | (fs2, none) =>
          (fs2, CliOutcome.ok ("Successfully rolled back '".toList ++ key ++
            "' to version ".toList ++ formatInt versionNum ++ "\n".toList))

/-! ## Notions used in the statements -/

/-- The name test of `List`: the last component ends in `.yaml`. -/
def yamlNamed (p : Path) : Bool := HasSuffix (p.getLastD []) yamlExt

/-- The paths the table records. -/
def FS.paths (fs : FS) : List Path := fs.map Prod.fst

/-- The step from `fs` to `fs1` touches the path `a` only, where `fs` has no
directory and `fs1` a regular file. -/
def FS.FileEdit (a : Path) (fs fs1 : FS) : Prop :=
  a ≠ [] ∧ (∀ q, q ≠ a → fs1.get q = fs.get q) ∧ fs.get a ≠ some Node.dir ∧
    (∃ d, fs1.get a = some (Node.file d)) ∧ (fs.paths.Nodup → fs1.paths.Nodup)

/-- The version numbers of a list ascend from 1 without gap: the element at
position `i` (0-based) has `Version = i + 1`. -/
def Ascending (vs : List Version) : Prop :=
  ∀ (i : Nat) (v : Version), vs[i]? = some v → v.Version = (i : Int) + 1

/-- The invariant of a version list: not empty, and numbered 1, 2, … -/
def Numbered (vs : List Version) : Prop := vs ≠ [] ∧ Ascending vs

/-- Every entry file of the file system (a regular file named `*.yaml`) that
parses holds a numbered version list. -/
def FS.EntriesNumbered {R I : Type} (x : Ext R I) (fs : FS) : Prop :=
  ∀ (p : Path) (d : Str) (e : Entry), fs.get p = some (Node.file d) → yamlNamed p = true →
    x.Unmarshal d = some e → Numbered e.Versions

/-- A call on the store. -/
inductive Op where
  | put (env : Env) (key password message : Str)
  | delete (env : Env) (key : Str)
  | get (env : Env) (key : Str) (version : Int)

/-- The file system after one call, whatever the call returns. -/
def Store.step {R I : Type} (x : Ext R I) (s : Store I) (fs : FS) : Op → FS
  | Op.put env key password message => (s.Put x env fs key password message).1
  | Op.delete env key => (s.Delete env fs key).1
  | Op.get env key version => (s.Get x env fs key version).1

/-- The file system after a sequence of calls. -/
def Store.run {R I : Type} (x : Ext R I) (s : Store I) (fs : FS) (ops : List Op) : FS :=
  ops.foldl (s.step x) fs

/-- The file system that holds the empty store of `s` and nothing else: the
directories down to the store root. -/
def Store.emptyFS {I : Type} (s : Store I) : FS := (FS.MkdirAll [] s.path).1

/-- Successive `Put` calls on one key, each with its surroundings, plaintext
and message: the file system at the end when every call succeeds. -/
def Store.putAll {R I : Type} (x : Ext R I) (s : Store I) (key : Str) :
    List (Env × Str × Str) → FS → Option FS
  | [], fs => some fs
  | (env, password, message) :: rest, fs =>
    match s.Put x env fs key password message with
    | (fs1, none) => Store.putAll x s key rest fs1
    | (_, some _) => none

/-- Successive `Put` calls on one key, each of which succeeds and leaves an
entry file that `loadEntry` reads: the file system at the end. -/
def Store.putAllRead {R I : Type} (x : Ext R I) (s : Store I) (key : Str) :
    List (Env × Str × Str) → FS → Option FS
  | [], fs => some fs
  | (env, password, message) :: rest, fs =>
    match s.Put x env fs key password message with
    | (fs1, none) =>
      match s.loadEntry x fs1 key with
      | .ok _ => Store.putAllRead x s key rest fs1
      | .error _ => none
    | (_, some _) => none

/-- The history of a version list as the specification words it: the list
reversed, every `Password` cleared, cut to its first `limit` elements exactly
when `0 < limit < len`. -/
def GetHistorySpec (vs : List Version) (limit : Int) : List Version :=
  let scrubbed := vs.reverse.map (fun v => { v with Password := [] })
  if 0 < limit ∧ limit < (vs.length : Int) then scrubbed.take limit.toNat else scrubbed

/-- A key made of non-empty `/`-separated segments none of which begins
with `.`. -/
def NiceKey (key : Str) : Prop :=
  ∀ seg ∈ splitSlash key, seg ≠ [] ∧ seg.head? ≠ some '.'

/-- The key `List` derives from the path of an entry file. -/
def Store.keyOf {I : Type} (s : Store I) (path : Path) : Str :=
  TrimSuffix (Rel s.path path) yamlExt

/-- Successive `Put` calls, each with its surroundings, key, plaintext and
message: the file system at the end and the keys whose call succeeded. -/
def Store.putKeys {R I : Type} (x : Ext R I) (s : Store I) :
    List (Env × Str × Str × Str) → FS → FS × List Str
  | [], fs => (fs, [])
  | (env, key, password, message) :: rest, fs =>
    match s.Put x env fs key password message with
    | (fs1, none) =>
      let r := Store.putKeys x s rest fs1
      (r.1, key :: r.2)
    | (fs1, some _) => Store.putKeys x s rest fs1

/-- What the function of `List` adds for one visited node: the key of a
regular file named `*.yaml` whose key passes the hidden-file test. -/
def Store.listKey {I : Type} (s : Store I) (e : Path × Node) : Option Str :=
  if e.2.isFile = false then none
  else if yamlNamed e.1 then
    if (!HasPrefix (Base (s.keyOf e.1)) ['.']) && (!Contains (s.keyOf e.1) ['/', '.']) then
      some (s.keyOf e.1)
    else none
  else none

/-- The state of a store into which the keys `W`, all of them nice, have been
written: the table records every path once, the store root is a directory,
the entry files are exactly those of the keys in `W`, and each holds a
serialised entry that carries its key. -/
def Store.ListInv {R I : Type} (x : Ext R I) (s : Store I) (fs : FS) (W : Str → Prop) :
    Prop :=
  fs.paths.Nodup ∧ fs.stat s.path = .ok Node.dir ∧
  (∀ p d, fs.get p = some (Node.file d) → yamlNamed p = true →
    ∃ k, W k ∧ p = s.getEntryPath k ∧ ∃ e, x.Marshal e = some d ∧ e.Key = k) ∧
  (∀ k, W k → ∃ d, fs.get (s.getEntryPath k) = some (Node.file d)) ∧
  (∀ k, W k → NiceKey k)

/-- A name a directory can hold: not empty, without `/`, and neither `.`
nor `..`. -/
def ValidName (c : Str) : Prop := c ≠ [] ∧ '/' ∉ c ∧ c ≠ ['.'] ∧ c ≠ ['.', '.']

/-- The table is a directory tree: every path is recorded once, is made of
valid names, and lies in a recorded directory (or in the root). -/
def FS.WF (fs : FS) : Prop :=
  fs.paths.Nodup ∧
    ∀ e ∈ fs, e.1 ≠ [] ∧ (∀ c ∈ e.1, ValidName c) ∧
      (e.1.dropLast ≠ [] → fs.get e.1.dropLast = some Node.dir)

/-- The lines of an identity file that the specification keeps: trimmed of
white space, not empty, not beginning with `#`, and parsing as an identity. -/
def identityLinesSpec {R I : Type} (x : Ext R I) (data : Str) : List Str :=
  ((splitLines data).map TrimSpace).filter
    (fun l => decide (l ≠ []) && !HasPrefix l ['#'] && (x.ParseX25519Identity l).isSome)

/-- The lines of a recipient file that the specification keeps: trimmed of
white space, not empty, not beginning with `#`, and parsing as a recipient. -/
def recipientLinesSpec {R I : Type} (x : Ext R I) (data : Str) : List Str :=
  ((splitLines data).map TrimSpace).filter
    (fun l => decide (l ≠ []) && !HasPrefix l ['#'] && (x.ParseX25519Recipient l).isSome)

/-- Every recorded path is one the system can hold: no NUL byte, at most
`PATH_MAX` bytes in all, and a last name of at most `NAME_MAX` bytes. -/
def FS.Storable (fs : FS) : Prop := ∀ e ∈ fs, FS.absent e.1 = Errno.ENOENT

/-- The two file systems record the same node at every path but `a`. -/
def FS.AgreeOff (a : Path) (fs fs1 : FS) : Prop := ∀ q, q ≠ a → fs.get q = fs1.get q

/-- The store with its audit logger switched on or off. -/
def Store.withAudit {I : Type} (s : Store I) (enabled : Bool) : Store I :=
  { s with auditor := { path := s.auditor.path, enabled := enabled } }

/-- The surroundings with another outcome of the write on the audit log. -/
def Env.withAuditWrite (env : Env) (w : Option Errno) : Env :=
  { env with auditWriteErr := w }

/-- The path `p` keeps clear of the audit log: it does not run through the
audit log path, and it is not the store root, the directory of the log. -/
def Store.clearOfAudit {I : Type} (s : Store I) (p : Path) : Prop :=
  ¬ s.auditor.path <+: p ∧ p ≠ s.path

/-- A key made of non-empty `/`-separated segments none of which is `.` or
`..`. -/
def PlainKey (key : Str) : Prop :=
  ∀ seg ∈ splitSlash key, seg ≠ [] ∧ seg ≠ ['.'] ∧ seg ≠ ['.', '.']

/-- The two file systems record the same node at every path but `a`, where
both hold a regular file. -/
def FS.SameBut (a : Path) (fs fs1 : FS) : Prop :=
  FS.AgreeOff a fs fs1 ∧ (∃ d, fs.get a = some (Node.file d)) ∧
    (∃ d, fs1.get a = some (Node.file d))

/-! ## A small instance of the libraries

A concrete `Ext`, used to run the model on concrete inputs: a recipient is a
string that starts with `age1`, an identity one that starts with `AGE-`,
the ciphertext is the reversed plaintext behind a mark, and an entry is
written with length-prefixed fields, numbers in unary. -/

/-- A number in unary, closed by `0`. -/
def encNat (n : Nat) : Str := List.replicate n '1' ++ ['0']

/-- Read a number in unary. -/
def decNat : Str → Option (Nat × Str)
  | [] => none
  | c :: cs =>
    if c = '0' then some (0, cs)
    else if c = '1' then
      match decNat cs with
      | some (n, rest) => some (n + 1, rest)
      | none => none
    else none

/-- An integer: its sign, then its absolute value. -/
def encInt (i : Int) : Str := (if i < 0 then '-' else '+') :: encNat i.natAbs

/-- Read an integer. -/
def decInt : Str → Option (Int × Str)
  | [] => none
  | c :: cs =>
    match decNat cs with
    | none => none
    | some (n, rest) =>
      if c = '-' then (if n = 0 then none else some (-(n : Int), rest))
      else if c = '+' then some ((n : Int), rest)
      else none

/-- A string: its length, then its characters. -/
def encStr (s : Str) : Str := encNat s.length ++ s

/-- Read a string. -/
def decStr (t : Str) : Option (Str × Str) :=
  match decNat t with
  | none => none
  | some (n, rest) => if n ≤ rest.length then some (rest.take n, rest.drop n) else none

/-- A version: its five fields in order. -/
def encVersion (v : Version) : Str :=
  encInt v.Version ++ (encStr v.Password ++ (encInt v.Timestamp ++
    (encStr v.Author ++ encStr v.Message)))

/-- Read a version. -/
def decVersion (t : Str) : Option (Version × Str) :=
  match decInt t with
  | none => none
  | some (n, t1) =>
    match decStr t1 with
    | none => none
    | some (pw, t2) =>
      match decInt t2 with
      | none => none
      | some (ts, t3) =>
        match decStr t3 with
        | none => none
        | some (au, t4) =>
          match decStr t4 with
          | none => none
          | some (msg, t5) =>
            some ({ Version := n, Password := pw, Timestamp := ts, Author := au,
                    Message := msg }, t5)

/-- Versions one after the other. -/
def encVersions : List Version → Str
  | [] => []
  | v :: vs => encVersion v ++ encVersions vs

/-- Read `n` versions. -/
def decVersions : Nat → Str → Option (List Version × Str)
  | 0, t => some ([], t)
  | n + 1, t =>
    match decVersion t with
    | none => none
    | some (v, t1) =>
      match decVersions n t1 with
      | none => none
      | some (vs, t2) => some (v :: vs, t2)

/-- The entry file of the small instance. -/
def toyMarshal (e : Entry) : Str :=
  encStr e.Key ++ (encNat e.Versions.length ++ encVersions e.Versions)

/-- Read the entry file of the small instance. -/
def toyUnmarshal (t : Str) : Option Entry :=
  match decStr t with
  | none => none
  | some (key, t1) =>
    match decNat t1 with
    | none => none
    | some (n, t2) =>
      match decVersions n t2 with
      | none => none
      | some (vs, t3) => if t3 = [] then some { Key := key, Versions := vs } else none

/-- The small instance of the libraries. -/
def toyExt : Ext Str Str where
  ParseX25519Recipient := fun r => if HasPrefix r "age1".toList then some r else none
  ParseX25519Identity := fun i => if HasPrefix i "AGE-".toList then some i else none
  EncryptArmor := fun _ _ data => .ok ('E' :: data.reverse)
  DecryptArmor := fun _ encrypted =>
    match encrypted with
    | 'E' :: rest => .ok rest.reverse
    | _ => .error DecFail.decrypt
  Marshal := fun e => some (toyMarshal e)
  Unmarshal := toyUnmarshal

/-- A message that `yaml.v3` writes in a form it does not read back: a line
break, a space, a letter, a line break. -/
def quirkMessage : Str := "\n a\n".toList

/-- The small instance with that defect of `yaml.v3`: an entry file in which
some version carries `quirkMessage` is written, and does not parse. -/
def quirkExt : Ext Str Str where
  ParseX25519Recipient := toyExt.ParseX25519Recipient
  ParseX25519Identity := toyExt.ParseX25519Identity
  EncryptArmor := toyExt.EncryptArmor
  DecryptArmor := toyExt.DecryptArmor
  Marshal := toyExt.Marshal
  Unmarshal := fun t =>
    match toyUnmarshal t with
    | none => none
    | some e => if e.Versions.any (fun v => v.Message == quirkMessage) = true then none else some e

/-- A store at `/s` with one recipient and the matching identity, as `New`
builds it. -/
def toyStore : Store Str where
  path := ["s".toList]
  recipients := ["age1q".toList]
  identities := ["AGE-Q".toList]
  auditor := { path := ["s".toList, auditName], enabled := true }

/-- Surroundings for the examples. -/
def toyEnv : Env where
  now := 7
  stamp := "T".toList
  user := "u".toList
  entropy := 0
  auditWriteErr := none

/-- The file system that holds the empty store `/s` and nothing else. -/
def emptyStoreFS : FS := [(["s".toList], Node.dir)]

/-- The key of the examples. -/
def toyKey : Str := "a/b".toList

/-- The empty store after `Put(a/b, p1, m1)`. -/
def toyFS1 : FS :=
  (toyStore.Put toyExt toyEnv emptyStoreFS toyKey "p1".toList "m1".toList).1

/-- The store after a second `Put(a/b, p2, m2)`. -/
def toyFS2 : FS := (toyStore.Put toyExt toyEnv toyFS1 toyKey "p2".toList "m2".toList).1

/-- The entry of `a/b` in `toyFS1`. -/
def toyEntry1 : Entry where
  Key := toyKey
  Versions :=
    [{ Version := 1, Password := "E1p".toList, Timestamp := 7, Author := "u".toList,
       Message := "m1".toList }]

/-- The entry of `a/b` in `toyFS2`. -/
def toyEntry2 : Entry where
  Key := toyKey
  Versions :=
    [{ Version := 1, Password := "E1p".toList, Timestamp := 7, Author := "u".toList,
       Message := "m1".toList },
     { Version := 2, Password := "E2p".toList, Timestamp := 7, Author := "u".toList,
       Message := "m2".toList }]

/-- The two calls that lead from the empty store to `toyFS2`. -/
def toyOps : List Op :=
  [Op.put toyEnv toyKey "p1".toList "m1".toList, Op.put toyEnv toyKey "p2".toList "m2".toList]

/-- The same two calls as plaintexts and messages. -/
def toyPuts : List (Env × Str × Str) :=
  [(toyEnv, "p1".toList, "m1".toList), (toyEnv, "p2".toList, "m2".toList)]

/-- Three keys written out of order. -/
def toyKeyPuts : List (Env × Str × Str × Str) :=
  [(toyEnv, "z".toList, "p".toList, []), (toyEnv, "a/c".toList, "p".toList, []),
   (toyEnv, "a/b".toList, "p".toList, [])]

/-- The same three keys, `a/c` with the message that is not read back. -/
def quirkKeyPuts : List (Env × Str × Str × Str) :=
  [(toyEnv, "z".toList, "p".toList, []), (toyEnv, "a/c".toList, "p".toList, quirkMessage),
   (toyEnv, "a/b".toList, "p".toList, [])]

/-- A key of 300 bytes: longer than a file name may be. -/
def longKey : Str := List.replicate 300 'x'

/-- A store whose entry file `k.yaml` does not parse. -/
def corruptFS : FS :=
  [(["s".toList], Node.dir), (["s".toList, "k.yaml".toList], Node.file "garbage".toList)]

/-- A store with a hidden directory directly under its root. -/
def hiddenFS : FS :=
  [(["s".toList], Node.dir), (["s".toList, ".git".toList], Node.dir),
   (["s".toList, ".git".toList, "x.yaml".toList], Node.file [])]

/-- Surroundings in which the write on the audit log fails: the disk is
full. -/
def fullDiskEnv : Env := { toyEnv with auditWriteErr := some Errno.ENOSPC }

/-- A store whose audit log path is a directory, so that the log cannot be
opened. -/
def auditDirFS : FS :=
  [(["s".toList], Node.dir), (["s".toList, auditName], Node.dir)]

/-- A key file with a comment, a padded identity, a malformed line, a blank
line and a second identity. -/
def toyKeyFile : Str := "# key\n AGE-A \nbad\n\nAGE-B".toList

/-- A recipient file with a comment, a malformed line and two recipients. -/
def toyRecipientsFile : Str := "# r\nage1a\nbad\n\tage1b\n".toList

/-- A file system with a key file `/k` and a store `/s` with a recipient
file. -/
def toyConfigFS : FS :=
  [(["k".toList], Node.file toyKeyFile), (["s".toList], Node.dir),
   (["s".toList, recipientsName], Node.file toyRecipientsFile)]

/-- The store of the examples with its audit logger switched off. -/
def toyStoreQuiet : Store Str := toyStore.withAudit false

/-- A store whose root directory is named like an entry file. -/
def yamlRootStore : Store Str where
  path := ["r.yaml".toList]
  recipients := ["age1q".toList]
  identities := ["AGE-Q".toList]
  auditor := { path := ["r.yaml".toList, auditName], enabled := true }

/-- The file system that holds the empty store `/r.yaml` and nothing else. -/
def yamlRootFS : FS := [(["r.yaml".toList], Node.dir)]

/-- A store whose entry file `k.yaml` parses to an entry without versions. -/
def noVersionsFS : FS :=
  [(["s".toList], Node.dir),
   (["s".toList, "k.yaml".toList], Node.file (toyMarshal { Key := "k".toList, Versions := [] }))]

/-- The configuration of the examples: one store, `main`, at `/s`, and the key
file `/k`. -/
def toyConfig : Config where
  DefaultStore := "main".toList
  Stores := [("main".toList, { Path := ["s".toList], Recipients := [] })]
  AgeKeyPath := some ["k".toList]

/-- The store `New` builds on `toyConfigFS` from `toyConfig`. -/
def toyOpened : Store Str where
  path := ["s".toList]
  recipients := ["age1a".toList, "age1b".toList]
  identities := ["AGE-A".toList, "AGE-B".toList]
  auditor := { path := ["s".toList, auditName], enabled := true }

/-- The flags of a plain `pf get`: default store, no clipboard, latest
version. -/
def toyGetFlags : GetFlags where
  store := []
  clip := false
  clipTime := "45s".toList
  version := 0

/-- The configured store after `Put(k, "", "")`: the entry `k` holds the empty
plaintext. -/
def emptySecretFS : FS := (toyOpened.Put toyExt toyEnv toyConfigFS "k".toList [] []).1

/-- The store `New` builds on `toyConfigFS` when the key file is missing: the
recipients of `/s` and no identity. -/
def toyWriteOnly : Store Str := { toyOpened with identities := [] }

/-- A store whose recipient list cannot be read: `.recipients` is a
directory. -/
def recipientsDirFS : FS :=
  [(["s".toList], Node.dir), (["s".toList, recipientsName], Node.dir)]

/-- A reader of decimal digits, standing for `fmt.Sscanf` with `%d` in the
examples. -/
def toyScan (t : Str) : Option Int :=
  if t ≠ [] ∧ t.all Char.isDigit = true then
    some ((t.foldl (fun n c => 10 * n + (c.toNat - 48)) 0 : Nat) : Int)
  else none

/-- A second instance of the libraries, in which decryption needs the right
key: a key pair is named by the last character of its strings (`age1a` and
`AGE-a`), the ciphertext lists, behind their count, the names of its
recipients, and it opens for an identity whose name is listed. -/
def keyedExt : Ext Str Str where
  ParseX25519Recipient := toyExt.ParseX25519Recipient
  ParseX25519Identity := toyExt.ParseX25519Identity
  EncryptArmor := fun _ rs data =>
    .ok (encNat rs.length ++ (rs.map (fun r => r.getLastD 'x') ++ data))
  DecryptArmor := fun ids encrypted =>
    match decNat encrypted with
    | none => .error DecFail.decrypt
    | some (n, rest) =>
      if ids.any (fun i => (rest.take n).contains (i.getLastD 'x')) = true
      then .ok (rest.drop n)
      else .error DecFail.decrypt
  Marshal := toyExt.Marshal
  Unmarshal := toyExt.Unmarshal

/-- The key pairs of `keyedExt`: the identity and the recipient end in the
same character. -/
def keyedKeyOf (i r : Str) : Prop := i.getLastD 'x' = r.getLastD 'x'

/-- A store `/s` whose entry `k` was written for the recipient `a`, and whose
recipient list has since been changed to `b`; the key file `/k` holds the
identity of `a`. -/
def rotatedFS : FS :=
  (({ path := ["s".toList], recipients := ["age1a".toList], identities := ["AGE-a".toList],
      auditor := { path := ["s".toList, auditName], enabled := true } } : Store Str).Put
    keyedExt toyEnv
    [(["k".toList], Node.file "AGE-a".toList), (["s".toList], Node.dir),
     (["s".toList, recipientsName], Node.file "age1b\n".toList)]
    "k".toList "p1".toList []).1

/-- The store `New` builds on `rotatedFS`: the recipient `b`, the identity of
`a`. -/
def rotatedStore : Store Str where
  path := ["s".toList]
  recipients := ["age1b".toList]
  identities := ["AGE-a".toList]
  auditor := { path := ["s".toList, auditName], enabled := true }

/-- The store `toyFS1` with the key file `/k`; it has no recipient list. -/
def noRecipientsFS : FS := (["k".toList], Node.file toyKeyFile) :: toyFS1

/-- The store `New` builds on `noRecipientsFS`. -/
def noRecipientsStore : Store Str := { toyOpened with recipients := [] }

/-- An entry that carries the key `a`, with one version. -/
def toyEntryA : Entry where
  Key := "a".toList
  Versions :=
    [{ Version := 1, Password := "E1p".toList, Timestamp := 7, Author := "u".toList,
       Message := [] }]

/-- The configured store in which the entry file of `b` is a copy of the
entry file of `a`: it carries the key `a`. -/
def copiedFS : FS :=
  toyConfigFS ++
    [(["s".toList, "a.yaml".toList], Node.file (toyMarshal toyEntryA)),
     (["s".toList, "b.yaml".toList], Node.file (toyMarshal toyEntryA))]

/-- The configured store after `Put(k, p1, m1)` and `Put(k, p2, m2)`. -/
def twoVersionsFS : FS :=
  (toyOpened.Put toyExt toyEnv
    (toyOpened.Put toyExt toyEnv toyConfigFS "k".toList "p1".toList "m1".toList).1
    "k".toList "p2".toList "m2".toList).1

/-- The entry of `k` in `twoVersionsFS`. -/
def toyEntryK : Entry where
  Key := "k".toList
  Versions :=
    [{ Version := 1, Password := "E1p".toList, Timestamp := 7, Author := "u".toList,
       Message := "m1".toList },
     { Version := 2, Password := "E2p".toList, Timestamp := 7, Author := "u".toList,
       Message := "m2".toList }]

/-- The entry of `k` after `rollback k 1` on `twoVersionsFS`. -/
def toyEntryK3 : Entry where
  Key := "k".toList
  Versions :=
    [{ Version := 1, Password := "E1p".toList, Timestamp := 7, Author := "u".toList,
       Message := "m1".toList },
     { Version := 2, Password := "E2p".toList, Timestamp := 7, Author := "u".toList,
       Message := "m2".toList },
     { Version := 3, Password := "E1p".toList, Timestamp := 7, Author := "u".toList,
       Message := "Rollback to version 1".toList }]

/-! ## Lemmas on the small instance -/

theorem decNat_encNat (n : Nat) (rest : Str) : decNat (encNat n ++ rest) = some (n, rest) := by
  induction n with
  | zero => simp [encNat, decNat]
  | succ n ih =>
    have h : encNat (n + 1) ++ rest = '1' :: (encNat n ++ rest) := by
      simp [encNat, List.replicate_succ]
    rw [h, decNat, ih]
    simp

theorem decInt_encInt (i : Int) (rest : Str) : decInt (encInt i ++ rest) = some (i, rest) := by
  unfold encInt
  rw [List.cons_append, decInt, decNat_encNat]
  by_cases h : i < 0
  · have h0 : i.natAbs ≠ 0 := by omega
    simp only [h, h0, if_true, if_false, Option.some.injEq, Prod.mk.injEq, and_true]
    omega
  · have hc : ('+' = '-') = False := by decide
    simp only [h, hc, if_true, if_false, Option.some.injEq, Prod.mk.injEq, and_true]
    omega

theorem decStr_encStr (s rest : Str) : decStr (encStr s ++ rest) = some (s, rest) := by
  unfold encStr decStr
  rw [List.append_assoc, decNat_encNat]
  simp

theorem decVersion_encVersion (v : Version) (rest : Str) :
    decVersion (encVersion v ++ rest) = some (v, rest) := by
  unfold encVersion decVersion
  simp only [List.append_assoc, decInt_encInt, decStr_encStr]

theorem decVersions_encVersions (vs : List Version) (rest : Str) :
    decVersions vs.length (encVersions vs ++ rest) = some (vs, rest) := by
  induction vs with
  | nil => simp [decVersions, encVersions]
  | cons v vs ih =>
    simp only [List.length_cons, encVersions, decVersions, List.append_assoc,
      decVersion_encVersion, ih]

theorem toyUnmarshal_toyMarshal (e : Entry) : toyUnmarshal (toyMarshal e) = some e := by
  unfold toyUnmarshal toyMarshal
  have h := decVersions_encVersions e.Versions []
  rw [List.append_nil] at h
  simp only [decStr_encStr, decNat_encNat, h]
  simp


/-! ## Lemmas on the file system -/

theorem FS.get_set_self (fs : FS) (p : Path) (n : Node) : (fs.set p n).get p = some n := by
  induction fs with
  | nil => simp [FS.set, FS.get]
  | cons e rest ih =>
    obtain ⟨q, m⟩ := e
    by_cases h : q = p
    · simp [FS.set, FS.get, h]
    · simp [FS.set, FS.get, h, ih]

theorem FS.get_set_ne (fs : FS) {p q : Path} (n : Node) (h : q ≠ p) :
    (fs.set p n).get q = fs.get q := by
  induction fs with
  | nil => simp [FS.set, FS.get, Ne.symm h]
  | cons e rest ih =>
    obtain ⟨r, m⟩ := e
    by_cases hr : r = p
    · subst hr
      simp [FS.set, FS.get, Ne.symm h]
    · by_cases hq : r = q
      · subst hq
        simp [FS.set, FS.get, hr]
      · simp [FS.set, FS.get, hr, hq, ih]

theorem FS.get_erase_self (fs : FS) (p : Path) : (fs.erase p).get p = none := by
  induction fs with
  | nil => simp [FS.erase, FS.get]
  | cons e rest ih =>
    obtain ⟨r, m⟩ := e
    by_cases hr : r = p
    · simpa [FS.erase, List.filter_cons, hr] using ih
    · simpa [FS.erase, List.filter_cons, hr, FS.get] using ih

theorem FS.get_erase_ne (fs : FS) {p q : Path} (h : q ≠ p) :
    (fs.erase p).get q = fs.get q := by
  induction fs with
  | nil => simp [FS.erase, FS.get]
  | cons e rest ih =>
    obtain ⟨r, m⟩ := e
    by_cases hr : r = p
    · subst hr
      simpa [FS.erase, List.filter_cons, FS.get, Ne.symm h] using ih
    · by_cases hq : r = q
      · subst hq
        simp [FS.erase, List.filter_cons, hr, FS.get]
      · simpa [FS.erase, List.filter_cons, hr, FS.get, hq] using ih

theorem FS.node_set_self (fs : FS) {p : Path} (n : Node) (hp : p ≠ []) :
    (fs.set p n).node p = some n := by
  simp [FS.node, hp, FS.get_set_self]

theorem FS.node_set_ne (fs : FS) {p q : Path} (n : Node) (h : q ≠ p) :
    (fs.set p n).node q = fs.node q := by
  simp [FS.node, FS.get_set_ne fs n h]

theorem FS.node_erase_self (fs : FS) {p : Path} (hp : p ≠ []) : (fs.erase p).node p = none := by
  simp [FS.node, hp, FS.get_erase_self]

theorem FS.node_erase_ne (fs : FS) {p q : Path} (h : q ≠ p) :
    (fs.erase p).node q = fs.node q := by
  simp [FS.node, FS.get_erase_ne fs h]

theorem FS.resolve_congr (fs fs' : FS) (cs : List Str) :
    ∀ cur : Path, (∀ k, k ≤ cs.length → fs'.node (cur ++ cs.take k) = fs.node (cur ++ cs.take k)) →
      fs'.resolve cur cs = fs.resolve cur cs := by
  induction cs with
  | nil =>
    intro cur h
    have h0 := h 0 (Nat.le_refl _)
    simp only [List.take_nil, List.append_nil] at h0
    simp [FS.resolve, h0]
  | cons c cs ih =>
    intro cur h
    have h0 := h 0 (Nat.zero_le _)
    simp only [List.take_zero, List.append_nil] at h0
    have hrec : fs'.resolve (cur ++ [c]) cs = fs.resolve (cur ++ [c]) cs := by
      apply ih
      intro k hk
      have := h (k + 1) (by simpa using hk)
      simpa [List.take_succ_cons, List.append_assoc] using this
    simp [FS.resolve, h0, hrec]

theorem FS.resolve_ok_iff (fs : FS) (n : Node) (cs : List Str) :
    ∀ cur : Path, fs.resolve cur cs = .ok n ↔
      (∀ k, k < cs.length → fs.node (cur ++ cs.take k) = some Node.dir) ∧
        fs.node (cur ++ cs) = some n := by
  induction cs with
  | nil =>
    intro cur
    simp only [FS.resolve, List.length_nil, Nat.not_lt_zero, false_implies, implies_true,
      true_and, List.append_nil]
    cases h : fs.node cur <;> simp
  | cons c cs ih =>
    intro cur
    constructor
    · intro h
      simp only [FS.resolve] at h
      cases hn : fs.node cur with
      | none => simp [hn] at h
      | some m =>
        cases m with
        | file d => simp [hn] at h
        | dir =>
          simp only [hn] at h
          obtain ⟨h1, h2⟩ := (ih (cur ++ [c])).1 h
          refine ⟨?_, by simpa [List.append_assoc] using h2⟩
          intro k hk
          cases k with
          | zero => simpa using hn
          | succ k =>
            have := h1 k (by simpa using hk)
            simpa [List.take_succ_cons, List.append_assoc] using this
    · rintro ⟨h1, h2⟩
      have hn : fs.node cur = some Node.dir := by simpa using h1 0 (by simp)
      simp only [FS.resolve, hn]
      apply (ih (cur ++ [c])).2
      refine ⟨?_, by simpa [List.append_assoc] using h2⟩
      intro k hk
      have := h1 (k + 1) (by simpa using hk)
      simpa [List.take_succ_cons, List.append_assoc] using this

theorem FS.stat_ok_resolve (fs : FS) (p : Path) (n : Node) :
    fs.stat p = .ok n ↔ fs.resolve [] p = .ok n := by
  unfold FS.stat
  cases fs.resolve [] p <;> simp

theorem FS.stat_error_resolve (fs : FS) (p : Path) (e : Errno) :
    fs.stat p = .error e ↔ ∃ e0, fs.resolve [] p = .error e0 ∧ e = FS.fail p e0 := by
  unfold FS.stat
  cases fs.resolve [] p with
  | ok n => simp
  | error e0 =>
    simp only [Except.error.injEq, exists_eq_left']
    exact eq_comm

theorem FS.stat_ok_iff (fs : FS) (p : Path) (n : Node) :
    fs.stat p = .ok n ↔
      (∀ k, k < p.length → fs.node (p.take k) = some Node.dir) ∧ fs.node p = some n := by
  rw [FS.stat_ok_resolve]
  simpa using FS.resolve_ok_iff fs n p []

theorem FS.stat_congr (fs fs' : FS) (p : Path)
    (h : ∀ k, k ≤ p.length → fs'.node (p.take k) = fs.node (p.take k)) :
    fs'.stat p = fs.stat p := by
  have hr : fs'.resolve [] p = fs.resolve [] p := by
    apply FS.resolve_congr
    simpa using h
  simp only [FS.stat, hr]

theorem FS.resolve_missing (fs : FS) (cs : List Str) :
    ∀ cur : Path, (∀ k, k < cs.length → fs.node (cur ++ cs.take k) = some Node.dir) →
      fs.node (cur ++ cs) = none → fs.resolve cur cs = .error (FS.missing (cur ++ cs)) := by
  induction cs with
  | nil =>
    intro cur _ h2
    simp only [List.append_nil] at h2
    simp [FS.resolve, h2]
  | cons c cs ih =>
    intro cur h1 h2
    have hn : fs.node cur = some Node.dir := by simpa using h1 0 (by simp)
    simp only [FS.resolve, hn]
    have := ih (cur ++ [c])
      (by
        intro k hk
        have := h1 (k + 1) (by simpa using hk)
        simpa [List.take_succ_cons, List.append_assoc] using this)
      (by simpa [List.append_assoc] using h2)
    simpa [List.append_assoc] using this

theorem FS.stat_absent (fs : FS) (p : Path)
    (h1 : ∀ k, k < p.length → fs.node (p.take k) = some Node.dir) (h2 : fs.node p = none) :
    fs.stat p = .error (FS.absent p) := by
  have hr : fs.resolve [] p = .error (FS.missing p) := by
    have := FS.resolve_missing fs p [] (by simpa using h1) (by simpa using h2)
    simpa using this
  simp only [FS.stat, hr, FS.absent]

theorem FS.take_ne_self {p : Path} {k : Nat} (hk : k < p.length) : p.take k ≠ p := by
  intro h
  have := congrArg List.length h
  simp at this
  omega

theorem FS.dirs_above_of_parent (fs : FS) (p : Path) (hp : p ≠ [])
    (hs : fs.stat p.dropLast = .ok Node.dir) :
    ∀ k, k < p.length → fs.node (p.take k) = some Node.dir := by
  rw [FS.stat_ok_iff] at hs
  obtain ⟨h1, h2⟩ := hs
  have hlen : 0 < p.length := List.length_pos.2 hp
  intro k hk
  by_cases hk1 : k < p.length - 1
  · have := h1 k (by simpa using hk1)
    rw [List.dropLast_eq_take, List.take_take] at this
    simpa [Nat.min_eq_left (Nat.le_of_lt hk1)] using this
  · have hk2 : k = p.length - 1 := by omega
    rw [List.dropLast_eq_take] at h2
    rw [hk2]
    exact h2

theorem FS.stat_dropLast (fs : FS) (p : Path) (n : Node) (h : fs.stat p = .ok n)
    (hp : p ≠ []) : fs.stat p.dropLast = .ok Node.dir := by
  rw [FS.stat_ok_iff] at h ⊢
  obtain ⟨h1, _⟩ := h
  have hlen : 0 < p.length := List.length_pos.2 hp
  constructor
  · intro k hk
    have hk1 : k < p.length - 1 := by simpa using hk
    have := h1 k (by omega)
    rw [List.dropLast_eq_take, List.take_take]
    simpa [Nat.min_eq_left (Nat.le_of_lt hk1)] using this
  · rw [List.dropLast_eq_take]
    exact h1 (p.length - 1) (by omega)

theorem FS.stat_of_parent (fs : FS) (p : Path) (hp : p ≠ [])
    (hs : fs.stat p.dropLast = .ok Node.dir) :
    (∀ n, fs.node p = some n → fs.stat p = .ok n) ∧
      (fs.node p = none → fs.stat p = .error (FS.absent p)) := by
  have hdirs := FS.dirs_above_of_parent fs p hp hs
  exact ⟨fun n hn => (FS.stat_ok_iff fs p n).2 ⟨hdirs, hn⟩, FS.stat_absent fs p hdirs⟩

/-- The two ways an open with `O_CREATE` succeeds: the path names a regular
file, or only its last name is missing. -/
theorem FS.open_cases (fs : FS) (p : Path) :
    (∃ d, fs.stat p = .ok (Node.file d) ∧ fs.get p = some (Node.file d) ∧ p ≠ [] ∧
      fs.stat p.dropLast = .ok Node.dir) ∨
    (fs.stat p = .ok Node.dir) ∨
    (fs.stat p = .error Errno.ENOENT ∧ fs.stat p.dropLast = .ok Node.dir ∧ fs.get p = none ∧
      p ≠ []) ∨
    (∃ e, fs.stat p = .error e ∧ ¬ (e = Errno.ENOENT ∧ fs.stat p.dropLast = .ok Node.dir)) := by
  cases hs : fs.stat p with
  | ok n =>
    cases n with
    | dir => exact Or.inr (Or.inl rfl)
    | file d =>
      have hp : p ≠ [] := by
        intro h0
        have := ((FS.stat_ok_iff fs p _).1 hs).2
        simp [FS.node, h0] at this
      have hg : fs.get p = some (Node.file d) := by
        simpa [FS.node, hp] using ((FS.stat_ok_iff fs p _).1 hs).2
      exact Or.inl ⟨d, rfl, hg, hp, FS.stat_dropLast fs p _ hs hp⟩
  | error e =>
    by_cases h : e = Errno.ENOENT ∧ fs.stat p.dropLast = .ok Node.dir
    · obtain ⟨he, hpar⟩ := h
      subst he
      have hp : p ≠ [] := by
        intro h0
        subst h0
        have : fs.stat [] = .ok Node.dir := (FS.stat_ok_iff fs [] _).2 ⟨by simp, by simp [FS.node]⟩
        rw [this] at hs
        cases hs
      have hnone : fs.node p = none := by
        cases hn : fs.node p with
        | none => rfl
        | some n =>
          rw [(FS.stat_of_parent fs p hp hpar).1 n hn] at hs
          cases hs
      exact Or.inr (Or.inr (Or.inl ⟨rfl, hpar, by simpa [FS.node, hp] using hnone, hp⟩))
    · exact Or.inr (Or.inr (Or.inr ⟨e, rfl, h⟩))


theorem FS.mem_paths_set (fs : FS) (p q : Path) (n : Node) :
    q ∈ (fs.set p n).paths ↔ q = p ∨ q ∈ fs.paths := by
  induction fs with
  | nil => simp [FS.set, FS.paths]
  | cons e rest ih =>
    obtain ⟨r, m⟩ := e
    by_cases hr : r = p
    · subst hr
      simp [FS.set, FS.paths]
    · simp only [FS.paths] at ih
      simp only [FS.set, hr, if_false, FS.paths, List.map_cons, List.mem_cons, ih]
      tauto

theorem FS.nodup_set (fs : FS) (p : Path) (n : Node) (h : fs.paths.Nodup) :
    (fs.set p n).paths.Nodup := by
  induction fs with
  | nil => simp [FS.set, FS.paths]
  | cons e rest ih =>
    obtain ⟨r, m⟩ := e
    have h' : r ∉ FS.paths rest ∧ (FS.paths rest).Nodup := by
      simpa [FS.paths] using h
    by_cases hr : r = p
    · subst hr
      simpa [FS.set, FS.paths] using h
    · have hmem : r ∉ (FS.set rest p n).paths := by
        rw [FS.mem_paths_set]
        tauto
      have := ih h'.2
      simp only [FS.set, hr, if_false]
      simp only [FS.paths, List.map_cons, List.nodup_cons]
      exact ⟨hmem, this⟩

theorem FS.nodup_erase (fs : FS) (p : Path) (h : fs.paths.Nodup) : (fs.erase p).paths.Nodup := by
  unfold FS.paths FS.erase at *
  exact (List.Nodup.sublist ((List.filter_sublist fs).map Prod.fst) h)

theorem FS.get_eq_none_iff (fs : FS) (p : Path) : fs.get p = none ↔ p ∉ fs.paths := by
  induction fs with
  | nil => simp [FS.get, FS.paths]
  | cons e rest ih =>
    obtain ⟨r, m⟩ := e
    simp only [FS.paths] at ih
    by_cases hr : r = p
    · simp [FS.get, FS.paths, hr]
    · simp [FS.get, FS.paths, hr, ih, Ne.symm hr]

theorem FS.get_of_mem (fs : FS) (p : Path) (n : Node) (hnd : fs.paths.Nodup)
    (h : (p, n) ∈ fs) : fs.get p = some n := by
  induction fs with
  | nil => simp at h
  | cons e rest ih =>
    obtain ⟨r, m⟩ := e
    have h' : r ∉ FS.paths rest ∧ (FS.paths rest).Nodup := by
      simpa [FS.paths] using hnd
    rcases List.mem_cons.1 h with h1 | h1
    · simp only [Prod.mk.injEq] at h1
      simp [FS.get, h1.1, h1.2]
    · have hne : r ≠ p := by
        intro hr
        apply h'.1
        rw [hr]
        exact List.mem_map_of_mem Prod.fst h1
      simp [FS.get, hne, ih h'.2 h1]

theorem FS.mem_of_get (fs : FS) (p : Path) (n : Node) (h : fs.get p = some n) : (p, n) ∈ fs := by
  induction fs with
  | nil => simp [FS.get] at h
  | cons e rest ih =>
    obtain ⟨r, m⟩ := e
    by_cases hr : r = p
    · simp only [FS.get, hr, if_true, Option.some.injEq] at h
      simp [hr, h]
    · simp only [FS.get, hr, if_false] at h
      exact List.mem_cons_of_mem _ (ih h)

theorem FS.FileEdit.node_ne {a : Path} {fs fs1 : FS} (h : FS.FileEdit a fs fs1) {q : Path}
    (hq : q ≠ a) : fs1.node q = fs.node q := by
  simp [FS.node, h.2.1 q hq]

theorem FS.FileEdit.stat_ok_congr {a : Path} {fs fs1 : FS} (h : FS.FileEdit a fs fs1) {p : Path}
    (hp : p ≠ a) (n : Node) : fs1.stat p = .ok n ↔ fs.stat p = .ok n := by
  obtain ⟨ha, hne, hold, ⟨d, hnew⟩, _⟩ := h
  have hnode : ∀ q, q ≠ a → fs1.node q = fs.node q := fun q hq => by
    simp [FS.node, hne q hq]
  have hold' : fs.node a ≠ some Node.dir := by simpa [FS.node, ha] using hold
  have hnew' : fs1.node a ≠ some Node.dir := by simp [FS.node, ha, hnew]
  rw [FS.stat_ok_iff, FS.stat_ok_iff]
  by_cases hex : ∃ k, k < p.length ∧ p.take k = a
  · obtain ⟨k, hk, hka⟩ := hex
    constructor
    · rintro ⟨h1, _⟩
      exact absurd (hka ▸ h1 k hk) hnew'
    · rintro ⟨h1, _⟩
      exact absurd (hka ▸ h1 k hk) hold'
  · have hk : ∀ k, k < p.length → p.take k ≠ a := fun k hk hka => hex ⟨k, hk, hka⟩
    constructor
    · rintro ⟨h1, h2⟩
      refine ⟨fun k hlt => ?_, ?_⟩
      · rw [← hnode _ (hk k hlt)]; exact h1 k hlt
      · rw [← hnode _ hp]; exact h2
    · rintro ⟨h1, h2⟩
      refine ⟨fun k hlt => ?_, ?_⟩
      · rw [hnode _ (hk k hlt)]; exact h1 k hlt
      · rw [hnode _ hp]; exact h2

theorem FS.FileEdit.readFile_ok_iff {a : Path} {fs fs1 : FS} (h : FS.FileEdit a fs fs1)
    {p : Path} (hp : p ≠ a) (d : Str) : fs1.ReadFile p = .ok d ↔ fs.ReadFile p = .ok d := by
  have key : ∀ g : FS, g.ReadFile p = .ok d ↔ g.stat p = .ok (Node.file d) := by
    intro g
    unfold FS.ReadFile
    cases hs : g.stat p with
    | error e => simp
    | ok n => cases n <;> simp
  rw [key, key, h.stat_ok_congr hp]

theorem FS.FileEdit_set (fs : FS) {a : Path} (d : Str) (ha : a ≠ [])
    (hold : fs.get a ≠ some Node.dir) : FS.FileEdit a fs (fs.set a (Node.file d)) :=
  ⟨ha, fun _ hq => FS.get_set_ne fs _ hq, hold, ⟨d, FS.get_set_self fs a _⟩,
    FS.nodup_set fs a _⟩

theorem FS.FileEdit.trans_set {fs fs1 : FS} {a : Path} (h : FS.FileEdit a fs fs1) (d : Str) :
    FS.FileEdit a fs (fs1.set a (Node.file d)) :=
  ⟨h.1, fun q hq => by rw [FS.get_set_ne fs1 _ hq, h.2.1 q hq], h.2.2.1,
    ⟨d, FS.get_set_self fs1 a _⟩, fun hnd => FS.nodup_set fs1 a _ (h.2.2.2.2 hnd)⟩

theorem FS.OpenAppend_effect (fs fs1 : FS) (a : Path) (h : fs.OpenAppend a = .ok fs1) :
    a ≠ [] ∧ fs.get a ≠ some Node.dir ∧
      ((∃ d, fs.get a = some (Node.file d) ∧ fs1 = fs) ∨
        (fs.get a = none ∧ fs1 = fs.set a (Node.file []))) := by
  unfold FS.OpenAppend at h
  rcases FS.open_cases fs a with ⟨d, hs, hg, ha, _⟩ | hs | ⟨hs, hpar, hg, ha⟩ | ⟨e, hs, hne⟩
  · simp only [hs, Except.ok.injEq] at h
    exact ⟨ha, by simp [hg], Or.inl ⟨d, hg, h.symm⟩⟩
  · simp [hs] at h
  · simp only [hs, hpar, Except.ok.injEq] at h
    exact ⟨ha, by simp [hg], Or.inr ⟨hg, h.symm⟩⟩
  · simp only [hs] at h
    split at h
    · rename_i heq1 heq2
      exact absurd ⟨rfl, heq2⟩ hne
    · cases h

theorem Logger.Log_effect (l : Logger) (env : Env) (fs : FS) (event key details : Str) :
    (l.Log env fs event key details).1 = fs ∨
      FS.FileEdit l.path fs (l.Log env fs event key details).1 := by
  unfold Logger.Log
  by_cases hen : l.enabled = false
  · simp [hen]
  · simp only [hen, if_false]
    cases ho : fs.OpenAppend l.path with
    | error e => simp
    | ok fs1 =>
      obtain ⟨ha, hold, hcase⟩ := FS.OpenAppend_effect fs fs1 l.path ho
      rcases hcase with ⟨d, hd, rfl⟩ | ⟨hnone, rfl⟩
      · cases hw : env.auditWriteErr with
        | some e => simp
        | none =>
          right
          simp only [FS.appendTo, FS.node, ha, if_false, hd]
          exact FS.FileEdit_set _ _ ha hold
      · right
        have hfe := FS.FileEdit_set fs [] ha hold
        cases hw : env.auditWriteErr with
        | some e => simpa using hfe
        | none =>
          simp only [FS.appendTo, FS.node, ha, if_false, FS.get_set_self]
          exact hfe.trans_set _


/-! ## Lemmas on paths -/

theorem splitSlash_noslash (b : Str) (hb : '/' ∉ b) : splitSlash b = [b] := by
  induction b with
  | nil => rfl
  | cons c cs ih =>
    have hc : c ≠ '/' := fun h => hb (by simp [h])
    have hcs : '/' ∉ cs := fun h => hb (List.mem_cons_of_mem _ h)
    simp [splitSlash, hc, ih hcs]

theorem splitSlash_append_noslash (a b : Str) (hb : '/' ∉ b) :
    ∃ init last, splitSlash a = init ++ [last] ∧ splitSlash (a ++ b) = init ++ [last ++ b] := by
  induction a with
  | nil => exact ⟨[], [], rfl, by simpa using splitSlash_noslash b hb⟩
  | cons c cs ih =>
    obtain ⟨init, last, h1, h2⟩ := ih
    by_cases hc : c = '/'
    · exact ⟨[] :: init, last, by simp [splitSlash, hc, h1], by simp [splitSlash, hc, h2]⟩
    · cases init with
      | nil =>
        exact ⟨[], c :: last, by simp [splitSlash, hc, h1], by
          simp only [List.nil_append] at h2
          simp [splitSlash, hc, h2]⟩
      | cons i is =>
        exact ⟨(c :: i) :: is, last, by simp [splitSlash, hc, h1], by
          simp only [List.cons_append] at h2
          simp [splitSlash, hc, h2]⟩

theorem cleanStep_yaml (acc : Path) (last : Str) :
    cleanStep acc (last ++ yamlExt) = acc ++ [last ++ yamlExt] := by
  have hlen : 5 ≤ (last ++ yamlExt).length := by simp [yamlExt]
  have h0 : last ++ yamlExt ≠ [] := fun h => by rw [h] at hlen; simp at hlen
  have h1 : last ++ yamlExt ≠ ['.'] := fun h => by rw [h] at hlen; simp at hlen
  have h2 : last ++ yamlExt ≠ ['.', '.'] := fun h => by rw [h] at hlen; simp at hlen
  simp [cleanStep, h0, h1, h2]

theorem Store.getEntryPath_eq {I : Type} (s : Store I) (key : Str) :
    ∃ acc last, s.getEntryPath key = acc ++ [last ++ yamlExt] := by
  obtain ⟨init, last, _, h2⟩ := splitSlash_append_noslash key yamlExt (by decide)
  refine ⟨init.foldl cleanStep s.path, last, ?_⟩
  simp [Store.getEntryPath, Join, h2, List.foldl_append, cleanStep_yaml]

theorem Store.getEntryPath_ne_nil {I : Type} (s : Store I) (key : Str) :
    s.getEntryPath key ≠ [] := by
  obtain ⟨acc, last, h⟩ := s.getEntryPath_eq key
  simp [h]

theorem Store.yamlNamed_getEntryPath {I : Type} (s : Store I) (key : Str) :
    yamlNamed (s.getEntryPath key) = true := by
  obtain ⟨acc, last, h⟩ := s.getEntryPath_eq key
  simp [h, yamlNamed, HasSuffix]

theorem Store.getEntryPath_ne_audit {I : Type} (s : Store I) (hs : s.Built) (key : Str) :
    s.getEntryPath key ≠ s.auditor.path := by
  intro h
  have hy := s.yamlNamed_getEntryPath key
  rw [h, hs] at hy
  simp [yamlNamed] at hy
  revert hy
  decide


theorem splitSlash_ne_nil (t : Str) : splitSlash t ≠ [] := by
  cases t with
  | nil => simp [splitSlash]
  | cons c cs =>
    by_cases hc : c = '/'
    · simp [splitSlash, hc]
    · simp only [splitSlash, hc, if_false]
      split <;> simp

theorem joinSlash_cons_cons (a b : Str) (rest : List Str) :
    joinSlash (a :: b :: rest) = a ++ '/' :: joinSlash (b :: rest) := rfl

theorem joinSlash_splitSlash (t : Str) : joinSlash (splitSlash t) = t := by
  induction t with
  | nil => rfl
  | cons c cs ih =>
    by_cases hc : c = '/'
    · simp only [splitSlash, hc, if_true]
      cases hs : splitSlash cs with
      | nil => exact absurd hs (splitSlash_ne_nil cs)
      | cons a rest =>
        rw [joinSlash_cons_cons, ← hs, ih]
        rfl
    · simp only [splitSlash, hc, if_false]
      cases hs : splitSlash cs with
      | nil => exact absurd hs (splitSlash_ne_nil cs)
      | cons a rest =>
        rw [hs] at ih
        cases rest with
        | nil =>
          simp only [joinSlash] at ih ⊢
          rw [ih]
        | cons b rest2 =>
          rw [joinSlash_cons_cons] at ih
          simp only [joinSlash_cons_cons, List.cons_append]
          rw [ih]

theorem splitSlash_append_slash (u t : Str) :
    splitSlash (u ++ '/' :: t) = splitSlash u ++ splitSlash t := by
  induction u with
  | nil => simp [splitSlash]
  | cons c cs ih =>
    by_cases hc : c = '/'
    · simp [splitSlash, hc, ih]
    · simp only [List.cons_append, splitSlash, hc, if_false]
      have ih2 : splitSlash (cs.append ('/' :: t)) = splitSlash cs ++ splitSlash t := ih
      rw [ih2]
      cases hs : splitSlash cs with
      | nil => exact absurd hs (splitSlash_ne_nil cs)
      | cons a rest => simp

theorem splitSlash_mem_noslash (t : Str) : ∀ seg ∈ splitSlash t, '/' ∉ seg := by
  induction t with
  | nil => simp [splitSlash]
  | cons c cs ih =>
    by_cases hc : c = '/'
    · simp only [splitSlash, hc, if_true, List.mem_cons]
      rintro seg (rfl | hs)
      · simp
      · exact ih seg hs
    · simp only [splitSlash, hc, if_false]
      cases hs : splitSlash cs with
      | nil => exact absurd hs (splitSlash_ne_nil cs)
      | cons a rest =>
        rw [hs] at ih
        simp only [List.mem_cons]
        rintro seg (rfl | hmem)
        · have := ih a (List.mem_cons_self _ _)
          simp only [List.mem_cons, not_or]
          exact ⟨fun h => hc h.symm, this⟩
        · exact ih seg (List.mem_cons_of_mem _ hmem)

theorem splitSlash_head (c : Char) (w : Str) (hc : c ≠ '/') :
    ∃ seg segs, splitSlash (c :: w) = (c :: seg) :: segs := by
  simp only [splitSlash, hc, if_false]
  cases hs : splitSlash w with
  | nil => exact ⟨[], [], rfl⟩
  | cons a rest => exact ⟨a, rest, rfl⟩

theorem NiceKey.not_contains {key : Str} (h : NiceKey key) : Contains key ['/', '.'] = false := by
  simp only [Contains, decide_eq_false_iff_not]
  rintro ⟨u, w, huw⟩
  have hk : key = u ++ '/' :: ('.' :: w) := by simp [← huw]
  obtain ⟨seg, segs, hseg⟩ := splitSlash_head '.' w (by decide)
  have hmem : ('.' :: seg) ∈ splitSlash key := by
    rw [hk, splitSlash_append_slash, hseg]
    simp
  exact (h _ hmem).2 rfl

theorem foldl_cleanStep_valid (segs : List Str)
    (h : ∀ seg ∈ segs, seg ≠ [] ∧ seg ≠ ['.'] ∧ seg ≠ ['.', '.']) :
    ∀ acc : Path, segs.foldl cleanStep acc = acc ++ segs := by
  induction segs with
  | nil => intro acc; simp
  | cons seg rest ih =>
    intro acc
    have hseg := h seg (List.mem_cons_self _ _)
    rw [List.foldl_cons, ih (fun s hs => h s (List.mem_cons_of_mem _ hs))]
    simp [cleanStep, hseg.1, hseg.2.1, hseg.2.2]

theorem foldl_cleanStep_nice (segs : List Str)
    (h : ∀ seg ∈ segs, seg ≠ [] ∧ seg.head? ≠ some '.') :
    ∀ acc : Path, segs.foldl cleanStep acc = acc ++ segs := by
  apply foldl_cleanStep_valid
  intro seg hs
  have hseg := h seg hs
  exact ⟨hseg.1, fun h0 => hseg.2 (by rw [h0]; rfl), fun h0 => hseg.2 (by rw [h0]; rfl)⟩

theorem splitSlash_joinSlash (comps : List Str) (hne : comps ≠ [])
    (h : ∀ c ∈ comps, '/' ∉ c) : splitSlash (joinSlash comps) = comps := by
  induction comps with
  | nil => exact absurd rfl hne
  | cons a rest ih =>
    cases rest with
    | nil => simpa [joinSlash] using splitSlash_noslash a (h a (List.mem_cons_self _ _))
    | cons b rest2 =>
      rw [joinSlash_cons_cons, splitSlash_append_slash,
        splitSlash_noslash a (h a (List.mem_cons_self _ _)),
        ih (by simp) (fun c hc => h c (List.mem_cons_of_mem _ hc))]
      rfl

theorem Store.getEntryPath_nice {I : Type} (s : Store I) {key : Str} (h : NiceKey key) :
    ∃ init last, splitSlash key = init ++ [last] ∧ last ≠ [] ∧ '/' ∉ last ∧
      splitSlash (key ++ yamlExt) = init ++ [last ++ yamlExt] ∧
      s.getEntryPath key = s.path ++ (init ++ [last ++ yamlExt]) := by
  obtain ⟨init, last, h1, h2⟩ := splitSlash_append_noslash key yamlExt (by decide)
  have hinit : ∀ seg ∈ init, seg ≠ [] ∧ seg.head? ≠ some '.' := fun seg hs =>
    h seg (by rw [h1]; exact List.mem_append_left _ hs)
  have hlast : last ≠ [] := (h last (by rw [h1]; simp)).1
  have hns : '/' ∉ last := splitSlash_mem_noslash key last (by rw [h1]; simp)
  refine ⟨init, last, h1, hlast, hns, h2, ?_⟩
  simp only [Store.getEntryPath, Join, h2, List.foldl_append, List.foldl_cons, List.foldl_nil,
    cleanStep_yaml, foldl_cleanStep_nice init hinit, List.append_assoc]

theorem joinSlash_append_singleton (init : List Str) (last : Str) (h : init ≠ []) :
    joinSlash (init ++ [last]) = joinSlash init ++ '/' :: last := by
  induction init with
  | nil => exact absurd rfl h
  | cons a rest ih =>
    cases rest with
    | nil => simp [joinSlash]
    | cons b rest2 =>
      have := ih (by simp)
      simp only [List.cons_append] at this ⊢
      rw [joinSlash_cons_cons, this, joinSlash_cons_cons]
      simp

theorem joinSlash_append_last (init : List Str) (a b : Str) :
    joinSlash (init ++ [a ++ b]) = joinSlash (init ++ [a]) ++ b := by
  by_cases hi : init = []
  · subst hi
    simp [joinSlash]
  · rw [joinSlash_append_singleton _ _ hi, joinSlash_append_singleton _ _ hi]
    simp

theorem takeWhile_append_stop (p : Char → Bool) (a b : List Char) (ha : ∀ c ∈ a, p c = true)
    (hb : b = [] ∨ ∃ c r, b = c :: r ∧ p c = false) : (a ++ b).takeWhile p = a := by
  induction a with
  | nil =>
    rcases hb with rfl | ⟨c, r, rfl, hc⟩
    · rfl
    · simp [List.takeWhile, hc]
  | cons c cs ih =>
    have hc := ha c (List.mem_cons_self _ _)
    simp only [List.cons_append, List.takeWhile, hc]
    exact congrArg (fun l => c :: l) (ih (fun d hd => ha d (List.mem_cons_of_mem _ hd)))

theorem Base_of_last (pre last : Str) (hl : last ≠ []) (hns : '/' ∉ last)
    (hpre : pre = [] ∨ ∃ j, pre = j ++ ['/']) : Base (pre ++ last) = last := by
  have hne : pre ++ last ≠ [] := by simp [hl]
  have hrev : last.reverse ≠ [] := by simpa using hl
  obtain ⟨c, r, hcr⟩ := List.exists_cons_of_ne_nil hrev
  have hc : c ≠ '/' := by
    intro h
    apply hns
    have : c ∈ last.reverse := by rw [hcr]; simp
    rw [← h]
    exact List.mem_reverse.1 this
  have hstrip : ((pre ++ last).reverse.dropWhile (fun c => c == '/')).reverse = pre ++ last := by
    have hbeq : (c == '/') = false := by simpa using hc
    rw [List.reverse_append, hcr]
    simp only [List.cons_append, List.dropWhile, hbeq]
    have e1 : c :: r.append pre.reverse = (pre ++ last).reverse := by
      rw [List.reverse_append, hcr]
      rfl
    rw [e1, List.reverse_reverse]
  have htake : ((pre ++ last).reverse.takeWhile (fun c => c != '/')) = last.reverse := by
    rw [List.reverse_append]
    apply takeWhile_append_stop
    · intro d hd
      have : d ≠ '/' := fun h => hns (by rw [← h]; exact List.mem_reverse.1 hd)
      simpa using this
    · rcases hpre with rfl | ⟨j, rfl⟩
      · left; rfl
      · right
        exact ⟨'/', j.reverse, by simp, by simp⟩
  simp only [Base, hne, if_false, hstrip, htake, List.reverse_reverse, hl]

theorem NiceKey.base_visible {key : Str} (h : NiceKey key) :
    HasPrefix (Base key) ['.'] = false := by
  obtain ⟨init, last, h1, _⟩ := splitSlash_append_noslash key [] (by simp)
  have hmem : last ∈ splitSlash key := by rw [h1]; simp
  have hlast := h last hmem
  have hns := splitSlash_mem_noslash key last hmem
  have hkey : key = joinSlash (init ++ [last]) := by rw [← h1, joinSlash_splitSlash]
  have hbase : Base key = last := by
    by_cases hi : init = []
    · subst hi
      have : key = [] ++ last := by simpa [joinSlash] using hkey
      rw [this]
      exact Base_of_last [] last hlast.1 hns (Or.inl rfl)
    · rw [joinSlash_append_singleton _ _ hi] at hkey
      have : key = (joinSlash init ++ ['/']) ++ last := by simp [hkey]
      rw [this]
      exact Base_of_last _ last hlast.1 hns (Or.inr ⟨_, rfl⟩)
  rw [hbase]
  simp only [HasPrefix, decide_eq_false_iff_not]
  rintro ⟨t, ht⟩
  apply hlast.2
  rw [← ht]
  rfl

theorem TrimSuffix_append (key suffix : Str) : TrimSuffix (key ++ suffix) suffix = key := by
  simp [TrimSuffix, HasSuffix]

theorem Store.keyOf_getEntryPath {I : Type} (s : Store I) {key : Str} (h : NiceKey key) :
    s.keyOf (s.getEntryPath key) = key := by
  obtain ⟨init, last, _, _, _, h2, h3⟩ := s.getEntryPath_nice h
  have hdrop : (s.path ++ (init ++ [last ++ yamlExt])).drop s.path.length =
      init ++ [last ++ yamlExt] := List.drop_left _ _
  have hrel : Rel s.path (s.getEntryPath key) = key ++ yamlExt := by
    simp only [Rel, h3, hdrop]
    cases hs : init ++ [last ++ yamlExt] with
    | nil => simp at hs
    | cons a rest =>
      simp only []
      rw [← hs, ← h2, joinSlash_splitSlash]
  rw [Store.keyOf, hrel, TrimSuffix_append]

theorem Store.getEntryPath_injective {I : Type} (s : Store I) {k1 k2 : Str} (h1 : NiceKey k1)
    (h2 : NiceKey k2) (h : s.getEntryPath k1 = s.getEntryPath k2) : k1 = k2 := by
  rw [← s.keyOf_getEntryPath h1, h, s.keyOf_getEntryPath h2]

theorem Store.root_prefix_getEntryPath {I : Type} (s : Store I) {key : Str}
    (h : NiceKey key) : s.path <+: s.getEntryPath key := by
  obtain ⟨init, last, _, _, _, _, h3⟩ := s.getEntryPath_nice h
  rw [h3]
  exact List.prefix_append _ _

/-! ## Lemmas on the store -/

theorem Store.loadEntry_ok_iff {R I : Type} (x : Ext R I) (s : Store I) (fs : FS) (key : Str)
    (e : Entry) :
    s.loadEntry x fs key = .ok e ↔
      ∃ d, fs.ReadFile (s.getEntryPath key) = .ok d ∧ x.Unmarshal d = some e := by
  simp only [Store.loadEntry]
  cases hr : fs.ReadFile (s.getEntryPath key) with
  | error err =>
    by_cases hne : err.IsNotExist = true <;> simp [hne]
  | ok d =>
    cases hu : x.Unmarshal d <;> simp [hu]

theorem Store.loadEntry_Log {R I : Type} (x : Ext R I) (s : Store I) (hs : s.Built) (env : Env)
    (fs : FS) (event key details k : Str) (e : Entry) :
    s.loadEntry x (s.auditor.Log env fs event key details).1 k = .ok e ↔
      s.loadEntry x fs k = .ok e := by
  rcases Logger.Log_effect s.auditor env fs event key details with h | h
  · rw [h]
  · rw [Store.loadEntry_ok_iff, Store.loadEntry_ok_iff]
    have hp := s.getEntryPath_ne_audit hs k
    constructor
    · rintro ⟨d, h1, h2⟩
      exact ⟨d, (h.readFile_ok_iff hp d).1 h1, h2⟩
    · rintro ⟨d, h1, h2⟩
      exact ⟨d, (h.readFile_ok_iff hp d).2 h1, h2⟩

theorem FS.WriteFile_effect (fs fs2 : FS) (p : Path) (data : Str)
    (h : fs.WriteFile p data = .ok fs2) :
    p ≠ [] ∧ fs.stat p.dropLast = .ok Node.dir ∧ fs.get p ≠ some Node.dir ∧
      fs2 = fs.set p (Node.file data) := by
  unfold FS.WriteFile at h
  rcases FS.open_cases fs p with ⟨d, hs, hg, hp, hpar⟩ | hs | ⟨hs, hpar, hg, hp⟩ | ⟨e, hs, hne⟩
  · simp only [hs, Except.ok.injEq] at h
    exact ⟨hp, hpar, by simp [hg], h.symm⟩
  · simp [hs] at h
  · simp only [hs, hpar, Except.ok.injEq] at h
    exact ⟨hp, hpar, by simp [hg], h.symm⟩
  · simp only [hs] at h
    split at h
    · rename_i heq1 heq2
      exact absurd ⟨rfl, heq2⟩ hne
    · cases h

theorem FS.stat_set_file (fs : FS) (p : Path) (data : Str) (hp : p ≠ [])
    (hs : fs.stat p.dropLast = .ok Node.dir) :
    (fs.set p (Node.file data)).stat p = .ok (Node.file data) := by
  rw [FS.stat_ok_iff] at hs ⊢
  obtain ⟨h1, h2⟩ := hs
  have hlen : 0 < p.length := List.length_pos.2 hp
  refine ⟨?_, FS.node_set_self fs _ hp⟩
  intro k hk
  have hne : p.take k ≠ p := by
    intro h
    have := congrArg List.length h
    simp at this
    omega
  rw [FS.node_set_ne fs _ hne]
  by_cases hk1 : k < p.length - 1
  · have := h1 k (by simpa using hk1)
    rw [List.dropLast_eq_take, List.take_take] at this
    simpa [Nat.min_eq_left (Nat.le_of_lt hk1)] using this
  · have hk2 : k = p.length - 1 := by omega
    rw [List.dropLast_eq_take] at h2
    rw [hk2]
    exact h2

theorem FS.ReadFile_WriteFile (fs fs2 : FS) (p : Path) (data : Str)
    (h : fs.WriteFile p data = .ok fs2) : fs2.ReadFile p = .ok data := by
  obtain ⟨hp, hs, _, rfl⟩ := FS.WriteFile_effect fs fs2 p data h
  simp [FS.ReadFile, FS.stat_set_file fs p data hp hs]

theorem Store.saveEntry_ok {R I : Type} (x : Ext R I) (s : Store I) (fs fs2 : FS) (entry : Entry)
    (h : s.saveEntry x fs entry = (fs2, none)) :
    ∃ data, x.Marshal entry = some data ∧
      (fs.MkdirAll (s.getEntryPath entry.Key).dropLast).2 = none ∧
      (fs.MkdirAll (s.getEntryPath entry.Key).dropLast).1.WriteFile
        (s.getEntryPath entry.Key) data = .ok fs2 := by
  simp only [Store.saveEntry] at h
  rcases hm : fs.MkdirAll (s.getEntryPath entry.Key).dropLast with ⟨fs1, _ | e⟩
  · simp only [hm] at h
    cases hd : x.Marshal entry with
    | none => simp [hd] at h
    | some data =>
      simp only [hd] at h
      cases hw : fs1.WriteFile (s.getEntryPath entry.Key) data with
      | error e => simp [hw] at h
      | ok fs3 =>
        simp only [hw, Prod.mk.injEq, and_true] at h
        exact ⟨data, rfl, rfl, by rw [← h]; exact hw⟩
  · simp [hm] at h

theorem Store.Put_ok {R I : Type} (x : Ext R I) (s : Store I) (env : Env) (fs fs2 : FS)
    (key password message : Str) (h : s.Put x env fs key password message = (fs2, none)) :
    ∃ encrypted, Encrypt x env.entropy password s.recipients = .ok encrypted ∧
      ∀ entry : Entry,
        (entry =
          match s.loadEntry x (s.auditor.Log env fs EventModify key message).1 key with
          | .error _ => { Key := key, Versions := [] }
          | .ok entry => entry) →
        s.saveEntry x (s.auditor.Log env fs EventModify key message).1
          { entry with
            Versions := entry.Versions ++ [newVersion env entry encrypted message] } =
          (fs2, none) := by
  simp only [Store.Put] at h
  cases he : Encrypt x env.entropy password s.recipients with
  | error e => simp [he] at h
  | ok encrypted =>
    simp only [he] at h
    refine ⟨encrypted, rfl, ?_⟩
    intro entry hentry
    rw [hentry]
    exact h

theorem FS.mkdirFrom_get (rest : List Str) :
    ∀ (fs : FS) (cur q : Path),
      (fs.mkdirFrom cur rest).1.get q = fs.get q ∨
        (fs.get q = none ∧ (fs.mkdirFrom cur rest).1.get q = some Node.dir) := by
  have hset : ∀ (fs : FS) (cur q : Path), fs.node cur = none →
      (fs.set cur Node.dir).get q = fs.get q ∨
        (fs.get q = none ∧ (fs.set cur Node.dir).get q = some Node.dir) := by
    intro fs cur q hn
    by_cases hq : q = cur
    · subst hq
      right
      have hq0 : q ≠ [] := by
        intro h0
        simp [FS.node, h0] at hn
      exact ⟨by simpa [FS.node, hq0] using hn, FS.get_set_self fs q _⟩
    · left
      exact FS.get_set_ne fs _ hq
  induction rest with
  | nil =>
    intro fs cur q
    simp only [FS.mkdirFrom]
    cases hn : fs.node cur with
    | none =>
      simp only []
      split
      · exact hset fs cur q hn
      · exact Or.inl rfl
    | some m => cases m <;> simp
  | cons c cs ih =>
    intro fs cur q
    simp only [FS.mkdirFrom]
    cases hn : fs.node cur with
    | none =>
      simp only []
      split
      · rcases ih (fs.set cur Node.dir) (cur ++ [c]) q with h1 | ⟨h1, h2⟩
        · rcases hset fs cur q hn with h3 | ⟨h3, h4⟩
          · left; rw [h1, h3]
          · right; exact ⟨h3, by rw [h1, h4]⟩
        · rcases hset fs cur q hn with h3 | ⟨h3, h4⟩
          · right; exact ⟨by rw [← h3]; exact h1, h2⟩
          · rw [h4] at h1; cases h1
      · exact Or.inl rfl
    | some m =>
      cases m with
      | file d => simp
      | dir => exact ih fs (cur ++ [c]) q

theorem FS.MkdirAll_get_file (fs : FS) (p q : Path) (d : Str)
    (h : (fs.MkdirAll p).1.get q = some (Node.file d)) : fs.get q = some (Node.file d) := by
  rcases FS.mkdirFrom_get p fs [] q with h1 | ⟨_, h2⟩
  · rw [← h1]; exact h
  · rw [FS.MkdirAll, h2] at h; cases h

theorem FS.get_of_ReadFile (fs : FS) (p : Path) (d : Str) (hp : p ≠ [])
    (h : fs.ReadFile p = .ok d) : fs.get p = some (Node.file d) := by
  unfold FS.ReadFile at h
  cases hs : fs.stat p with
  | error e => simp [hs] at h
  | ok n =>
    cases n with
    | dir => simp [hs] at h
    | file d1 =>
      simp only [hs, Except.ok.injEq] at h
      subst h
      have := ((FS.stat_ok_iff fs p _).1 hs).2
      simpa [FS.node, hp] using this

theorem Store.saveEntry_get_file {R I : Type} (x : Ext R I) (s : Store I) (fs : FS)
    (entry : Entry) (q : Path) (d : Str)
    (h : (s.saveEntry x fs entry).1.get q = some (Node.file d)) :
    fs.get q = some (Node.file d) ∨ x.Marshal entry = some d := by
  simp only [Store.saveEntry] at h
  rcases hm : fs.MkdirAll (s.getEntryPath entry.Key).dropLast with ⟨fs1, _ | e⟩
  · simp only [hm] at h
    have hmk : ∀ d1, fs1.get q = some (Node.file d1) → fs.get q = some (Node.file d1) := by
      intro d1 h1
      apply FS.MkdirAll_get_file fs (s.getEntryPath entry.Key).dropLast
      rw [hm]; exact h1
    cases hd : x.Marshal entry with
    | none =>
      simp only [hd] at h
      exact Or.inl (hmk d h)
    | some data =>
      simp only [hd] at h
      cases hw : fs1.WriteFile (s.getEntryPath entry.Key) data with
      | error e =>
        simp only [hw] at h
        exact Or.inl (hmk d h)
      | ok fs3 =>
        simp only [hw] at h
        obtain ⟨_, _, _, rfl⟩ := FS.WriteFile_effect _ _ _ _ hw
        by_cases hq : q = s.getEntryPath entry.Key
        · subst hq
          rw [FS.get_set_self] at h
          simp only [Option.some.injEq, Node.file.injEq] at h
          right; rw [h]
        · rw [FS.get_set_ne _ _ hq] at h
          exact Or.inl (hmk d h)
  · simp only [hm] at h
    left
    apply FS.MkdirAll_get_file fs (s.getEntryPath entry.Key).dropLast
    rw [hm]; exact h

theorem Logger.Log_get_file (l : Logger) (env : Env) (fs : FS) (event key details : Str)
    (q : Path) (hq : q ≠ l.path) :
    (l.Log env fs event key details).1.get q = fs.get q := by
  rcases Logger.Log_effect l env fs event key details with h | h
  · rw [h]
  · exact h.2.1 q hq

theorem Store.yamlNamed_ne_audit {I : Type} (s : Store I) (hs : s.Built) (q : Path)
    (hq : yamlNamed q = true) : q ≠ s.auditor.path := by
  intro h
  rw [h, hs] at hq
  simp [yamlNamed] at hq
  revert hq
  decide

theorem Ascending_append (vs : List Version) (nv : Version) (h : Ascending vs)
    (hnv : nv.Version = (vs.length : Int) + 1) : Numbered (vs ++ [nv]) := by
  refine ⟨by simp, ?_⟩
  intro i v hi
  by_cases hlt : i < vs.length
  · rw [List.getElem?_append_left hlt] at hi
    exact h i v hi
  · rw [List.getElem?_append_right (by omega)] at hi
    have h0 : i - vs.length = 0 := by
      by_contra hne
      have : [nv][i - vs.length]? = none := by
        apply List.getElem?_eq_none
        simp
        omega
      rw [this] at hi
      cases hi
    rw [h0] at hi
    simp only [List.getElem?_cons_zero, Option.some.injEq] at hi
    subst hi
    rw [hnv]
    have : i = vs.length := by omega
    rw [this]

theorem Store.EntriesNumbered_Log {R I : Type} (x : Ext R I) (s : Store I) (hs : s.Built)
    (env : Env) (fs : FS) (event key details : Str) (h : fs.EntriesNumbered x) :
    (s.auditor.Log env fs event key details).1.EntriesNumbered x := by
  intro p d e hg hy hu
  rw [Logger.Log_get_file _ _ _ _ _ _ _ (s.yamlNamed_ne_audit hs p hy)] at hg
  exact h p d e hg hy hu

theorem Store.EntriesNumbered_Put {R I : Type} (x : Ext R I)
    (hfaith : ∀ e d e1, x.Marshal e = some d → x.Unmarshal d = some e1 → e1 = e)
    (s : Store I) (hs : s.Built) (env : Env) (fs : FS) (key password message : Str)
    (h : fs.EntriesNumbered x) :
    (s.Put x env fs key password message).1.EntriesNumbered x := by
  have h1 := s.EntriesNumbered_Log x hs env fs EventModify key message h
  simp only [Store.Put]
  cases he : Encrypt x env.entropy password s.recipients with
  | error e => exact h1
  | ok encrypted =>
    simp only []
    intro p d e hg hy hu
    rcases s.saveEntry_get_file x _ _ p d hg with h2 | h2
    · exact h1 p d e h2 hy hu
    · rw [hfaith _ _ _ h2 hu]
      apply Ascending_append _ _ _ rfl
      cases hl : s.loadEntry x (s.auditor.Log env fs EventModify key message).1 key with
      | error err =>
        intro i v hi
        simp at hi
      | ok old =>
        obtain ⟨d0, hr, hu0⟩ := (s.loadEntry_ok_iff x _ key old).1 hl
        have hg0 := FS.get_of_ReadFile _ _ _ (s.getEntryPath_ne_nil key) hr
        exact (h1 _ d0 old hg0 (s.yamlNamed_getEntryPath key) hu0).2

theorem FS.Remove_ok (fs fs2 : FS) (p : Path) (h : fs.Remove p = .ok fs2) :
    fs2 = fs.erase p ∧ p ≠ [] ∧
      ((∃ d, fs.stat p = .ok (Node.file d)) ∨
        (fs.stat p = .ok Node.dir ∧ fs.hasChild p = false)) := by
  unfold FS.Remove at h
  cases hst : fs.stat p with
  | error e => simp [hst] at h
  | ok n =>
    cases n with
    | file d =>
      simp only [hst, Except.ok.injEq] at h
      have hp : p ≠ [] := by
        intro h0
        have := ((FS.stat_ok_iff fs p _).1 hst).2
        simp [FS.node, h0] at this
      exact ⟨h.symm, hp, Or.inl ⟨d, rfl⟩⟩
    | dir =>
      simp only [hst] at h
      by_cases hp : p = []
      · simp [hp] at h
      · simp only [hp, if_false] at h
        cases hc : fs.hasChild p with
        | true => simp [hc] at h
        | false =>
          simp only [hc, Bool.false_eq_true, if_false, Except.ok.injEq] at h
          exact ⟨h.symm, hp, Or.inr ⟨rfl, rfl⟩⟩

theorem Store.EntriesNumbered_Delete {R I : Type} (x : Ext R I) (s : Store I) (hs : s.Built)
    (env : Env) (fs : FS) (key : Str) (h : fs.EntriesNumbered x) :
    (s.Delete env fs key).1.EntriesNumbered x := by
  have h1 := s.EntriesNumbered_Log x hs env fs EventDelete key [] h
  simp only [Store.Delete]
  cases hr : (s.auditor.Log env fs EventDelete key []).1.Remove (s.getEntryPath key) with
  | error e =>
    by_cases hne : e.IsNotExist = true <;> simp only [hne, if_true, if_false] <;> exact h1
  | ok fs2 =>
    simp only []
    have hfs2 := (FS.Remove_ok _ _ _ hr).1
    intro p d e hg hy hu
    rw [hfs2] at hg
    by_cases hp : p = s.getEntryPath key
    · rw [hp, FS.get_erase_self] at hg
      cases hg
    · rw [FS.get_erase_ne _ hp] at hg
      exact h1 p d e hg hy hu

theorem Store.EntriesNumbered_Get {R I : Type} (x : Ext R I) (s : Store I) (hs : s.Built)
    (env : Env) (fs : FS) (key : Str) (version : Int) (h : fs.EntriesNumbered x) :
    (s.Get x env fs key version).1.EntriesNumbered x := by
  have h1 := s.EntriesNumbered_Log x hs env fs EventAccess key [] h
  have : (s.Get x env fs key version).1 = (s.auditor.Log env fs EventAccess key []).1 := by
    simp only [Store.Get]
    cases s.loadEntry x (s.auditor.Log env fs EventAccess key []).1 key with
    | error e => rfl
    | ok entry =>
      simp only []
      split <;> rfl
  rw [this]
  exact h1

theorem Store.EntriesNumbered_emptyFS {R I : Type} (x : Ext R I) (s : Store I) :
    s.emptyFS.EntriesNumbered x := by
  intro p d e hg _ _
  have := FS.MkdirAll_get_file [] s.path p d hg
  simp [FS.get] at this

theorem Store.EntriesNumbered_run {R I : Type} (x : Ext R I)
    (hfaith : ∀ e d e1, x.Marshal e = some d → x.Unmarshal d = some e1 → e1 = e)
    (s : Store I) (hs : s.Built) (ops : List Op) :
    ∀ fs : FS, fs.EntriesNumbered x → (s.run x fs ops).EntriesNumbered x := by
  induction ops with
  | nil => intro fs h; exact h
  | cons op ops ih =>
    intro fs h
    simp only [Store.run, List.foldl_cons]
    apply ih
    cases op with
    | put env key password message => exact s.EntriesNumbered_Put x hfaith hs env fs _ _ _ h
    | delete env key => exact s.EntriesNumbered_Delete x hs env fs key h
    | get env key version => exact s.EntriesNumbered_Get x hs env fs key version h

theorem Store.Get_of_load {R I : Type} (x : Ext R I) (s : Store I) (hs : s.Built) (env : Env)
    (fs : FS) (key : Str) (entry : Entry) (version : Int)
    (hload : s.loadEntry x fs key = .ok entry) :
    (s.Get x env fs key version).2 =
      match goIndex entry.Versions
        ((if version ≤ 0 ∨ version > (entry.Versions.length : Int) then
          (entry.Versions.length : Int) else version) - 1) with
      | none => Outcome.fault
      | some v => s.decryptVersion x v := by
  have hl := (s.loadEntry_Log x hs env fs EventAccess key [] key entry).2 hload
  simp only [Store.Get, hl]
  split <;> rfl

theorem Store.Put_written {R I : Type} (x : Ext R I)
    (s : Store I) (hs : s.Built) (env : Env) (fs fs1 : FS) (key password message : Str)
    (cur : Entry)
    (hcur : (s.loadEntry x fs key = .ok cur ∧ s.getEntryPath cur.Key = s.getEntryPath key) ∨
      ((∀ e, s.loadEntry x fs key ≠ .ok e) ∧ cur = { Key := key, Versions := [] }))
    (hput : s.Put x env fs key password message = (fs1, none)) :
    ∃ encrypted data, Encrypt x env.entropy password s.recipients = .ok encrypted ∧
      x.Marshal
          { cur with Versions := cur.Versions ++ [newVersion env cur encrypted message] } =
        some data ∧
      fs1.ReadFile (s.getEntryPath key) = .ok data := by
  obtain ⟨encrypted, henc, hsave⟩ := s.Put_ok x env fs fs1 key password message hput
  refine ⟨encrypted, ?_⟩
  have hentry : cur =
      match s.loadEntry x (s.auditor.Log env fs EventModify key message).1 key with
      | .error _ => { Key := key, Versions := [] }
      | .ok entry => entry := by
    rcases hcur with ⟨h, _⟩ | ⟨h, rfl⟩
    · rw [(s.loadEntry_Log x hs env fs EventModify key message key cur).2 h]
    · cases hl : s.loadEntry x (s.auditor.Log env fs EventModify key message).1 key with
      | error e => rfl
      | ok e =>
        exact absurd ((s.loadEntry_Log x hs env fs EventModify key message key e).1 hl) (h e)
  have hpath : s.getEntryPath cur.Key = s.getEntryPath key := by
    rcases hcur with ⟨_, h⟩ | ⟨_, rfl⟩
    · exact h
    · rfl
  obtain ⟨data, hm, _, hw⟩ := s.saveEntry_ok x _ fs1 _ (hsave cur hentry)
  have hread := FS.ReadFile_WriteFile _ _ _ _ hw
  simp only [hpath] at hread
  exact ⟨data, henc, hm, hread⟩

theorem Store.Put_load {R I : Type} (x : Ext R I)
    (hfaith : ∀ e d e1, x.Marshal e = some d → x.Unmarshal d = some e1 → e1 = e)
    (s : Store I) (hs : s.Built) (env : Env) (fs fs1 : FS) (key password message : Str)
    (cur : Entry)
    (hcur : (s.loadEntry x fs key = .ok cur ∧ s.getEntryPath cur.Key = s.getEntryPath key) ∨
      ((∀ e, s.loadEntry x fs key ≠ .ok e) ∧ cur = { Key := key, Versions := [] }))
    (hput : s.Put x env fs key password message = (fs1, none))
    (hback : ∃ e, s.loadEntry x fs1 key = .ok e) :
    ∃ encrypted, Encrypt x env.entropy password s.recipients = .ok encrypted ∧
      s.loadEntry x fs1 key = .ok
        { cur with Versions := cur.Versions ++ [newVersion env cur encrypted message] } := by
  obtain ⟨encrypted, data, henc, hm, hread⟩ :=
    s.Put_written x hs env fs fs1 key password message cur hcur hput
  refine ⟨encrypted, henc, ?_⟩
  obtain ⟨e, he⟩ := hback
  obtain ⟨d, hd, hu⟩ := (s.loadEntry_ok_iff x fs1 key e).1 he
  rw [hread] at hd
  cases hd
  rw [he, hfaith _ _ _ hm hu]

theorem Store.putAllRead_load {R I : Type} (x : Ext R I)
    (hfaith : ∀ e d e1, x.Marshal e = some d → x.Unmarshal d = some e1 → e1 = e)
    (s : Store I) (hs : s.Built)
    (hdec : ∀ entropy p c, Encrypt x entropy p s.recipients = .ok c →
      Decrypt x c s.identities = .ok p)
    (key : Str) (puts : List (Env × Str × Str)) :
    ∀ (fs fs1 : FS) (cur : Entry),
      s.loadEntry x fs key = .ok cur → s.getEntryPath cur.Key = s.getEntryPath key →
      s.putAllRead x key puts fs = some fs1 →
      ∃ e, s.loadEntry x fs1 key = .ok e ∧
        e.Versions.map (fun v => Decrypt x v.Password s.identities) =
          cur.Versions.map (fun v => Decrypt x v.Password s.identities) ++
            puts.map (fun p => Except.ok p.2.1) := by
  induction puts with
  | nil =>
    intro fs fs1 cur hl _ hp
    simp only [Store.putAllRead, Option.some.injEq] at hp
    subst hp
    exact ⟨cur, hl, by simp⟩
  | cons put rest ih =>
    intro fs fs1 cur hl hpath hp
    obtain ⟨env, password, message⟩ := put
    simp only [Store.putAllRead] at hp
    rcases hput : s.Put x env fs key password message with ⟨fs2, _ | err⟩
    · simp only [hput] at hp
      have hback : ∃ e, s.loadEntry x fs2 key = .ok e := by
        cases hl2 : s.loadEntry x fs2 key with
        | ok e => exact ⟨e, rfl⟩
        | error err => simp [hl2] at hp
      obtain ⟨encrypted, henc, hl2⟩ :=
        s.Put_load x hfaith hs env fs fs2 key password message cur (Or.inl ⟨hl, hpath⟩) hput hback
      simp only [hl2] at hp
      obtain ⟨e, he1, he2⟩ := ih fs2 fs1 _ hl2 hpath hp
      refine ⟨e, he1, ?_⟩
      rw [he2]
      simp [newVersion, hdec _ _ _ henc]
    · simp [hput] at hp

theorem swapAt_ends (pre m post : List Version) (a b : Version) :
    swapAt (pre ++ a :: (m ++ b :: post)) pre.length (pre.length + (m.length + 1)) =
      pre ++ b :: (m ++ a :: post) := by
  have h1 : (pre ++ a :: (m ++ b :: post))[pre.length]? = some a := by
    rw [List.getElem?_append_right (le_refl _), Nat.sub_self, List.getElem?_cons_zero]
  have h2 : (pre ++ a :: (m ++ b :: post))[pre.length + (m.length + 1)]? = some b := by
    rw [List.getElem?_append_right (by omega)]
    have : pre.length + (m.length + 1) - pre.length = m.length + 1 := by omega
    rw [this, List.getElem?_cons_succ, List.getElem?_append_right (le_refl _), Nat.sub_self,
      List.getElem?_cons_zero]
  simp only [swapAt, h1, h2]
  simp [List.set_append]

theorem reverseLoop_spec (n : Nat) :
    ∀ (mid pre post : List Version) (fuel : Nat), mid.length ≤ n → mid.length ≤ fuel →
      reverseLoop fuel (pre ++ mid ++ post) (pre.length : Int)
        ((pre.length : Int) + (mid.length : Int) - 1) = pre ++ mid.reverse ++ post := by
  induction n with
  | zero =>
    intro mid pre post fuel hn _
    have hmid : mid = [] := List.length_eq_zero.1 (by omega)
    subst hmid
    cases fuel with
    | zero => simp [reverseLoop]
    | succ f =>
      have : ¬ ((pre.length : Int) < (pre.length : Int) + ((0 : Nat) : Int) - 1) := by omega
      simp [reverseLoop]
  | succ n ih =>
    intro mid pre post fuel hn hf
    cases mid with
    | nil =>
      cases fuel with
      | zero => simp [reverseLoop]
      | succ f => simp [reverseLoop]
    | cons a rest =>
      rcases List.eq_nil_or_concat rest with hr | ⟨m, b, hr⟩
      · subst hr
        cases fuel with
        | zero => simp [reverseLoop]
        | succ f => simp [reverseLoop]
      · subst hr
        simp only [List.concat_eq_append, List.length_cons, List.length_append,
          List.length_nil] at hn hf
        cases fuel with
        | zero => omega
        | succ f =>
          have hlt : (pre.length : Int) <
              (pre.length : Int) + ((a :: (m ++ [b])).length : Int) - 1 := by
            simp only [List.length_cons, List.length_append, List.length_nil]
            push_cast
            omega
          have hi : ((pre.length : Int)).toNat = pre.length := by omega
          have hj : ((pre.length : Int) + ((a :: (m ++ [b])).length : Int) - 1).toNat =
              pre.length + (m.length + 1) := by
            simp only [List.length_cons, List.length_append, List.length_nil]
            push_cast
            omega
          have hl : pre ++ (a :: (m ++ [b])) ++ post = pre ++ a :: (m ++ b :: post) := by
            simp
          have hstep := ih m (pre ++ [b]) (a :: post) f (by omega) (by omega)
          have hi2 : (((pre ++ [b]).length : Nat) : Int) = (pre.length : Int) + 1 := by
            simp
          have hj2 : (((pre ++ [b]).length : Nat) : Int) + (m.length : Int) - 1 =
              (pre.length : Int) + ((a :: (m ++ [b])).length : Int) - 1 - 1 := by
            simp only [List.length_cons, List.length_append, List.length_nil]
            push_cast
            omega
          rw [hi2] at hstep
          rw [show ((pre.length : Int) + 1 + (m.length : Int) - 1) =
            (pre.length : Int) + ((a :: (m ++ [b])).length : Int) - 1 - 1 from by
              rw [← hi2]; exact hj2] at hstep
          simp only [List.concat_eq_append]
          rw [reverseLoop, if_pos hlt, hi, hj, hl, swapAt_ends]
          have hl2 : pre ++ b :: (m ++ a :: post) = pre ++ [b] ++ m ++ a :: post := by simp
          rw [hl2, hstep]
          simp

theorem reverseLoop_eq_reverse (vs : List Version) :
    reverseLoop vs.length vs 0 ((vs.length : Int) - 1) = vs.reverse := by
  have := reverseLoop_spec vs.length vs [] [] vs.length (le_refl _) (le_refl _)
  simpa using this

theorem FS.ReadFile_ok_iff_stat (fs : FS) (p : Path) (d : Str) :
    fs.ReadFile p = .ok d ↔ fs.stat p = .ok (Node.file d) := by
  unfold FS.ReadFile
  cases hs : fs.stat p with
  | error e => simp
  | ok n => cases n <;> simp

theorem FS.FileEdit.stat_eq {a : Path} {fs fs1 : FS} (h : FS.FileEdit a fs fs1) {p : Path}
    (hp : p ≠ a) (hdirs : ∀ k, k < p.length → fs.node (p.take k) = some Node.dir) :
    fs1.stat p = fs.stat p := by
  apply FS.stat_congr
  intro k hk
  by_cases hk1 : k < p.length
  · apply h.node_ne
    intro hka
    have := hdirs k hk1
    rw [hka] at this
    have hold : fs.get a ≠ some Node.dir := h.2.2.1
    simp [FS.node, h.1] at this
    exact hold this
  · have : k = p.length := by omega
    rw [this, List.take_length]
    exact h.node_ne hp

theorem FS.stat_erase_self (fs : FS) (p : Path) (hp : p ≠ []) (n : Node)
    (hs : fs.stat p = .ok n) : (fs.erase p).stat p = .error (FS.absent p) := by
  rw [FS.stat_ok_iff] at hs
  apply FS.stat_absent
  · intro k hk
    rw [FS.node_erase_ne fs (FS.take_ne_self hk)]
    exact hs.1 k hk
  · exact FS.node_erase_self fs hp

theorem FS.get_of_hasChild_false (fs : FS) (p r : Path) (h : fs.hasChild p = false)
    (hr : r ≠ []) (hrp : r.dropLast = p) : fs.get r = none := by
  rw [FS.get_eq_none_iff]
  intro hmem
  obtain ⟨e, he, rfl⟩ := List.mem_map.1 hmem
  have : fs.hasChild p = true := by
    unfold FS.hasChild
    rw [List.any_eq_true]
    exact ⟨e, he, by simp [hr, hrp]⟩
  rw [h] at this
  cases this

theorem FS.stat_ok_iff_erase (fs fs2 : FS) (p q : Path) (h : fs.Remove p = .ok fs2)
    (hq : q ≠ p) (n : Node) : fs2.stat q = .ok n ↔ fs.stat q = .ok n := by
  obtain ⟨rfl, hp, hcase⟩ := FS.Remove_ok fs fs2 p h
  have hnode : ∀ r, r ≠ p → (fs.erase p).node r = fs.node r := fun r hr =>
    FS.node_erase_ne fs hr
  have hnew : (fs.erase p).node p = none := FS.node_erase_self fs hp
  rw [FS.stat_ok_iff, FS.stat_ok_iff]
  by_cases hex : ∃ k, k < q.length ∧ q.take k = p
  · obtain ⟨k, hk, hkp⟩ := hex
    constructor
    · rintro ⟨h1, _⟩
      have := h1 k hk
      rw [hkp, hnew] at this
      cases this
    · rintro ⟨h1, h2⟩
      exfalso
      rcases hcase with ⟨d, hd⟩ | ⟨_, hc⟩
      · have := h1 k hk
        rw [hkp, ((FS.stat_ok_iff fs p _).1 hd).2] at this
        cases this
      · have hne : q.take (k + 1) ≠ [] := by
          intro h0
          have := congrArg List.length h0
          rw [List.length_take, List.length_nil] at this
          omega
        have hdl : (q.take (k + 1)).dropLast = p := by
          rw [List.dropLast_eq_take, List.take_take, ← hkp]
          congr 1
          rw [List.length_take]
          omega
        have hget := FS.get_of_hasChild_false fs p _ hc hne hdl
        have hsome : ∃ m, fs.node (q.take (k + 1)) = some m := by
          by_cases hk1 : k + 1 < q.length
          · exact ⟨_, h1 (k + 1) hk1⟩
          · have : k + 1 = q.length := by omega
            rw [this, List.take_length]
            exact ⟨_, h2⟩
        obtain ⟨m, hm⟩ := hsome
        simp [FS.node, hne, hget] at hm
  · have hk : ∀ k, k < q.length → q.take k ≠ p := fun k hk hkp => hex ⟨k, hk, hkp⟩
    constructor
    · rintro ⟨h1, h2⟩
      refine ⟨fun k hlt => ?_, ?_⟩
      · rw [← hnode _ (hk k hlt)]; exact h1 k hlt
      · rw [← hnode _ hq]; exact h2
    · rintro ⟨h1, h2⟩
      refine ⟨fun k hlt => ?_, ?_⟩
      · rw [hnode _ (hk k hlt)]; exact h1 k hlt
      · rw [hnode _ hq]; exact h2

theorem Store.loadEntry_notFound {R I : Type} (x : Ext R I) (s : Store I) (fs : FS)
    (key : Str) (h : fs.stat (s.getEntryPath key) = .error Errno.ENOENT) :
    s.loadEntry x fs key = .error (StoreError.notFound key) := by
  simp [Store.loadEntry, FS.ReadFile, h, Errno.IsNotExist]

theorem Logger.Log_stat_eq (l : Logger) (env : Env) (fs : FS) (event key details : Str)
    (p : Path) (hp : p ≠ l.path)
    (hdirs : ∀ k, k < p.length → fs.node (p.take k) = some Node.dir) :
    (l.Log env fs event key details).1.stat p = fs.stat p := by
  rcases Logger.Log_effect l env fs event key details with h | h
  · rw [h]
  · exact h.stat_eq hp hdirs

theorem Logger.Log_readFile_iff (l : Logger) (env : Env) (fs : FS) (event key details : Str)
    (p : Path) (hp : p ≠ l.path) (d : Str) :
    (l.Log env fs event key details).1.ReadFile p = .ok d ↔ fs.ReadFile p = .ok d := by
  rcases Logger.Log_effect l env fs event key details with h | h
  · rw [h]
  · exact h.readFile_ok_iff hp d

theorem Store.Delete_cases {I : Type} (s : Store I) (env : Env) (fs : FS) (key : Str) :
    (∃ fs2, (s.auditor.Log env fs EventDelete key []).1.Remove (s.getEntryPath key) = .ok fs2 ∧
      s.Delete env fs key = (fs2, none)) ∨
    (∃ e, (s.auditor.Log env fs EventDelete key []).1.Remove (s.getEntryPath key) = .error e ∧
      s.Delete env fs key = ((s.auditor.Log env fs EventDelete key []).1,
        some (if e = Errno.ENOENT then StoreError.notFound key else StoreError.delete e))) := by
  simp only [Store.Delete]
  cases hr : (s.auditor.Log env fs EventDelete key []).1.Remove (s.getEntryPath key) with
  | ok fs2 => exact Or.inl ⟨fs2, rfl, rfl⟩
  | error e =>
    refine Or.inr ⟨e, rfl, ?_⟩
    by_cases he : e = Errno.ENOENT <;> simp [Errno.IsNotExist, he]

theorem FS.Remove_of_file (fs : FS) (p : Path) (d : Str) (h : fs.stat p = .ok (Node.file d)) :
    fs.Remove p = .ok (fs.erase p) := by
  simp [FS.Remove, h]

theorem FS.Remove_error_stat (fs : FS) (p : Path) (e : Errno) (h : fs.stat p = .error e) :
    fs.Remove p = .error e := by
  simp [FS.Remove, h]

theorem FS.Remove_error_no_file (fs : FS) (p : Path) (e : Errno) (h : fs.Remove p = .error e)
    (d : Str) : fs.stat p ≠ .ok (Node.file d) := by
  intro hs
  rw [FS.Remove_of_file fs p d hs] at h
  cases h

theorem FS.mkdirFrom_nodup (rest : List Str) :
    ∀ (fs : FS) (cur : Path), fs.paths.Nodup → (fs.mkdirFrom cur rest).1.paths.Nodup := by
  induction rest with
  | nil =>
    intro fs cur h
    simp only [FS.mkdirFrom]
    cases hn : fs.node cur with
    | none =>
      simp only []
      split
      · exact FS.nodup_set fs cur _ h
      · exact h
    | some m => cases m <;> exact h
  | cons c cs ih =>
    intro fs cur h
    simp only [FS.mkdirFrom]
    cases hn : fs.node cur with
    | none =>
      simp only []
      split
      · exact ih _ _ (FS.nodup_set fs cur _ h)
      · exact h
    | some m =>
      cases m with
      | file d => exact h
      | dir => exact ih _ _ h

theorem FS.mkdirFrom_node (rest : List Str) (fs : FS) (cur q : Path) :
    (fs.mkdirFrom cur rest).1.node q = fs.node q ∨
      (fs.node q = none ∧ (fs.mkdirFrom cur rest).1.node q = some Node.dir) := by
  by_cases hq : q = []
  · left; simp [FS.node, hq]
  · simp only [FS.node, hq, if_false]
    exact FS.mkdirFrom_get rest fs cur q

theorem FS.mkdirFrom_stat_ok (rest : List Str) (fs : FS) (cur p : Path) (n : Node)
    (h : fs.stat p = .ok n) : (fs.mkdirFrom cur rest).1.stat p = .ok n := by
  rw [← h]
  apply FS.stat_congr
  intro k hk
  rcases FS.mkdirFrom_node rest fs cur (p.take k) with h1 | ⟨h1, _⟩
  · exact h1
  · exfalso
    rw [FS.stat_ok_iff] at h
    by_cases hk1 : k < p.length
    · rw [h.1 k hk1] at h1; cases h1
    · have : k = p.length := by omega
      rw [this, List.take_length, h.2] at h1
      cases h1

theorem FS.mkdirFrom_stat (rest : List Str) :
    ∀ (fs : FS) (cur : Path), (fs.mkdirFrom cur rest).2 = none →
      (∀ k, k < cur.length → fs.node (cur.take k) = some Node.dir) →
      (fs.mkdirFrom cur rest).1.stat (cur ++ rest) = .ok Node.dir := by
  induction rest with
  | nil =>
    intro fs cur hok hdirs
    simp only [FS.mkdirFrom, List.append_nil] at hok ⊢
    cases hn : fs.node cur with
    | none =>
      have hc : cur ≠ [] := by
        intro h0
        simp [FS.node, h0] at hn
      simp only [hn] at hok ⊢
      split at hok
      · rename_i habs
        simp only [habs, if_true]
        rw [FS.stat_ok_iff]
        refine ⟨fun k hk => ?_, FS.node_set_self fs _ hc⟩
        rw [FS.node_set_ne fs _ (FS.take_ne_self hk)]
        exact hdirs k hk
      · cases hok
    | some m =>
      cases m with
      | file d =>
        rw [hn] at hok
        cases hok
      | dir =>
        simp only []
        rw [FS.stat_ok_iff]
        exact ⟨hdirs, hn⟩
  | cons c cs ih =>
    intro fs cur hok hdirs
    simp only [FS.mkdirFrom] at hok ⊢
    have hstep : ∀ fs1 : FS, (fs1.mkdirFrom (cur ++ [c]) cs).2 = none →
        (∀ k, k < cur.length → fs1.node (cur.take k) = some Node.dir) →
        fs1.node cur = some Node.dir →
        (fs1.mkdirFrom (cur ++ [c]) cs).1.stat (cur ++ c :: cs) = .ok Node.dir := by
      intro fs1 h1 h2 h3
      have := ih fs1 (cur ++ [c]) h1 (by
        intro k hk
        simp only [List.length_append, List.length_singleton] at hk
        by_cases hk1 : k < cur.length
        · rw [List.take_append_of_le_length (Nat.le_of_lt hk1)]
          exact h2 k hk1
        · have hk2 : k = cur.length := by omega
          rw [hk2, List.take_append_of_le_length (Nat.le_refl _), List.take_length]
          exact h3)
      simpa [List.append_assoc] using this
    cases hn : fs.node cur with
    | none =>
      have hc : cur ≠ [] := by
        intro h0
        simp [FS.node, h0] at hn
      simp only [hn] at hok ⊢
      split at hok
      · rename_i habs
        simp only [habs, if_true]
        apply hstep _ hok
        · intro k hk
          rw [FS.node_set_ne fs _ (FS.take_ne_self hk)]
          exact hdirs k hk
        · exact FS.node_set_self fs _ hc
      · cases hok
    | some m =>
      cases m with
      | file d =>
        rw [hn] at hok
        cases hok
      | dir =>
        simp only [hn] at hok ⊢
        exact hstep fs hok hdirs hn

theorem nodup_filterMap_fst (g : Path × Node → Option Str) (l : List (Path × Node))
    (hnd : (l.map Prod.fst).Nodup)
    (hinj : ∀ e1 ∈ l, ∀ e2 ∈ l, ∀ k, g e1 = some k → g e2 = some k → e1.1 = e2.1) :
    (l.filterMap g).Nodup := by
  induction l with
  | nil => simp
  | cons e rest ih =>
    have hnd2 : e.1 ∉ rest.map Prod.fst ∧ (rest.map Prod.fst).Nodup := by
      simpa using hnd
    have ih2 := ih hnd2.2 (fun e1 h1 e2 h2 => hinj e1 (List.mem_cons_of_mem _ h1) e2
      (List.mem_cons_of_mem _ h2))
    cases hg : g e with
    | none => simpa [List.filterMap_cons, hg] using ih2
    | some k =>
      rw [List.filterMap_cons, hg]
      refine List.nodup_cons.2 ⟨?_, ih2⟩
      intro hmem
      obtain ⟨e2, he2, hk⟩ := List.mem_filterMap.1 hmem
      have := hinj e (List.mem_cons_self _ _) e2 (List.mem_cons_of_mem _ he2) k hg hk
      apply hnd2.1
      rw [this]
      exact List.mem_map_of_mem Prod.fst he2

theorem Store.listVisit_eq {I : Type} (s : Store I) (keys : List Str) (e : Path × Node) :
    listVisit s keys e.1 e.2 = keys ++ (s.listKey e).toList := by
  simp only [listVisit, Store.listKey, yamlNamed, Store.keyOf]
  split_ifs <;> simp

theorem Store.foldl_listVisit {I : Type} (s : Store I) (l : List (Path × Node)) :
    ∀ acc : List Str,
      l.foldl (fun keys e => listVisit s keys e.1 e.2) acc = acc ++ l.filterMap s.listKey := by
  induction l with
  | nil => intro acc; simp
  | cons e rest ih =>
    intro acc
    rw [List.foldl_cons, ih, s.listVisit_eq]
    cases hg : s.listKey e <;> simp [List.filterMap_cons, hg]

theorem Store.root_ne_audit {I : Type} (s : Store I) (hs : s.Built) : s.path ≠ s.auditor.path := by
  intro h
  have := congrArg List.length h
  rw [hs] at this
  simp at this

theorem Store.ListInv_Log {R I : Type} (x : Ext R I) (s : Store I) (hs : s.Built) (env : Env)
    (fs : FS) (event key details : Str) (W : Str → Prop) (h : s.ListInv x fs W) :
    s.ListInv x (s.auditor.Log env fs event key details).1 W := by
  obtain ⟨h1, h2, h3, h4, h5⟩ := h
  rcases Logger.Log_effect s.auditor env fs event key details with he | he
  · rw [he]; exact ⟨h1, h2, h3, h4, h5⟩
  · refine ⟨he.2.2.2.2 h1, (he.stat_ok_congr (s.root_ne_audit hs) _).2 h2, ?_, ?_, h5⟩
    · intro p d hg hy
      rw [he.2.1 p (s.yamlNamed_ne_audit hs p hy)] at hg
      exact h3 p d hg hy
    · intro k hk
      obtain ⟨d, hd⟩ := h4 k hk
      exact ⟨d, by rw [he.2.1 _ (s.getEntryPath_ne_audit hs k)]; exact hd⟩

theorem Store.ListInv_MkdirAll {R I : Type} (x : Ext R I) (s : Store I) (fs : FS) (p : Path)
    (W : Str → Prop) (h : s.ListInv x fs W) : s.ListInv x (fs.MkdirAll p).1 W := by
  obtain ⟨h1, h2, h3, h4, h5⟩ := h
  refine ⟨FS.mkdirFrom_nodup p fs [] h1, FS.mkdirFrom_stat_ok p fs [] _ _ h2, ?_, ?_, h5⟩
  · intro q d hg hy
    exact h3 q d (FS.MkdirAll_get_file fs p q d hg) hy
  · intro k hk
    obtain ⟨d, hd⟩ := h4 k hk
    refine ⟨d, ?_⟩
    rcases FS.mkdirFrom_get p fs [] (s.getEntryPath k) with h6 | ⟨h6, _⟩
    · rw [FS.MkdirAll, h6]; exact hd
    · rw [hd] at h6; cases h6

theorem Store.ListInv_saveEntry {R I : Type} (x : Ext R I) (s : Store I) (fs : FS)
    (entry : Entry) (W : Str → Prop) (hk : NiceKey entry.Key) (h : s.ListInv x fs W) :
    ((s.saveEntry x fs entry).2 = none →
      s.ListInv x (s.saveEntry x fs entry).1 (fun k => k = entry.Key ∨ W k)) ∧
    ((s.saveEntry x fs entry).2 ≠ none → s.ListInv x (s.saveEntry x fs entry).1 W) := by
  have hm := s.ListInv_MkdirAll x fs (s.getEntryPath entry.Key).dropLast W h
  simp only [Store.saveEntry]
  rcases hmk : fs.MkdirAll (s.getEntryPath entry.Key).dropLast with ⟨fs1, _ | e⟩
  · rw [hmk] at hm
    simp only []
    cases hd : x.Marshal entry with
    | none => exact ⟨fun h0 => by simp at h0, fun _ => hm⟩
    | some data =>
      simp only []
      cases hw : fs1.WriteFile (s.getEntryPath entry.Key) data with
      | error e => exact ⟨fun h0 => by simp at h0, fun _ => hm⟩
      | ok fs2 =>
        refine ⟨fun _ => ?_, fun h0 => by simp at h0⟩
        obtain ⟨hp, hpar, hold, rfl⟩ := FS.WriteFile_effect _ _ _ _ hw
        obtain ⟨h1, h2, h3, h4, h5⟩ := hm
        have hfe := FS.FileEdit_set fs1 data hp hold
        have hroot : s.path ≠ s.getEntryPath entry.Key := by
          obtain ⟨init, last, _, _, _, _, h6⟩ := s.getEntryPath_nice hk
          intro h0
          have := congrArg List.length h0
          rw [h6] at this
          simp at this
        refine ⟨FS.nodup_set fs1 _ _ h1, (hfe.stat_ok_congr hroot _).2 h2, ?_, ?_, ?_⟩
        · intro q d hg hy
          by_cases hq : q = s.getEntryPath entry.Key
          · rw [hq, FS.get_set_self] at hg
            simp only [Option.some.injEq, Node.file.injEq] at hg
            exact ⟨entry.Key, Or.inl rfl, hq, entry, by rw [← hg]; exact hd, rfl⟩
          · rw [FS.get_set_ne fs1 _ hq] at hg
            obtain ⟨k, hk1, hk2, hk3⟩ := h3 q d hg hy
            exact ⟨k, Or.inr hk1, hk2, hk3⟩
        · intro k hk1
          by_cases hq : s.getEntryPath k = s.getEntryPath entry.Key
          · exact ⟨data, by rw [hq, FS.get_set_self]⟩
          · rw [FS.get_set_ne fs1 _ hq]
            rcases hk1 with rfl | hk1
            · exact absurd rfl hq
            · exact h4 k hk1
        · intro k hk1
          rcases hk1 with rfl | hk1
          · exact hk
          · exact h5 k hk1
  · rw [hmk] at hm
    exact ⟨fun h0 => by simp at h0, fun _ => hm⟩

theorem Store.ListInv_Put {R I : Type} (x : Ext R I)
    (hfaith : ∀ e d e1, x.Marshal e = some d → x.Unmarshal d = some e1 → e1 = e)
    (s : Store I) (hs : s.Built) (env : Env) (fs : FS) (key password message : Str)
    (W : Str → Prop) (hk : NiceKey key) (h : s.ListInv x fs W) :
    ((s.Put x env fs key password message).2 = none →
      s.ListInv x (s.Put x env fs key password message).1 (fun k => k = key ∨ W k)) ∧
    ((s.Put x env fs key password message).2 ≠ none →
      s.ListInv x (s.Put x env fs key password message).1 W) := by
  have h1 := s.ListInv_Log x hs env fs EventModify key message W h
  simp only [Store.Put]
  cases he : Encrypt x env.entropy password s.recipients with
  | error e => exact ⟨fun h0 => by simp at h0, fun _ => h1⟩
  | ok encrypted =>
    simp only []
    have hkey : (match s.loadEntry x (s.auditor.Log env fs EventModify key message).1 key with
        | .error _ => ({ Key := key, Versions := [] } : Entry)
        | .ok entry => entry).Key = key := by
      cases hl : s.loadEntry x (s.auditor.Log env fs EventModify key message).1 key with
      | error err => rfl
      | ok old =>
        simp only []
        obtain ⟨d0, hr, hu0⟩ := (s.loadEntry_ok_iff x _ key old).1 hl
        have hg0 := FS.get_of_ReadFile _ _ _ (s.getEntryPath_ne_nil key) hr
        obtain ⟨k, hk1, hk2, e0, hm0, hk3⟩ :=
          h1.2.2.1 _ d0 hg0 (s.yamlNamed_getEntryPath key)
        rw [hfaith _ _ _ hm0 hu0, hk3]
        exact (s.getEntryPath_injective hk (h1.2.2.2.2 k hk1) hk2).symm
    generalize (match s.loadEntry x (s.auditor.Log env fs EventModify key message).1 key with
        | .error _ => ({ Key := key, Versions := [] } : Entry)
        | .ok entry => entry) = entry at hkey ⊢
    have hsave := s.ListInv_saveEntry x (s.auditor.Log env fs EventModify key message).1
      { entry with Versions := entry.Versions ++ [newVersion env entry encrypted message] } W
      (by rw [hkey]; exact hk) h1
    have hpred : (fun k => k = key ∨ W k) = (fun k => k = entry.Key ∨ W k) := by rw [hkey]
    rw [hpred]
    exact hsave

theorem Store.ListInv_emptyFS {R I : Type} (x : Ext R I) (s : Store I)
    (hroot : (FS.MkdirAll [] s.path).2 = none) :
    s.ListInv x s.emptyFS (fun _ => False) := by
  refine ⟨FS.mkdirFrom_nodup s.path [] [] (by simp [FS.paths]), ?_, ?_, ?_, ?_⟩
  · have := FS.mkdirFrom_stat s.path [] [] hroot (by simp)
    simpa [Store.emptyFS, FS.MkdirAll] using this
  · intro p d hg _
    have := FS.MkdirAll_get_file [] s.path p d hg
    simp [FS.get] at this
  · intro k hk; exact absurd hk id
  · intro k hk; exact absurd hk id

theorem Store.ListInv_putKeys {R I : Type} (x : Ext R I)
    (hfaith : ∀ e d e1, x.Marshal e = some d → x.Unmarshal d = some e1 → e1 = e)
    (s : Store I) (hs : s.Built) (puts : List (Env × Str × Str × Str)) :
    ∀ (fs : FS) (W : Str → Prop), (∀ put ∈ puts, NiceKey put.2.1) → s.ListInv x fs W →
      s.ListInv x (s.putKeys x puts fs).1 (fun k => k ∈ (s.putKeys x puts fs).2 ∨ W k) := by
  induction puts with
  | nil =>
    intro fs W _ h
    simpa [Store.putKeys] using h
  | cons put rest ih =>
    intro fs W hn h
    obtain ⟨env, key, password, message⟩ := put
    have hk : NiceKey key := hn _ (List.mem_cons_self _ _)
    have hrest : ∀ put ∈ rest, NiceKey put.2.1 := fun q hq => hn q (List.mem_cons_of_mem _ hq)
    have hput := s.ListInv_Put x hfaith hs env fs key password message W hk h
    simp only [Store.putKeys]
    rcases hp : s.Put x env fs key password message with ⟨fs1, _ | err⟩
    · rw [hp] at hput
      have := ih fs1 _ hrest (hput.1 rfl)
      simp only []
      have heq : (fun k => k ∈ key :: (s.putKeys x rest fs1).2 ∨ W k) =
          (fun k => k ∈ (s.putKeys x rest fs1).2 ∨ (k = key ∨ W k)) := by
        funext k
        simp only [List.mem_cons, eq_iff_iff]
        tauto
      rw [heq]
      exact this
    · rw [hp] at hput
      exact ih fs1 W hrest (hput.2 (by simp))

theorem Store.ListKeys_of_ListInv {R I : Type} (x : Ext R I) (s : Store I) (fs : FS)
    (W : Str → Prop) (h : s.ListInv x fs W) :
    ∃ keys, s.ListKeys fs = .ok keys ∧ keys.Sorted (fun a b => a < b) ∧
      ∀ k, k ∈ keys ↔ W k := by
  obtain ⟨h1, h2, h3, h4, h5⟩ := h
  have hwalk_nd : ((fs.walk s.path).map Prod.fst).Nodup :=
    List.Nodup.sublist ((List.filter_sublist fs).map Prod.fst) h1
  have hkey : ∀ e ∈ fs.walk s.path, ∀ k, s.listKey e = some k →
      W k ∧ e.1 = s.getEntryPath k := by
    intro e he k hk
    obtain ⟨p, n⟩ := e
    have hmem : (p, n) ∈ fs := List.mem_of_mem_filter he
    simp only [Store.listKey] at hk
    split_ifs at hk with hf hy hv
    cases n with
    | dir => simp [Node.isFile] at hf
    | file d =>
      have hg := FS.get_of_mem fs p _ h1 hmem
      obtain ⟨k1, hk1, hk2, _⟩ := h3 p d hg hy
      simp only [Option.some.injEq] at hk
      have hkk : k = k1 := by
        rw [← hk, hk2, s.keyOf_getEntryPath (h5 k1 hk1)]
      rw [hkk]
      exact ⟨hk1, hk2⟩
  have hmem : ∀ k, k ∈ (fs.walk s.path).filterMap s.listKey ↔ W k := by
    intro k
    constructor
    · intro hk
      obtain ⟨e, he, hek⟩ := List.mem_filterMap.1 hk
      exact (hkey e he k hek).1
    · intro hk
      obtain ⟨d, hd⟩ := h4 k hk
      have hnice := h5 k hk
      apply List.mem_filterMap.2
      refine ⟨(s.getEntryPath k, Node.file d), ?_, ?_⟩
      · simp only [FS.walk, List.mem_filter, decide_eq_true_eq]
        exact ⟨FS.mem_of_get fs _ _ hd, s.root_prefix_getEntryPath hnice⟩
      · simp [Store.listKey, Node.isFile, s.yamlNamed_getEntryPath, s.keyOf_getEntryPath hnice,
          hnice.base_visible, hnice.not_contains]
  have hnd : ((fs.walk s.path).filterMap s.listKey).Nodup := by
    apply nodup_filterMap_fst _ _ hwalk_nd
    intro e1 he1 e2 he2 k hk1 hk2
    rw [(hkey e1 he1 k hk1).2, (hkey e2 he2 k hk2).2]
  refine ⟨sortStrings ((fs.walk s.path).filterMap s.listKey), ?_, ?_, ?_⟩
  · simp [Store.ListKeys, h2, s.foldl_listVisit]
  · have hsorted : (sortStrings ((fs.walk s.path).filterMap s.listKey)).Sorted
        (fun a b => a ≤ b) := List.sorted_insertionSort _ _
    have hperm := List.perm_insertionSort (fun a b : Str => a ≤ b)
      ((fs.walk s.path).filterMap s.listKey)
    exact hsorted.lt_of_le (hperm.nodup_iff.2 hnd)
  · intro k
    rw [← hmem k]
    exact (List.perm_insertionSort (fun a b : Str => a ≤ b) _).mem_iff

theorem FS.WF_dirs_above (fs : FS) (hwf : fs.WF) (n : Nat) :
    ∀ (p : Path) (m : Node), p.length = n → (p, m) ∈ fs →
      ∀ k, k < p.length → fs.node (p.take k) = some Node.dir := by
  induction n using Nat.strong_induction_on with
  | _ n ih =>
    intro p m hlen hmem k hk
    obtain ⟨hp, _, hpar⟩ := hwf.2 (p, m) hmem
    simp only at hp hpar
    have hdl : p.dropLast.length = p.length - 1 := by simp
    by_cases hq : p.dropLast = []
    · have hk0 : k = 0 := by
        have := congrArg List.length hq
        simp at this
        omega
      subst hk0
      simp [FS.node]
    · have hgq := hpar hq
      have hnq : fs.node p.dropLast = some Node.dir := by simp [FS.node, hq, hgq]
      by_cases hk1 : k < p.length - 1
      · have := ih (p.length - 1) (by omega) p.dropLast Node.dir hdl
          (FS.mem_of_get fs _ _ hgq) k (by omega)
        rw [List.dropLast_eq_take, List.take_take] at this
        simpa [Nat.min_eq_left (Nat.le_of_lt hk1)] using this
      · have hk2 : k = p.length - 1 := by omega
        rw [List.dropLast_eq_take] at hnq
        rw [hk2]
        exact hnq

theorem FS.WF_stat (fs : FS) (hwf : fs.WF) (p : Path) (m : Node) (hmem : (p, m) ∈ fs) :
    fs.stat p = .ok m := by
  rw [FS.stat_ok_iff]
  refine ⟨FS.WF_dirs_above fs hwf p.length p m rfl hmem, ?_⟩
  have hp := (hwf.2 (p, m) hmem).1
  simp only at hp
  simp [FS.node, hp, FS.get_of_mem fs p m hwf.1 hmem]

theorem Store.getEntryPath_keyOf {I : Type} (s : Store I) (comps : List Str)
    (hne : comps ≠ []) (hv : ∀ c ∈ comps, ValidName c)
    (hy : yamlNamed (s.path ++ comps) = true) :
    s.getEntryPath (s.keyOf (s.path ++ comps)) = s.path ++ comps := by
  obtain ⟨init, last, rfl⟩ : ∃ init last, comps = init ++ [last] :=
    ⟨comps.dropLast, comps.getLast hne, (List.dropLast_append_getLast hne).symm⟩
  have hlast : yamlExt <:+ last := by
    simpa [yamlNamed, HasSuffix, ← List.append_assoc] using hy
  obtain ⟨l, rfl⟩ := hlast
  have hrel : Rel s.path (s.path ++ (init ++ [l ++ yamlExt])) =
      joinSlash (init ++ [l]) ++ yamlExt := by
    simp only [Rel, List.drop_left]
    cases hs : init ++ [l ++ yamlExt] with
    | nil => simp at hs
    | cons a rest =>
      rw [← hs, joinSlash_append_last]
  have hkey : s.keyOf (s.path ++ (init ++ [l ++ yamlExt])) = joinSlash (init ++ [l]) := by
    rw [Store.keyOf, hrel, TrimSuffix_append]
  rw [hkey, Store.getEntryPath, Join, ← joinSlash_append_last,
    splitSlash_joinSlash _ (by simp) (fun c hc => (hv c hc).2.1)]
  exact foldl_cleanStep_valid _ (fun c hc => ⟨(hv c hc).1, (hv c hc).2.2.1, (hv c hc).2.2.2⟩) _

theorem Store.listKey_root {I : Type} (s : Store I) (m : Node) : s.listKey (s.path, m) = none := by
  have hrel : Rel s.path s.path = ['.'] := by simp [Rel]
  have hk : s.keyOf s.path = ['.'] := by
    rw [Store.keyOf, hrel]
    decide
  simp only [Store.listKey, hk]
  have hb : HasPrefix (Base ['.']) ['.'] = true := by decide
  simp [hb]

theorem Store.Get_by_index {R I : Type} (x : Ext R I) (s : Store I) (hs : s.Built)
    (env : Env) (fs : FS) (key : Str) (entry : Entry) (version : Int)
    (hload : s.loadEntry x fs key = .ok entry) (hn : 1 ≤ entry.Versions.length) :
    (1 ≤ version ∧ version ≤ (entry.Versions.length : Int) →
      ∃ v, entry.Versions[(version - 1).toNat]? = some v ∧
        (s.Get x env fs key version).2 = s.decryptVersion x v) ∧
    (version ≤ 0 ∨ version > (entry.Versions.length : Int) →
      ∃ v, entry.Versions[entry.Versions.length - 1]? = some v ∧
        (s.Get x env fs key version).2 = s.decryptVersion x v ∧
        s.Get x env fs key version = s.Get x env fs key 0) ∧
    (s.Get x env fs key version).2 ≠ Outcome.fault := by
  have hl := (s.loadEntry_Log x hs env fs EventAccess key [] key entry).2 hload
  have hlast : ∃ v, entry.Versions[entry.Versions.length - 1]? = some v :=
    ⟨entry.Versions[entry.Versions.length - 1], List.getElem?_eq_getElem (by omega)⟩
  have hfault : ∀ v : Version, s.decryptVersion x v ≠ Outcome.fault := by
    intro v
    unfold Store.decryptVersion
    cases Decrypt x v.Password s.identities <;> simp
  have hout : ∀ w : Int, (w ≤ 0 ∨ w > (entry.Versions.length : Int)) → ∀ v,
      entry.Versions[entry.Versions.length - 1]? = some v →
      s.Get x env fs key w = ((s.auditor.Log env fs EventAccess key []).1, s.decryptVersion x v) := by
    intro w hw v hv
    have hidx : goIndex entry.Versions ((entry.Versions.length : Int) - 1) = some v := by
      have h1 : ¬ ((entry.Versions.length : Int) - 1 < 0) := by omega
      have h2 : ((entry.Versions.length : Int) - 1).toNat = entry.Versions.length - 1 := by omega
      simp [goIndex, h1, h2, hv]
    simp only [Store.Get, hl, hw, if_true, hidx]
  have hin : 1 ≤ version ∧ version ≤ (entry.Versions.length : Int) →
      ∃ v, entry.Versions[(version - 1).toNat]? = some v ∧
        s.Get x env fs key version =
          ((s.auditor.Log env fs EventAccess key []).1, s.decryptVersion x v) := by
    intro hv
    have hlt : (version - 1).toNat < entry.Versions.length := by omega
    refine ⟨entry.Versions[(version - 1).toNat], List.getElem?_eq_getElem hlt, ?_⟩
    have hc : ¬ (version ≤ 0 ∨ version > (entry.Versions.length : Int)) := by omega
    have h1 : ¬ (version - 1 < 0) := by omega
    simp only [Store.Get, hl, hc, if_false, goIndex, h1, List.getElem?_eq_getElem hlt]
  refine ⟨?_, ?_, ?_⟩
  · intro hv
    obtain ⟨v, h1, h2⟩ := hin hv
    exact ⟨v, h1, by rw [h2]⟩
  · intro hv
    obtain ⟨v, h1⟩ := hlast
    exact ⟨v, h1, by rw [hout version hv v h1], by
      rw [hout version hv v h1, hout 0 (Or.inl (le_refl 0)) v h1]⟩
  · by_cases hv : version ≤ 0 ∨ version > (entry.Versions.length : Int)
    · obtain ⟨v, h1⟩ := hlast
      rw [hout version hv v h1]
      exact hfault v
    · obtain ⟨v, _, h2⟩ := hin (by omega)
      rw [h2]
      exact hfault v

/-! ## The claims -/

/-- C1. `Store.Get` clamps to the latest version. For an entry that loads with
`n ≥ 1` versions and any integer `version`: when `1 ≤ version ≤ n` the result
is the decryption of `Versions[version-1]`; when `version ≤ 0` or
`version > n` it is the decryption of the last element `Versions[n-1]`, and
the whole call equals `Get(key, 0)`. The result is never the out-of-range
panic, so the only error left is a failed decryption. -/
theorem Store.Get_clamps_to_latest {R I : Type} (x : Ext R I) (s : Store I) (hs : s.Built)
    (env : Env) (fs : FS) (key : Str) (entry : Entry) (version : Int)
    (hload : s.loadEntry x fs key = .ok entry) (hn : 1 ≤ entry.Versions.length) :
    (1 ≤ version ∧ version ≤ (entry.Versions.length : Int) →
      ∃ v, entry.Versions[(version - 1).toNat]? = some v ∧
        (s.Get x env fs key version).2 = s.decryptVersion x v) ∧
    (version ≤ 0 ∨ version > (entry.Versions.length : Int) →
      ∃ v, entry.Versions[entry.Versions.length - 1]? = some v ∧
        (s.Get x env fs key version).2 = s.decryptVersion x v ∧
        s.Get x env fs key version = s.Get x env fs key 0) ∧
    (s.Get x env fs key version).2 ≠ Outcome.fault := by
  have hl := (s.loadEntry_Log x hs env fs EventAccess key [] key entry).2 hload
  have hlast : ∃ v, entry.Versions[entry.Versions.length - 1]? = some v :=
    ⟨entry.Versions[entry.Versions.length - 1], List.getElem?_eq_getElem (by omega)⟩
  have hfault : ∀ v : Version, s.decryptVersion x v ≠ Outcome.fault := by
    intro v
    unfold Store.decryptVersion
    cases Decrypt x v.Password s.identities <;> simp
  have hout : ∀ w : Int, (w ≤ 0 ∨ w > (entry.Versions.length : Int)) → ∀ v,
      entry.Versions[entry.Versions.length - 1]? = some v →
      s.Get x env fs key w = ((s.auditor.Log env fs EventAccess key []).1, s.decryptVersion x v) := by
    intro w hw v hv
    have hidx : goIndex entry.Versions ((entry.Versions.length : Int) - 1) = some v := by
      have h1 : ¬ ((entry.Versions.length : Int) - 1 < 0) := by omega
      have h2 : ((entry.Versions.length : Int) - 1).toNat = entry.Versions.length - 1 := by omega
      simp [goIndex, h1, h2, hv]
    simp only [Store.Get, hl, hw, if_true, hidx]
  have hin : 1 ≤ version ∧ version ≤ (entry.Versions.length : Int) →
      ∃ v, entry.Versions[(version - 1).toNat]? = some v ∧
        s.Get x env fs key version =
          ((s.auditor.Log env fs EventAccess key []).1, s.decryptVersion x v) := by
    intro hv
    have hlt : (version - 1).toNat < entry.Versions.length := by omega
    refine ⟨entry.Versions[(version - 1).toNat], List.getElem?_eq_getElem hlt, ?_⟩
    have hc : ¬ (version ≤ 0 ∨ version > (entry.Versions.length : Int)) := by omega
    have h1 : ¬ (version - 1 < 0) := by omega
    simp only [Store.Get, hl, hc, if_false, goIndex, h1, List.getElem?_eq_getElem hlt]
  refine ⟨?_, ?_, ?_⟩
  · intro hv
    obtain ⟨v, h1, h2⟩ := hin hv
    exact ⟨v, h1, by rw [h2]⟩
  · intro hv
    obtain ⟨v, h1⟩ := hlast
    exact ⟨v, h1, by rw [hout version hv v h1], by
      rw [hout version hv v h1, hout 0 (Or.inl (le_refl 0)) v h1]⟩
  · by_cases hv : version ≤ 0 ∨ version > (entry.Versions.length : Int)
    · obtain ⟨v, h1⟩ := hlast
      rw [hout version hv v h1]
      exact hfault v
    · obtain ⟨v, _, h2⟩ := hin (by omega)
      rw [h2]
      exact hfault v

/-- C2. `Store.Put` appends and never rewrites history. Let the entry of
`key` load as `old` (or not be found, `old` being the entry with no version).
After a successful `Put(key, password, message)` the file of the entry holds
the serialised entry whose version list is the list of `old` followed by
exactly one element, with `Version = len + 1`, `Message = message` and
`Password` the armored text `Encrypt` returned; the elements of `old` stand
before it unchanged. -/
theorem Store.Put_appends_version {R I : Type} (x : Ext R I) (s : Store I) (hs : s.Built)
    (env : Env) (fs fs2 : FS) (key password message : Str) (old : Entry)
    (hold : s.loadEntry x fs key = .ok old ∨
      (s.loadEntry x fs key = .error (StoreError.notFound key) ∧
        old = { Key := key, Versions := [] }))
    (hput : s.Put x env fs key password message = (fs2, none)) :
    ∃ encrypted data,
      Encrypt x env.entropy password s.recipients = .ok encrypted ∧
      x.Marshal
        { Key := old.Key
          Versions := old.Versions ++
            [{ Version := (old.Versions.length : Int) + 1
               Password := encrypted
               Timestamp := env.now
               Author := env.user
               Message := message }] } = some data ∧
      fs2.ReadFile (s.getEntryPath old.Key) = .ok data := by
  obtain ⟨encrypted, henc, hsave⟩ := s.Put_ok x env fs fs2 key password message hput
  have hentry : old =
      match s.loadEntry x (s.auditor.Log env fs EventModify key message).1 key with
      | .error _ => { Key := key, Versions := [] }
      | .ok entry => entry := by
    rcases hold with h | ⟨h, rfl⟩
    · rw [(s.loadEntry_Log x hs env fs EventModify key message key old).2 h]
    · cases hl : s.loadEntry x (s.auditor.Log env fs EventModify key message).1 key with
      | error e => rfl
      | ok e =>
        have := (s.loadEntry_Log x hs env fs EventModify key message key e).1 hl
        rw [h] at this
        cases this
  obtain ⟨data, hm, _, hw⟩ := s.saveEntry_ok x _ fs2 _ (hsave old hentry)
  exact ⟨encrypted, data, henc, hm, FS.ReadFile_WriteFile _ _ _ _ hw⟩

/-- C3. Version-numbering invariant. Let the YAML library be faithful: an
entry file that parses yields the entry that was serialised (it need not
parse). In every entry that loads after any sequence of `Put`, `Delete` (and `Get`) calls on
the empty store, the version list is not empty, its element at position `i`
(1-based) has `Version = i`, and the last element carries the highest number,
the length of the list. `Put` preserves the predicate that every entry file
holds such a list. -/
theorem Store.version_numbering_invariant {R I : Type} (x : Ext R I)
    (hfaith : ∀ e d e1, x.Marshal e = some d → x.Unmarshal d = some e1 → e1 = e)
    (s : Store I) (hs : s.Built) :
    (∀ (ops : List Op) (key : Str) (e : Entry),
      s.loadEntry x (s.run x s.emptyFS ops) key = .ok e →
        e.Versions ≠ [] ∧
        (∀ (i : Nat) (v : Version), e.Versions[i]? = some v → v.Version = (i : Int) + 1) ∧
        ∃ v, e.Versions.getLast? = some v ∧ v.Version = (e.Versions.length : Int)) ∧
    (∀ (fs : FS) (env : Env) (key password message : Str),
      fs.EntriesNumbered x → (s.Put x env fs key password message).1.EntriesNumbered x) := by
  refine ⟨?_, fun fs env key password message h =>
    s.EntriesNumbered_Put x hfaith hs env fs key password message h⟩
  intro ops key e hl
  have hinv := s.EntriesNumbered_run x hfaith hs ops s.emptyFS (s.EntriesNumbered_emptyFS x)
  obtain ⟨d, hr, hu⟩ := (s.loadEntry_ok_iff x _ key e).1 hl
  have hg := FS.get_of_ReadFile _ _ _ (s.getEntryPath_ne_nil key) hr
  obtain ⟨hne, hasc⟩ := hinv _ d e hg (s.yamlNamed_getEntryPath key) hu
  refine ⟨hne, hasc, ?_⟩
  have hlen : 0 < e.Versions.length := List.length_pos.2 hne
  have hlast : e.Versions.getLast? = some (e.Versions[e.Versions.length - 1]) := by
    rw [List.getLast?_eq_getElem?]
    exact List.getElem?_eq_getElem (by omega)
  refine ⟨_, hlast, ?_⟩
  have := hasc (e.Versions.length - 1) _ (List.getElem?_eq_getElem (by omega))
  rw [this]
  omega

theorem quirkExt_decrypt_encrypt : ∀ entropy p c,
    Encrypt quirkExt entropy p toyStore.recipients = .ok c →
      Decrypt quirkExt c toyStore.identities = .ok p := by
  intro entropy p c h
  have hc : c = 'E' :: p.reverse := by
    have : Encrypt quirkExt entropy p toyStore.recipients = .ok ('E' :: p.reverse) := rfl
    rw [this] at h
    simp only [Except.ok.injEq] at h
    exact h.symm
  subst hc
  simp [Decrypt, toyStore, quirkExt, toyExt]

theorem Store.putAll_of_putAllRead {R I : Type} (x : Ext R I) (s : Store I) (key : Str)
    (puts : List (Env × Str × Str)) :
    ∀ fs fs1 : FS, s.putAllRead x key puts fs = some fs1 → s.putAll x key puts fs = some fs1 := by
  induction puts with
  | nil => intro fs fs1 h; simpa [Store.putAllRead, Store.putAll] using h
  | cons put rest ih =>
    intro fs fs1 h
    obtain ⟨env, password, message⟩ := put
    simp only [Store.putAllRead] at h
    simp only [Store.putAll]
    rcases hput : s.Put x env fs key password message with ⟨fs2, _ | err⟩
    · simp only [hput] at h ⊢
      cases hl : s.loadEntry x fs2 key with
      | error e => simp [hl] at h
      | ok e =>
        simp only [hl] at h
        exact ih fs2 fs1 h
    · simp [hput] at h

/-- C5 as stated fails on the code. The claim assumes only that `Decrypt`
inverts `Encrypt`, and that holds here. On a YAML library that, like
`yaml.v3`, writes the message made of a line break, a space, a letter and a
line break in a form it does not read back, `Put(a/b, p1, m1)` with that
message and `Put(a/b, p2, m2)` both succeed from a key with no entry. After
the first call `Get(a/b, 1)` fails to parse the entry; the second call starts
a fresh entry, so after it `Get(a/b, 1)` returns `p2`, not `p1`. -/
theorem Store.Put_Get_round_trip_counterexample :
    toyStore.Built ∧
      (∀ entropy p c, Encrypt quirkExt entropy p toyStore.recipients = .ok c →
        Decrypt quirkExt c toyStore.identities = .ok p) ∧
      toyStore.loadEntry quirkExt emptyStoreFS toyKey = .error (StoreError.notFound toyKey) ∧
      (∃ fs1, toyStore.putAll quirkExt toyKey [(toyEnv, "p1".toList, quirkMessage)]
            emptyStoreFS = some fs1 ∧
          (toyStore.Get quirkExt toyEnv fs1 toyKey 1).2 = Outcome.err StoreError.parseEntry) ∧
      ∃ fs2, toyStore.putAll quirkExt toyKey
            [(toyEnv, "p1".toList, quirkMessage), (toyEnv, "p2".toList, "m2".toList)]
            emptyStoreFS = some fs2 ∧
          (toyStore.Get quirkExt toyEnv fs2 toyKey 1).2 = Outcome.ok "p2".toList ∧
          (toyStore.Get quirkExt toyEnv fs2 toyKey 1).2 ≠ Outcome.ok "p1".toList :=
  ⟨rfl, quirkExt_decrypt_encrypt, rfl, ⟨_, rfl, rfl⟩, ⟨_, rfl, rfl, by decide⟩⟩

/-- C5 (amended). Put/Get round trip over versions. Let the YAML library be
faithful (an entry file that parses yields the entry that was serialised) and
let the identities of the store open what is encrypted for its recipients.
Starting from a key with no entry, after `Put(k, p1, m1)`, …,
`Put(k, pn, mn)`, each of which succeeds and leaves an entry file that
parses, `Get(k, i)` returns `pi` for every `1 ≤ i ≤ n` and `Get(k, 0)`
returns `pn`. -/
theorem Store.Put_Get_round_trip {R I : Type} (x : Ext R I)
    (hfaith : ∀ e d e1, x.Marshal e = some d → x.Unmarshal d = some e1 → e1 = e)
    (s : Store I) (hs : s.Built)
    (hdec : ∀ entropy p c, Encrypt x entropy p s.recipients = .ok c →
      Decrypt x c s.identities = .ok p)
    (key : Str) (fs0 fs : FS) (puts : List (Env × Str × Str))
    (hnone : s.loadEntry x fs0 key = .error (StoreError.notFound key))
    (hputs : s.putAllRead x key puts fs0 = some fs) (env : Env) :
    s.putAll x key puts fs0 = some fs ∧
    (∀ (i : Nat) (p : Env × Str × Str), puts[i]? = some p →
      (s.Get x env fs key ((i : Int) + 1)).2 = Outcome.ok p.2.1) ∧
    (∀ p : Env × Str × Str, puts.getLast? = some p →
      (s.Get x env fs key 0).2 = Outcome.ok p.2.1) := by
  refine ⟨s.putAll_of_putAllRead x key puts fs0 fs hputs, ?_⟩
  cases puts with
  | nil => simp
  | cons put rest =>
    obtain ⟨env1, password, message⟩ := put
    simp only [Store.putAllRead] at hputs
    rcases hput : s.Put x env1 fs0 key password message with ⟨fs1, _ | err⟩
    · simp only [hput] at hputs
      have hback : ∃ e, s.loadEntry x fs1 key = .ok e := by
        cases hl2 : s.loadEntry x fs1 key with
        | ok e => exact ⟨e, rfl⟩
        | error err => simp [hl2] at hputs
      obtain ⟨encrypted, henc, hl1⟩ :=
        s.Put_load x hfaith hs env1 fs0 fs1 key password message { Key := key, Versions := [] }
          (Or.inr ⟨fun e he => (by rw [hnone] at he; cases he), rfl⟩) hput hback
      simp only [hl1] at hputs
      obtain ⟨e, he1, he2⟩ := s.putAllRead_load x hfaith hs hdec key rest fs1 fs _ hl1 rfl hputs
      have hall : e.Versions.map (fun v => Decrypt x v.Password s.identities) =
          ((env1, password, message) :: rest).map (fun p => Except.ok p.2.1) := by
        rw [he2]
        simp [newVersion, hdec _ _ _ henc]
      have hlen : e.Versions.length = rest.length + 1 := by
        have := congrArg List.length hall
        simpa using this
      have hget : ∀ (i : Nat) (p : Env × Str × Str),
          ((env1, password, message) :: rest)[i]? = some p →
          ∃ v, e.Versions[i]? = some v ∧ s.decryptVersion x v = Outcome.ok p.2.1 := by
        intro i p hp
        have h1 := congrArg (fun l => l[i]?) hall
        simp only [List.getElem?_map, hp, Option.map_some'] at h1
        cases hv : e.Versions[i]? with
        | none => simp [hv] at h1
        | some v =>
          simp only [hv, Option.map_some', Option.some.injEq] at h1
          exact ⟨v, rfl, by simp [Store.decryptVersion, h1]⟩
      constructor
      · intro i p hp
        obtain ⟨v, hv, hd⟩ := hget i p hp
        have hi : i < rest.length + 1 := by
          obtain ⟨h, _⟩ := List.getElem?_eq_some.1 hp
          simpa using h
        rw [s.Get_of_load x hs env fs key e _ he1]
        have hc : ¬ ((i : Int) + 1 ≤ 0 ∨ (i : Int) + 1 > (e.Versions.length : Int)) := by
          omega
        have h0 : ¬ ((i : Int) + 1 - 1 < 0) := by omega
        simp only [hc, if_false, goIndex, h0]
        have h2 : ((i : Int) + 1 - 1).toNat = i := by omega
        rw [h2, hv]
        exact hd
      · intro p hp
        rw [List.getLast?_eq_getElem?] at hp
        obtain ⟨v, hv, hd⟩ := hget _ p hp
        rw [s.Get_of_load x hs env fs key e _ he1]
        have h0 : ¬ ((e.Versions.length : Int) - 1 < 0) := by omega
        simp only [le_refl, true_or, if_true, goIndex, h0, if_false]
        have h2 : ((e.Versions.length : Int) - 1).toNat = rest.length := by omega
        simp only [List.length_cons, Nat.add_sub_cancel] at hv
        rw [h2, hv]
        exact hd
    · simp [hput] at hputs

/-- C6. `Store.GetHistory` equals its reference definition. For an entry that
loads with version list `vs` and any integer `limit`, the result is
`GetHistorySpec vs limit`: `vs` reversed, every `Password` cleared and the
other fields kept, cut to the first `limit` elements exactly when
`0 < limit < len vs`. Its length is `min limit (len vs)` for `limit > 0` and
`len vs` for `limit ≤ 0`, and no record returned carries ciphertext. -/
theorem Store.GetHistory_eq_spec {R I : Type} (x : Ext R I) (s : Store I) (fs : FS)
    (key : Str) (limit : Int) (entry : Entry) (hload : s.loadEntry x fs key = .ok entry) :
    s.GetHistory x fs key limit = .ok (GetHistorySpec entry.Versions limit) ∧
    (0 < limit →
      (GetHistorySpec entry.Versions limit).length = min limit.toNat entry.Versions.length) ∧
    (limit ≤ 0 → (GetHistorySpec entry.Versions limit).length = entry.Versions.length) ∧
    (∀ v ∈ GetHistorySpec entry.Versions limit, v.Password = []) := by
  refine ⟨?_, ?_, ?_, ?_⟩
  · simp only [Store.GetHistory, hload, reverseLoop_eq_reverse, List.length_reverse,
      GetHistorySpec]
    by_cases hc : 0 < limit ∧ limit < (entry.Versions.length : Int)
    · have hc2 : limit > 0 ∧ limit < (entry.Versions.length : Int) := ⟨hc.1, hc.2⟩
      simp only [hc, hc2, and_self, if_true, List.map_take]
    · have hc2 : ¬ (limit > 0 ∧ limit < (entry.Versions.length : Int)) := fun h =>
        hc ⟨h.1, h.2⟩
      simp only [hc, hc2, if_false]
  · intro hpos
    simp only [GetHistorySpec]
    by_cases hc : 0 < limit ∧ limit < (entry.Versions.length : Int)
    · simp only [hc, and_self, if_true, List.length_take, List.length_map, List.length_reverse]
    · simp only [hc, if_false, List.length_map, List.length_reverse]
      have : entry.Versions.length ≤ limit.toNat := by omega
      omega
  · intro hneg
    have hc : ¬ (0 < limit ∧ limit < (entry.Versions.length : Int)) := by omega
    simp only [GetHistorySpec, hc, if_false, List.length_map, List.length_reverse]
  · intro v hv
    simp only [GetHistorySpec] at hv
    split at hv
    · obtain ⟨w, _, rfl⟩ := List.mem_map.1 (List.mem_of_mem_take hv)
      rfl
    · obtain ⟨w, _, rfl⟩ := List.mem_map.1 hv
      rfl

theorem FS.AgreeOff.node {a : Path} {f g : FS} (h : FS.AgreeOff a f g) {q : Path}
    (hq : q ≠ a) : f.node q = g.node q := by
  simp [FS.node, h q hq]

theorem FS.take_ne_of_not_prefix {a p : Path} (h : ¬ a <+: p) (k : Nat) : p.take k ≠ a := by
  intro h0
  apply h
  rw [← h0]
  exact List.take_prefix k p

theorem FS.AgreeOff.stat {a : Path} {f g : FS} (h : FS.AgreeOff a f g) {p : Path}
    (hp : ¬ a <+: p) : f.stat p = g.stat p := by
  apply FS.stat_congr
  intro k _
  exact h.node (FS.take_ne_of_not_prefix hp k)

theorem FS.missing_enoent_iff (q : Path) :
    FS.missing q = Errno.ENOENT ↔ tooLong (q.getLastD []) = false := by
  unfold FS.missing
  cases tooLong (q.getLastD []) <;> simp

theorem FS.fail_enoent_iff (p : Path) (e : Errno) :
    FS.fail p e = Errno.ENOENT ↔ FS.pathErr p = none ∧ e = Errno.ENOENT := by
  unfold FS.fail
  cases h : FS.pathErr p with
  | none => simp
  | some e1 =>
    constructor
    · intro h0
      subst h0
      unfold FS.pathErr at h
      split at h
      · cases h
      · split at h
        · cases h
        · cases h
    · rintro ⟨h1, _⟩
      cases h1

theorem FS.resolve_enoent_iff (fs : FS) (cs : List Str) :
    ∀ cur : Path, fs.resolve cur cs = .error Errno.ENOENT ↔
      ∃ j, j ≤ cs.length ∧ (∀ i, i < j → fs.node (cur ++ cs.take i) = some Node.dir) ∧
        fs.node (cur ++ cs.take j) = none ∧
        tooLong ((cur ++ cs.take j).getLastD []) = false := by
  induction cs with
  | nil =>
    intro cur
    simp only [FS.resolve]
    cases hn : fs.node cur with
    | some n =>
      constructor
      · intro h; cases h
      · rintro ⟨j, hj, _, h2, _⟩
        have hj0 : j = 0 := by simpa using hj
        subst hj0
        simp [hn] at h2
    | none =>
      simp only [Except.error.injEq, FS.missing_enoent_iff]
      constructor
      · intro h
        exact ⟨0, le_refl _, fun i hi => absurd hi (Nat.not_lt_zero i), by simpa using hn,
          by simpa using h⟩
      · rintro ⟨j, hj, _, _, h3⟩
        have hj0 : j = 0 := by simpa using hj
        subst hj0
        simpa using h3
  | cons c cs ih =>
    intro cur
    simp only [FS.resolve]
    cases hn : fs.node cur with
    | none =>
      simp only [Except.error.injEq, FS.missing_enoent_iff]
      constructor
      · intro h
        exact ⟨0, Nat.zero_le _, fun i hi => absurd hi (Nat.not_lt_zero i), by simpa using hn,
          by simpa using h⟩
      · rintro ⟨j, hj, h1, h2, h3⟩
        cases j with
        | zero => simpa using h3
        | succ j =>
          have h0 := h1 0 (Nat.succ_pos j)
          simp [hn] at h0
    | some n =>
      cases n with
      | file d =>
        simp only []
        constructor
        · intro h; cases h
        · rintro ⟨j, hj, h1, h2, _⟩
          cases j with
          | zero => simp [hn] at h2
          | succ j =>
            have h0 := h1 0 (Nat.succ_pos j)
            simp [hn] at h0
      | dir =>
        simp only []
        rw [ih (cur ++ [c])]
        constructor
        · rintro ⟨j, hj, h1, h2, h3⟩
          refine ⟨j + 1, by simpa using hj, ?_, by simpa using h2, by simpa using h3⟩
          intro i hi
          cases i with
          | zero => simpa using hn
          | succ i =>
            have h0 := h1 i (by omega)
            simpa using h0
        · rintro ⟨j, hj, h1, h2, h3⟩
          cases j with
          | zero => simp [hn] at h2
          | succ j =>
            refine ⟨j, by simpa using hj, ?_, by simpa using h2, by simpa using h3⟩
            intro i hi
            have h0 := h1 (i + 1) (by omega)
            simpa using h0

theorem FS.stat_enoent_iff (fs : FS) (p : Path) :
    fs.stat p = .error Errno.ENOENT ↔
      FS.pathErr p = none ∧
      ∃ j, j ≤ p.length ∧ (∀ i, i < j → fs.node (p.take i) = some Node.dir) ∧
        fs.node (p.take j) = none ∧ tooLong ((p.take j).getLastD []) = false := by
  rw [FS.stat_error_resolve]
  constructor
  · rintro ⟨e0, hr, he⟩
    obtain ⟨h1, h2⟩ := (FS.fail_enoent_iff p e0).1 he.symm
    subst h2
    exact ⟨h1, by simpa using (FS.resolve_enoent_iff fs p []).1 hr⟩
  · rintro ⟨h1, h2⟩
    exact ⟨Errno.ENOENT, (FS.resolve_enoent_iff fs p []).2 (by simpa using h2),
      ((FS.fail_enoent_iff p _).2 ⟨h1, rfl⟩).symm⟩

theorem FS.Remove_enoent_iff (fs : FS) (p : Path) :
    fs.Remove p = .error Errno.ENOENT ↔ fs.stat p = .error Errno.ENOENT := by
  unfold FS.Remove
  cases hs : fs.stat p with
  | error e => simp
  | ok n =>
    cases n with
    | file d => simp
    | dir =>
      simp only []
      by_cases hp : p = []
      · simp [hp]
      · simp only [hp, if_false]
        cases fs.hasChild p <;> simp

/-- C7 (amended). `Store.Delete` removes the whole entry or reports that
there is none. `Delete(k)` succeeds when an entry file exists for `k`. It
fails with not-found exactly when `os.Remove` reports `ENOENT` for the entry
path, and with "failed to delete password" exactly when `os.Remove` reports
another error. For a key whose entry path does not run through the audit log,
`ENOENT` is reported exactly when the entry path has no NUL byte and at most
`PATH_MAX` bytes, and some leading part of it (the path itself or a directory
above it) is not there, under a name of at most `NAME_MAX` bytes, while every
shorter leading part is a directory. When `Delete(k)` fails with not-found, no
entry file existed for `k` and every regular file other than the audit log is
unchanged. After a successful `Delete(k)`, the entry of every key whose entry
path differs from that of `k` loads as before, and, in a file system that
holds only paths within those limits, `Get(k, v)` and `GetHistory(k, l)` fail
with not-found for every `v` and `l`. -/
theorem Store.Delete_removes_entry {R I : Type} (x : Ext R I) (s : Store I) (hs : s.Built)
    (env : Env) (fs : FS) (key : Str) :
    ((∃ d, fs.ReadFile (s.getEntryPath key) = .ok d) → (s.Delete env fs key).2 = none) ∧
    ((s.Delete env fs key).2 = some (StoreError.notFound key) ↔
      (s.auditor.Log env fs EventDelete key []).1.Remove (s.getEntryPath key) =
        .error Errno.ENOENT) ∧
    (∀ e, (s.Delete env fs key).2 = some (StoreError.delete e) ↔
      ((s.auditor.Log env fs EventDelete key []).1.Remove (s.getEntryPath key) = .error e ∧
        e ≠ Errno.ENOENT)) ∧
    (¬ s.auditor.path <+: s.getEntryPath key →
      ((s.Delete env fs key).2 = some (StoreError.notFound key) ↔
        FS.pathErr (s.getEntryPath key) = none ∧
        ∃ j, j ≤ (s.getEntryPath key).length ∧
          (∀ i, i < j → fs.node ((s.getEntryPath key).take i) = some Node.dir) ∧
          fs.node ((s.getEntryPath key).take j) = none ∧
          tooLong (((s.getEntryPath key).take j).getLastD []) = false)) ∧
    ((s.Delete env fs key).2 = some (StoreError.notFound key) →
      (∀ d, fs.ReadFile (s.getEntryPath key) ≠ .ok d) ∧
      ∀ (q : Path) (d : Str), q ≠ s.auditor.path →
        ((s.Delete env fs key).1.ReadFile q = .ok d ↔ fs.ReadFile q = .ok d)) ∧
    ((s.Delete env fs key).2 = none →
      (∀ (k1 : Str) (e : Entry), s.getEntryPath k1 ≠ s.getEntryPath key →
        (s.loadEntry x (s.Delete env fs key).1 k1 = .ok e ↔ s.loadEntry x fs k1 = .ok e)) ∧
      (fs.Storable →
        (∀ (env1 : Env) (v : Int),
          (s.Get x env1 (s.Delete env fs key).1 key v).2 =
            Outcome.err (StoreError.notFound key)) ∧
        ∀ l : Int, s.GetHistory x (s.Delete env fs key).1 key l =
          .error (StoreError.notFound key))) := by
  have hpa := s.getEntryPath_ne_audit hs key
  have hpn := s.getEntryPath_ne_nil key
  have hnf : (s.Delete env fs key).2 = some (StoreError.notFound key) ↔
      (s.auditor.Log env fs EventDelete key []).1.Remove (s.getEntryPath key) =
        .error Errno.ENOENT := by
    rcases s.Delete_cases env fs key with ⟨fs2, h1, h2⟩ | ⟨e, h1, h2⟩
    · rw [h2, h1]
      simp
    · rw [h2, h1]
      by_cases he : e = Errno.ENOENT
      · simp [he]
      · simp [he]
  refine ⟨?_, hnf, ?_, ?_, ?_, ?_⟩
  · rintro ⟨d, hd⟩
    have h1 := (Logger.Log_readFile_iff s.auditor env fs EventDelete key [] _ hpa d).2 hd
    rw [FS.ReadFile_ok_iff_stat] at h1
    simp [Store.Delete, FS.Remove_of_file _ _ d h1]
  · intro e
    rcases s.Delete_cases env fs key with ⟨fs2, h1, h2⟩ | ⟨e1, h1, h2⟩
    · rw [h2, h1]
      simp
    · rw [h2, h1]
      by_cases he : e1 = Errno.ENOENT
      · subst he
        simp only [if_true, Option.some.injEq, Except.error.injEq, ne_eq]
        constructor
        · intro h; cases h
        · rintro ⟨h3, h4⟩
          exact absurd h3.symm h4
      · simp only [he, if_false, Option.some.injEq, StoreError.delete.injEq,
          Except.error.injEq, ne_eq]
        constructor
        · intro h
          subst h
          exact ⟨rfl, he⟩
        · intro h
          exact h.1
  · intro hthrough
    have hagree : FS.AgreeOff s.auditor.path (s.auditor.Log env fs EventDelete key []).1 fs :=
      fun q hq => Logger.Log_get_file s.auditor env fs EventDelete key [] q hq
    rw [hnf, FS.Remove_enoent_iff, hagree.stat hthrough, FS.stat_enoent_iff]
  · intro hnf1
    rcases s.Delete_cases env fs key with ⟨fs2, _, h2⟩ | ⟨e, h1, h2⟩
    · rw [h2] at hnf1; cases hnf1
    · rw [h2]
      refine ⟨?_, ?_⟩
      · intro d hd
        have h3 := (Logger.Log_readFile_iff s.auditor env fs EventDelete key [] _ hpa d).2 hd
        rw [FS.ReadFile_ok_iff_stat] at h3
        exact FS.Remove_error_no_file _ _ _ h1 d h3
      · intro q d hq
        exact Logger.Log_readFile_iff s.auditor env fs EventDelete key [] q hq d
  · intro hok
    rcases s.Delete_cases env fs key with ⟨fs2, h1, h2⟩ | ⟨e, _, h2⟩
    · rw [h2]
      obtain ⟨hfs2, _, hcase⟩ := FS.Remove_ok _ _ _ h1
      have hstat : ∃ n, (s.auditor.Log env fs EventDelete key []).1.stat (s.getEntryPath key) =
          .ok n := by
        rcases hcase with ⟨d, hd⟩ | ⟨hd, _⟩
        · exact ⟨_, hd⟩
        · exact ⟨_, hd⟩
      obtain ⟨n, hn⟩ := hstat
      refine ⟨?_, ?_⟩
      · intro k1 e hk1
        rw [← s.loadEntry_Log x hs env fs EventDelete key [] k1 e]
        rw [Store.loadEntry_ok_iff, Store.loadEntry_ok_iff]
        constructor
        · rintro ⟨d, hr, hu⟩
          refine ⟨d, ?_, hu⟩
          rw [FS.ReadFile_ok_iff_stat] at hr ⊢
          exact (FS.stat_ok_iff_erase _ _ _ _ h1 hk1 _).1 hr
        · rintro ⟨d, hr, hu⟩
          refine ⟨d, ?_, hu⟩
          rw [FS.ReadFile_ok_iff_stat] at hr ⊢
          exact (FS.stat_ok_iff_erase _ _ _ _ h1 hk1 _).2 hr
      · intro hst
        have habs : FS.absent (s.getEntryPath key) = Errno.ENOENT := by
          have hnode := ((FS.stat_ok_iff _ _ _).1 hn).2
          simp only [FS.node, hpn, if_false] at hnode
          rw [Logger.Log_get_file s.auditor env fs EventDelete key [] _ hpa] at hnode
          exact hst _ (FS.mem_of_get fs _ _ hnode)
        have hgone : fs2.stat (s.getEntryPath key) = .error Errno.ENOENT := by
          rw [hfs2, ← habs]
          exact FS.stat_erase_self _ _ hpn n hn
        have hdirs2 : ∀ k, k < (s.getEntryPath key).length →
            fs2.node ((s.getEntryPath key).take k) = some Node.dir := by
          intro k hk
          rw [hfs2, FS.node_erase_ne _ (FS.take_ne_self hk)]
          exact ((FS.stat_ok_iff _ _ _).1 hn).1 k hk
        refine ⟨?_, ?_⟩
        · intro env1 v
          have h3 : (s.auditor.Log env1 fs2 EventAccess key []).1.stat (s.getEntryPath key) =
              .error Errno.ENOENT := by
            rw [Logger.Log_stat_eq s.auditor env1 fs2 EventAccess key [] _ hpa hdirs2]
            exact hgone
          simp [Store.Get, s.loadEntry_notFound x _ key h3]
        · intro l
          simp [Store.GetHistory, s.loadEntry_notFound x _ key hgone]
    · rw [h2] at hok
      simp at hok

/-- C8. `Store.List` returns exactly the stored keys in ascending order. Let
the YAML library be faithful: an entry file that parses yields the entry that
was serialised (it need not parse). Let the empty store exist: `MkdirAll` of
the store path succeeds on the empty file system. After any sequence of `Put`
calls on the empty store whose keys are made of non-empty `/`-separated
segments none of which begins with `.`, `List` succeeds, its result is strictly ascending in the
byte-wise order (so no key occurs twice), and a key is in the result exactly
when one of its `Put` calls succeeded. -/
theorem Store.List_returns_written_keys {R I : Type} (x : Ext R I)
    (hfaith : ∀ e d e1, x.Marshal e = some d → x.Unmarshal d = some e1 → e1 = e)
    (s : Store I) (hs : s.Built) (hroot : (FS.MkdirAll [] s.path).2 = none)
    (puts : List (Env × Str × Str × Str))
    (hnice : ∀ put ∈ puts, NiceKey put.2.1) :
    ∃ keys, s.ListKeys (s.putKeys x puts s.emptyFS).1 = .ok keys ∧
      keys.Sorted (fun a b => a < b) ∧
      ∀ k, k ∈ keys ↔ k ∈ (s.putKeys x puts s.emptyFS).2 := by
  have hinv := s.ListInv_putKeys x hfaith hs puts s.emptyFS (fun _ => False) hnice
    (s.ListInv_emptyFS x hroot)
  obtain ⟨keys, h1, h2, h3⟩ := s.ListKeys_of_ListInv x _ _ hinv
  exact ⟨keys, h1, h2, fun k => by rw [h3 k]; simp⟩

/-- C10. List-to-Get key/path round trip. In a well-formed directory tree,
every key `k` that `List` reports comes from a regular file named `*.yaml`
below the store root, `getEntryPath(k)` is exactly the path of that file
(stripping the extension and adding it again are inverse), and `Get(k, 0)`
reads that file: it does not fail with not-found. -/
theorem Store.List_Get_round_trip {R I : Type} (x : Ext R I) (s : Store I) (hs : s.Built)
    (fs : FS) (hwf : fs.WF) (keys : List Str) (hl : s.ListKeys fs = .ok keys) (k : Str)
    (hk : k ∈ keys) :
    ∃ p d, (p, Node.file d) ∈ fs ∧ s.path <+: p ∧ yamlNamed p = true ∧ s.keyOf p = k ∧
      s.getEntryPath k = p ∧
      ∀ env : Env,
        (s.auditor.Log env fs EventAccess k []).1.ReadFile (s.getEntryPath k) = .ok d ∧
        ∀ k1, (s.Get x env fs k 0).2 ≠ Outcome.err (StoreError.notFound k1) := by
  have hkeys : keys = sortStrings ((fs.walk s.path).filterMap s.listKey) := by
    simp only [Store.ListKeys] at hl
    cases hst : fs.stat s.path with
    | error e => simp [hst] at hl
    | ok n =>
      simp only [hst, s.foldl_listVisit, List.nil_append, Except.ok.injEq] at hl
      exact hl.symm
  rw [hkeys] at hk
  have hk2 := (List.perm_insertionSort (fun a b : Str => a ≤ b) _).mem_iff.1 hk
  obtain ⟨e, he, hek⟩ := List.mem_filterMap.1 hk2
  obtain ⟨p, n⟩ := e
  have hmem : (p, n) ∈ fs := List.mem_of_mem_filter he
  have hpre : s.path <+: p := by
    have := (List.mem_filter.1 he).2
    simpa using this
  have hcomps : p ≠ s.path := by
    intro h0
    rw [h0, s.listKey_root] at hek
    cases hek
  simp only [Store.listKey] at hek
  split_ifs at hek with hf hy hv
  simp only [Option.some.injEq] at hek
  cases n with
  | dir => simp [Node.isFile] at hf
  | file d =>
    obtain ⟨comps, rfl⟩ := hpre
    have hne : comps ≠ [] := by
      intro h0
      apply hcomps
      simp [h0]
    have hvalid : ∀ c ∈ comps, ValidName c := fun c hc =>
      (hwf.2 _ hmem).2.1 c (List.mem_append_right _ hc)
    have hpath : s.getEntryPath k = s.path ++ comps := by
      rw [← hek]
      exact s.getEntryPath_keyOf comps hne hvalid hy
    refine ⟨s.path ++ comps, d, hmem, List.prefix_append _ _, hy, hek, hpath, ?_⟩
    intro env
    have hread : (s.auditor.Log env fs EventAccess k []).1.ReadFile (s.getEntryPath k) =
        .ok d := by
      rw [Logger.Log_readFile_iff _ _ _ _ _ _ _ (s.getEntryPath_ne_audit hs k),
        FS.ReadFile_ok_iff_stat, hpath]
      exact FS.WF_stat fs hwf _ _ hmem
    refine ⟨hread, ?_⟩
    intro k1
    simp only [Store.Get, Store.loadEntry, hread]
    cases x.Unmarshal d with
    | none => simp
    | some entry =>
      simp only []
      split
      · simp
      · simp only [Store.decryptVersion]
        split <;> simp

/-! ## The claims on concrete inputs -/

theorem toyExt_roundtrip : ∀ e d, toyExt.Marshal e = some d → toyExt.Unmarshal d = some e := by
  intro e d h
  simp only [toyExt, Option.some.injEq] at h
  rw [← h]
  exact toyUnmarshal_toyMarshal e

theorem quirkExt_faithful :
    ∀ e d e1, quirkExt.Marshal e = some d → quirkExt.Unmarshal d = some e1 → e1 = e := by
  intro e d e1 h hu
  have h1 : toyUnmarshal d = some e := toyExt_roundtrip e d h
  simp only [quirkExt, h1] at hu
  split at hu
  · cases hu
  · simp only [Option.some.injEq] at hu
    exact hu.symm

theorem toyExt_decrypt_encrypt : ∀ entropy p c,
    Encrypt toyExt entropy p toyStore.recipients = .ok c →
      Decrypt toyExt c toyStore.identities = .ok p := by
  intro entropy p c h
  have hc : c = 'E' :: p.reverse := by
    have : Encrypt toyExt entropy p toyStore.recipients = .ok ('E' :: p.reverse) := rfl
    rw [this] at h
    simp only [Except.ok.injEq] at h
    exact h.symm
  subst hc
  simp [Decrypt, toyStore, toyExt]

/-- C1 on a concrete store: with two versions, `Get(a/b, 99)` is `Get(a/b, 0)`
and decrypts the second version. -/
theorem Store.Get_clamps_to_latest_witness :
    toyStore.Built ∧ toyStore.loadEntry toyExt toyFS2 toyKey = .ok toyEntry2 ∧
      1 ≤ toyEntry2.Versions.length ∧
      ∃ v, toyEntry2.Versions[toyEntry2.Versions.length - 1]? = some v ∧
        (toyStore.Get toyExt toyEnv toyFS2 toyKey 99).2 = toyStore.decryptVersion toyExt v ∧
        toyStore.Get toyExt toyEnv toyFS2 toyKey 99 = toyStore.Get toyExt toyEnv toyFS2 toyKey 0 :=
  ⟨rfl, rfl, by decide,
    (Store.Get_clamps_to_latest toyExt toyStore rfl toyEnv toyFS2 toyKey toyEntry2 99 rfl
      (by decide)).2.1 (Or.inr (by decide))⟩

/-- C2 on a concrete store: the second `Put` on `a/b` leaves the first version
in place and appends version 2. -/
theorem Store.Put_appends_version_witness :
    toyStore.Built ∧ toyStore.loadEntry toyExt toyFS1 toyKey = .ok toyEntry1 ∧
      toyStore.Put toyExt toyEnv toyFS1 toyKey "p2".toList "m2".toList = (toyFS2, none) ∧
      ∃ encrypted data,
        Encrypt toyExt toyEnv.entropy "p2".toList toyStore.recipients = .ok encrypted ∧
        toyExt.Marshal
          { Key := toyEntry1.Key
            Versions := toyEntry1.Versions ++
              [{ Version := (toyEntry1.Versions.length : Int) + 1
                 Password := encrypted
                 Timestamp := toyEnv.now
                 Author := toyEnv.user
                 Message := "m2".toList }] } = some data ∧
        toyFS2.ReadFile (toyStore.getEntryPath toyEntry1.Key) = .ok data :=
  ⟨rfl, rfl, rfl,
    Store.Put_appends_version toyExt toyStore rfl toyEnv toyFS1 toyFS2 toyKey "p2".toList
      "m2".toList toyEntry1 (Or.inl rfl) rfl⟩

/-- C3 on a concrete store, with the YAML library that does not read back
every message: after two `Put` calls the entry of `a/b` is numbered 1, 2. -/
theorem Store.version_numbering_invariant_witness :
    toyStore.Built ∧
      toyStore.loadEntry quirkExt (toyStore.run quirkExt toyStore.emptyFS toyOps) toyKey =
        .ok toyEntry2 ∧
      toyEntry2.Versions ≠ [] ∧
      (∀ (i : Nat) (v : Version), toyEntry2.Versions[i]? = some v →
        v.Version = (i : Int) + 1) ∧
      ∃ v, toyEntry2.Versions.getLast? = some v ∧
        v.Version = (toyEntry2.Versions.length : Int) :=
  ⟨rfl, rfl,
    (Store.version_numbering_invariant quirkExt quirkExt_faithful toyStore rfl).1 toyOps toyKey
      toyEntry2 rfl⟩

/-- C4 at its failing input. The entry file of `k` exists and does not parse;
`Put(k, p, m)` reports no error and replaces the file by a fresh entry with a
single version. -/
theorem Store.Put_overwrites_unparseable_entry :
    toyStore.loadEntry toyExt corruptFS "k".toList = .error StoreError.parseEntry ∧
      (toyStore.Put toyExt toyEnv corruptFS "k".toList "p".toList "m".toList).2 = none ∧
      toyStore.loadEntry toyExt
          (toyStore.Put toyExt toyEnv corruptFS "k".toList "p".toList "m".toList).1
          "k".toList =
        .ok { Key := "k".toList
              Versions :=
                [{ Version := 1, Password := "Ep".toList, Timestamp := 7,
                   Author := "u".toList, Message := "m".toList }] } :=
  ⟨rfl, rfl, rfl⟩

/-- C5 (amended) on a concrete store, with the YAML library that does not
read back every message: after `Put(a/b, p1)` and `Put(a/b, p2)`, each
leaving an entry file that parses, `Get(a/b, 1)` is `p1`, `Get(a/b, 2)` is
`p2` and `Get(a/b, 0)` is `p2`. -/
theorem Store.Put_Get_round_trip_witness :
    toyStore.Built ∧
      toyStore.loadEntry quirkExt emptyStoreFS toyKey =
        .error (StoreError.notFound toyKey) ∧
      toyStore.putAllRead quirkExt toyKey toyPuts emptyStoreFS = some toyFS2 ∧
      (toyStore.Get quirkExt toyEnv toyFS2 toyKey (((0 : Nat) : Int) + 1)).2 =
        Outcome.ok "p1".toList ∧
      (toyStore.Get quirkExt toyEnv toyFS2 toyKey (((1 : Nat) : Int) + 1)).2 =
        Outcome.ok "p2".toList ∧
      (toyStore.Get quirkExt toyEnv toyFS2 toyKey 0).2 = Outcome.ok "p2".toList :=
  ⟨rfl, rfl, rfl,
    (Store.Put_Get_round_trip quirkExt quirkExt_faithful toyStore rfl quirkExt_decrypt_encrypt
      toyKey emptyStoreFS toyFS2 toyPuts rfl rfl toyEnv).2.1 0
      (toyEnv, "p1".toList, "m1".toList) rfl,
    (Store.Put_Get_round_trip quirkExt quirkExt_faithful toyStore rfl quirkExt_decrypt_encrypt
      toyKey emptyStoreFS toyFS2 toyPuts rfl rfl toyEnv).2.1 1
      (toyEnv, "p2".toList, "m2".toList) rfl,
    (Store.Put_Get_round_trip quirkExt quirkExt_faithful toyStore rfl quirkExt_decrypt_encrypt
      toyKey emptyStoreFS toyFS2 toyPuts rfl rfl toyEnv).2.2
      (toyEnv, "p2".toList, "m2".toList) rfl⟩

/-- C6 on a concrete store: the history of `a/b` with limit 1 is the scrubbed
second version alone. -/
theorem Store.GetHistory_eq_spec_witness :
    toyStore.loadEntry toyExt toyFS2 toyKey = .ok toyEntry2 ∧
      toyStore.GetHistory toyExt toyFS2 toyKey 1 =
        .ok [{ Version := 2, Password := [], Timestamp := 7, Author := "u".toList,
               Message := "m2".toList }] :=
  ⟨rfl, (Store.GetHistory_eq_spec toyExt toyStore toyFS2 toyKey 1 toyEntry2 rfl).1⟩

set_option maxRecDepth 8000 in
theorem longKey_read :
    toyFS1.ReadFile (toyStore.getEntryPath longKey) = .error Errno.ENAMETOOLONG := rfl

set_option maxRecDepth 8000 in
theorem longKey_delete :
    (toyStore.Delete toyEnv toyFS1 longKey).2 = some (StoreError.delete Errno.ENAMETOOLONG) :=
  rfl

theorem toyFS2_Storable : toyFS2.Storable := by
  unfold FS.Storable
  decide

/-- C7 as stated fails on the code, three times. In the store that holds the
entry `a/b`: no entry file exists for the key `a/b.yaml/c`, yet `Delete` fails
with "failed to delete password" (`ENOTDIR`), not with not-found; no entry
file exists for a key of 300 bytes, yet `Delete` fails with "failed to delete
password" (`ENAMETOOLONG`), not with not-found; and a successful
`Delete(./a/b)` removes the entry of the other key `a/b`. -/
theorem Store.Delete_claim_counterexample :
    (∀ d, toyFS1.ReadFile (toyStore.getEntryPath "a/b.yaml/c".toList) ≠ .ok d) ∧
      (toyStore.Delete toyEnv toyFS1 "a/b.yaml/c".toList).2 =
        some (StoreError.delete Errno.ENOTDIR) ∧
      (∀ d, toyFS1.ReadFile (toyStore.getEntryPath longKey) ≠ .ok d) ∧
      (toyStore.Delete toyEnv toyFS1 longKey).2 =
        some (StoreError.delete Errno.ENAMETOOLONG) ∧
      "./a/b".toList ≠ toyKey ∧
      (toyStore.Delete toyEnv toyFS1 "./a/b".toList).2 = none ∧
      toyStore.loadEntry toyExt toyFS1 toyKey = .ok toyEntry1 ∧
      toyStore.loadEntry toyExt (toyStore.Delete toyEnv toyFS1 "./a/b".toList).1 toyKey =
        .error (StoreError.notFound toyKey) := by
  refine ⟨?_, rfl, ?_, longKey_delete, by decide, rfl, rfl, rfl⟩
  · intro d h
    have : toyFS1.ReadFile (toyStore.getEntryPath "a/b.yaml/c".toList) =
        .error Errno.ENOTDIR := rfl
    rw [this] at h
    cases h
  · intro d h
    rw [longKey_read] at h
    cases h

/-- C7 (amended) on a concrete store: `Delete(a/b)` succeeds, and afterwards
`Get(a/b, v)` fails with not-found for every `v`; and on the empty store
`Delete(email/work)`, whose directory `email` is missing, fails with
not-found. -/
theorem Store.Delete_removes_entry_witness :
    toyStore.Built ∧ (toyStore.Delete toyEnv toyFS2 toyKey).2 = none ∧ toyFS2.Storable ∧
      (∀ (env1 : Env) (v : Int),
        (toyStore.Get toyExt env1 (toyStore.Delete toyEnv toyFS2 toyKey).1 toyKey v).2 =
          Outcome.err (StoreError.notFound toyKey)) ∧
      (toyStore.auditor.Log toyEnv emptyStoreFS EventDelete "email/work".toList []).1.Remove
          (toyStore.getEntryPath "email/work".toList) = .error Errno.ENOENT ∧
      (toyStore.Delete toyEnv emptyStoreFS "email/work".toList).2 =
        some (StoreError.notFound "email/work".toList) :=
  ⟨rfl, rfl, toyFS2_Storable,
    (((Store.Delete_removes_entry toyExt toyStore rfl toyEnv toyFS2 toyKey).2.2.2.2.2 rfl).2
      toyFS2_Storable).1,
    rfl,
    (Store.Delete_removes_entry toyExt toyStore rfl toyEnv emptyStoreFS
      "email/work".toList).2.1.2 rfl⟩

theorem toyKeyPuts_nice : ∀ put ∈ toyKeyPuts, NiceKey put.2.1 := by
  intro put hp
  simp only [toyKeyPuts, List.mem_cons, List.mem_singleton, List.not_mem_nil, or_false] at hp
  rcases hp with rfl | rfl | rfl <;> unfold NiceKey <;> decide

theorem quirkKeyPuts_nice : ∀ put ∈ quirkKeyPuts, NiceKey put.2.1 := by
  intro put hp
  simp only [quirkKeyPuts, List.mem_cons, List.mem_singleton, List.not_mem_nil, or_false] at hp
  rcases hp with rfl | rfl | rfl <;> unfold NiceKey <;> decide

/-- C8 on a concrete store, with the YAML library that does not read back
every message: writing `z`, `a/c`, `a/b` in that order into the empty store,
`a/c` with a message that makes its entry file unreadable, makes `List` return
`a/b`, `a/c`, `z`. -/
theorem Store.List_returns_written_keys_witness :
    toyStore.Built ∧ (FS.MkdirAll [] toyStore.path).2 = none ∧
      toyStore.loadEntry quirkExt
          (toyStore.putKeys quirkExt quirkKeyPuts toyStore.emptyFS).1 "a/c".toList =
        .error StoreError.parseEntry ∧
      toyStore.ListKeys (toyStore.putKeys quirkExt quirkKeyPuts toyStore.emptyFS).1 =
        .ok ["a/b".toList, "a/c".toList, "z".toList] ∧
      ∃ keys, toyStore.ListKeys (toyStore.putKeys quirkExt quirkKeyPuts toyStore.emptyFS).1 =
          .ok keys ∧
        keys.Sorted (fun a b => a < b) ∧
        ∀ k, k ∈ keys ↔ k ∈ (toyStore.putKeys quirkExt quirkKeyPuts toyStore.emptyFS).2 :=
  ⟨rfl, rfl, rfl, rfl,
    Store.List_returns_written_keys quirkExt quirkExt_faithful toyStore rfl rfl quirkKeyPuts
      quirkKeyPuts_nice⟩

/-- C9 at its failing input. In a well-formed tree the file `.git/x.yaml`
lies in a hidden directory directly under the store root, and `List` reports
the key `.git/x`, whose first component begins with `.`. -/
theorem Store.List_reports_hidden_directory :
    hiddenFS.WF ∧ toyStore.ListKeys hiddenFS = .ok [".git/x".toList] ∧
      splitSlash ".git/x".toList = [".git".toList, "x".toList] ∧
      HasPrefix ".git".toList ['.'] = true := by
  refine ⟨?_, rfl, rfl, rfl⟩
  unfold FS.WF ValidName
  decide

theorem toyFS2_WF : toyFS2.WF := by
  unfold FS.WF ValidName
  decide

/-- C10 on a concrete store: `List` reports `a/b`, whose entry path is the
file `/s/a/b.yaml`, and `Get(a/b, 0)` does not fail with not-found. -/
theorem Store.List_Get_round_trip_witness :
    toyStore.Built ∧ toyFS2.WF ∧ toyStore.ListKeys toyFS2 = .ok [toyKey] ∧
      ∃ p d, (p, Node.file d) ∈ toyFS2 ∧ toyStore.path <+: p ∧ yamlNamed p = true ∧
        toyStore.keyOf p = toyKey ∧ toyStore.getEntryPath toyKey = p ∧
        ∀ env : Env,
          (toyStore.auditor.Log env toyFS2 EventAccess toyKey []).1.ReadFile
              (toyStore.getEntryPath toyKey) = .ok d ∧
          ∀ k1, (toyStore.Get toyExt env toyFS2 toyKey 0).2 ≠
            Outcome.err (StoreError.notFound k1) :=
  ⟨rfl, toyFS2_WF, rfl,
    Store.List_Get_round_trip toyExt toyStore rfl toyFS2 toyFS2_WF [toyKey] rfl toyKey
      (List.mem_singleton.2 rfl)⟩

/-! ## Lemmas on `age.go` -/

theorem parseRecipients_error {R I : Type} (x : Ext R I) (recipients : List Str) (bad : Str)
    (h : recipients.find? (fun r => (x.ParseX25519Recipient r).isNone) = some bad) :
    parseRecipients x recipients = .error (AgeError.invalidRecipient bad) := by
  induction recipients with
  | nil => simp at h
  | cons r rest ih =>
    cases hp : x.ParseX25519Recipient r with
    | none =>
      simp only [List.find?_cons, hp, Option.isNone_none, Option.some.injEq] at h
      subst h
      simp [parseRecipients, hp]
    | some a =>
      simp only [List.find?_cons, hp, Option.isNone_some] at h
      simp [parseRecipients, hp, ih h]

theorem parseRecipients_ok {R I : Type} (x : Ext R I) (recipients : List Str) :
    ∀ rs, parseRecipients x recipients = .ok rs →
      recipients.map x.ParseX25519Recipient = rs.map some := by
  induction recipients with
  | nil =>
    intro rs h
    simp only [parseRecipients, Except.ok.injEq] at h
    simp [← h]
  | cons r rest ih =>
    intro rs h
    simp only [parseRecipients] at h
    cases hp : x.ParseX25519Recipient r with
    | none => simp [hp] at h
    | some a =>
      simp only [hp] at h
      cases hr : parseRecipients x rest with
      | error e => simp [hr] at h
      | ok rs1 =>
        simp only [hr, Except.ok.injEq] at h
        simp [← h, hp, ih rs1 hr]

theorem parseRecipients_of_valid {R I : Type} (x : Ext R I) (recipients : List Str)
    (h : ∀ r ∈ recipients, ∃ a, x.ParseX25519Recipient r = some a) :
    ∃ rs, parseRecipients x recipients = .ok rs := by
  induction recipients with
  | nil => exact ⟨[], rfl⟩
  | cons r rest ih =>
    obtain ⟨a, ha⟩ := h r (List.mem_cons_self _ _)
    obtain ⟨rs, hrs⟩ := ih (fun q hq => h q (List.mem_cons_of_mem _ hq))
    exact ⟨a :: rs, by simp [parseRecipients, ha, hrs]⟩

/-! ## The claims on `age.go` -/

/-- C11. Empty key material. For every plaintext, `Encrypt` with an empty
recipient list fails with the no-recipients error and returns no ciphertext;
for every ciphertext string, `Decrypt` with an empty identity list fails with
the no-identities error. Both hold for every behaviour of the library: the
checks come before any parsing or cryptographic work. -/
theorem Encrypt_Decrypt_empty_key_material {R I : Type} (x : Ext R I) (entropy : Nat)
    (data encrypted : Str) :
    Encrypt x entropy data [] = .error AgeError.noRecipients ∧
      Decrypt x encrypted ([] : List I) = .error AgeError.noIdentities := by
  simp [Encrypt, Decrypt]

/-- C12. `Encrypt` rejects any invalid recipient. For a non-empty recipient
list in which some string, at any position, does not parse as a public key,
`Encrypt` fails with the invalid-recipient error that names the first such
string, and produces no ciphertext; and `Encrypt` succeeds only if every
recipient parses. -/
theorem Encrypt_rejects_invalid_recipient {R I : Type} (x : Ext R I) (entropy : Nat)
    (data : Str) (recipients : List Str) :
    (recipients ≠ [] → (∃ r ∈ recipients, x.ParseX25519Recipient r = none) →
      ∃ bad, recipients.find? (fun r => (x.ParseX25519Recipient r).isNone) = some bad ∧
        Encrypt x entropy data recipients = .error (AgeError.invalidRecipient bad)) ∧
    (∀ c, Encrypt x entropy data recipients = .ok c →
      ∀ r ∈ recipients, ∃ a, x.ParseX25519Recipient r = some a) := by
  constructor
  · intro hne ⟨r, hr, hp⟩
    cases hf : recipients.find? (fun r => (x.ParseX25519Recipient r).isNone) with
    | none =>
      have := List.find?_eq_none.1 hf r hr
      simp [hp] at this
    | some bad =>
      refine ⟨bad, rfl, ?_⟩
      have hlen : recipients.length ≠ 0 := fun h => hne (List.length_eq_zero.1 h)
      simp [Encrypt, hlen, parseRecipients_error x recipients bad hf]
  · intro c hc r hr
    simp only [Encrypt] at hc
    split at hc
    · cases hc
    · cases hp : parseRecipients x recipients with
      | error e => simp [hp] at hc
      | ok rs =>
        have hmap := parseRecipients_ok x recipients rs hp
        have : x.ParseX25519Recipient r ∈ recipients.map x.ParseX25519Recipient :=
          List.mem_map_of_mem _ hr
        rw [hmap] at this
        obtain ⟨a, _, ha⟩ := List.mem_map.1 this
        exact ⟨a, ha.symm⟩

/-- C13. Encryption round trip. Take any plaintext, the empty one included,
a non-empty list of recipients that all parse, and identities one of which is
the private key (`keyOf`) of one of the recipients. `Encrypt` hands the
plaintext and the parsed recipients, in their order, to the library and
returns its armored output unchanged; the parsed list is not empty and holds
the recipient whose private key is among the identities; `Decrypt` hands the
ciphertext and the identities to the library and returns its output
unchanged. Hence, when the library encrypts for every non-empty recipient
list and decrypts what it encrypted whenever one of the identities is the
private key of one of the recipients, `Encrypt` succeeds and `Decrypt` of its
result returns exactly the plaintext. -/
theorem Encrypt_Decrypt_round_trip {R I : Type} (x : Ext R I) (keyOf : I → R → Prop)
    (entropy : Nat) (plaintext : Str) (recipients : List Str) (identities : List I)
    (hne : recipients ≠ [])
    (hvalid : ∀ r ∈ recipients, ∃ a, x.ParseX25519Recipient r = some a)
    (hkey : ∃ i ∈ identities, ∃ r ∈ recipients, ∃ a,
      x.ParseX25519Recipient r = some a ∧ keyOf i a) :
    ∃ rs, recipients.map x.ParseX25519Recipient = rs.map some ∧ rs ≠ [] ∧
      (∃ i ∈ identities, ∃ a ∈ rs, keyOf i a) ∧
      (∀ c1, Encrypt x entropy plaintext recipients = .ok c1 ↔
        x.EncryptArmor entropy rs plaintext = .ok c1) ∧
      (∀ c1 q, Decrypt x c1 identities = .ok q ↔ x.DecryptArmor identities c1 = .ok q) ∧
      ((∀ entropy rs data, rs ≠ [] → ∃ c, x.EncryptArmor entropy rs data = .ok c) →
        (∀ entropy rs ids data c, x.EncryptArmor entropy rs data = .ok c →
          (∃ i ∈ ids, ∃ r ∈ rs, keyOf i r) → x.DecryptArmor ids c = .ok data) →
        ∃ c, Encrypt x entropy plaintext recipients = .ok c ∧
          Decrypt x c identities = .ok plaintext) := by
  obtain ⟨rs, hrs⟩ := parseRecipients_of_valid x recipients hvalid
  have hmap := parseRecipients_ok x recipients rs hrs
  have hrsne : rs ≠ [] := by
    intro h0
    rw [h0] at hmap
    simp at hmap
    exact hne hmap
  obtain ⟨i, hi, r, hr, a, ha, hk⟩ := hkey
  have hmem : a ∈ rs := by
    have : x.ParseX25519Recipient r ∈ recipients.map x.ParseX25519Recipient :=
      List.mem_map_of_mem _ hr
    rw [hmap, ha] at this
    obtain ⟨b, hb, hab⟩ := List.mem_map.1 this
    simp only [Option.some.injEq] at hab
    rw [← hab]
    exact hb
  have hlen : recipients.length ≠ 0 := fun h => hne (List.length_eq_zero.1 h)
  have hilen : identities.length ≠ 0 := fun h => by
    rw [List.length_eq_zero.1 h] at hi
    simp at hi
  refine ⟨rs, hmap, hrsne, ⟨i, hi, a, hmem, hk⟩, ?_, ?_, ?_⟩
  · intro c1
    simp only [Encrypt, hlen, if_false, hrs]
    cases x.EncryptArmor entropy rs plaintext <;> simp
  · intro c1 q
    simp only [Decrypt, hilen, if_false]
    cases x.DecryptArmor identities c1 <;> simp
  · intro hsucc hlib
    obtain ⟨c, hc⟩ := hsucc entropy rs plaintext hrsne
    refine ⟨c, by simp [Encrypt, hlen, hrs, hc], ?_⟩
    simp [Decrypt, hilen, hlib entropy rs identities plaintext c hc ⟨i, hi, a, hmem, hk⟩]

/-! ## Lemmas on `audit.go` -/

theorem FS.OpenAppend_cases (fs fs1 : FS) (a : Path) (h : fs.OpenAppend a = .ok fs1) :
    fs.stat a.dropLast = .ok Node.dir ∧
      ((∃ d, fs.stat a = .ok (Node.file d)) ∨ fs.stat a = .error Errno.ENOENT) := by
  unfold FS.OpenAppend at h
  rcases FS.open_cases fs a with ⟨d, hs, hg, ha, hpar⟩ | hs | ⟨hs, hpar, hg, ha⟩ | ⟨e, hs, hne⟩
  · exact ⟨hpar, Or.inl ⟨d, hs⟩⟩
  · simp [hs] at h
  · exact ⟨hpar, Or.inr hs⟩
  · simp only [hs] at h
    split at h
    · rename_i h1 h2
      exact absurd ⟨rfl, h2⟩ hne
    · cases h

theorem FS.OpenAppend_parent (fs fs1 : FS) (a : Path) (h : fs.OpenAppend a = .ok fs1) :
    fs.stat a.dropLast = .ok Node.dir := (FS.OpenAppend_cases fs fs1 a h).1

theorem Logger.Log_readFile (l : Logger) (env : Env) (fs fs1 : FS) (event key details : Str)
    (hen : l.enabled = true) (hopen : fs.OpenAppend l.path = .ok fs1)
    (hw : env.auditWriteErr = none) :
    (l.Log env fs event key details).2 = none ∧
    ∃ old, (fs.ReadFile l.path = .ok old ∨
        (fs.ReadFile l.path = .error Errno.ENOENT ∧ old = [])) ∧
      (l.Log env fs event key details).1.ReadFile l.path =
        .ok (old ++ Logger.line env event key details) := by
  obtain ⟨ha, _, hcase⟩ := FS.OpenAppend_effect fs fs1 l.path hopen
  have hpar := FS.OpenAppend_parent fs fs1 l.path hopen
  have hdirs := FS.dirs_above_of_parent fs l.path ha hpar
  rcases hcase with ⟨d, hd, rfl⟩ | ⟨hnone, rfl⟩
  · have hlog : l.Log env fs1 event key details =
        (fs1.set l.path (Node.file (d ++ Logger.line env event key details)), none) := by
      simp [Logger.Log, hen, hopen, hw, FS.appendTo, FS.node, ha, hd]
    rw [hlog]
    refine ⟨rfl, d, Or.inl ?_, ?_⟩
    · rw [FS.ReadFile_ok_iff_stat, FS.stat_ok_iff]
      exact ⟨hdirs, by simp [FS.node, ha, hd]⟩
    · rw [FS.ReadFile_ok_iff_stat]
      exact FS.stat_set_file fs1 l.path _ ha hpar
  · have hlog : l.Log env fs event key details =
        ((fs.set l.path (Node.file [])).set l.path
          (Node.file ([] ++ Logger.line env event key details)), none) := by
      simp [Logger.Log, hen, hopen, hw, FS.appendTo, FS.node, ha, FS.get_set_self]
    rw [hlog]
    refine ⟨rfl, [], Or.inr ⟨?_, rfl⟩, ?_⟩
    · rcases (FS.OpenAppend_cases fs _ l.path hopen).2 with ⟨d, hd⟩ | hno
      · have := ((FS.stat_ok_iff fs l.path _).1 hd).2
        simp [FS.node, ha, hnone] at this
      · simp [FS.ReadFile, hno]
    · rw [FS.ReadFile_ok_iff_stat]
      apply FS.stat_set_file _ l.path _ ha
      have hne : l.path.dropLast ≠ l.path := by
        intro h0
        have := congrArg List.length h0
        have hlen := List.length_pos.2 ha
        simp at this
        omega
      rw [← hpar]
      apply FS.stat_congr
      intro k _
      apply FS.node_set_ne
      intro h0
      have := congrArg List.length h0
      have hlen := List.length_pos.2 ha
      simp [List.length_take] at this
      omega

theorem count_newline_append (a b : Str) :
    (a ++ b).count '\n' = a.count '\n' + b.count '\n' := List.count_append _ _ _

theorem count_newline_zero (a : Str) (h : '\n' ∉ a) : a.count '\n' = 0 :=
  List.count_eq_zero_of_not_mem h

/-! ## The claims on `audit.go` -/

/-- C14 at its failing input. The log file of an enabled logger opens, the
write on it fails because the disk is full, and `Log` returns that error;
when the log file cannot be opened, it returns nil. -/
theorem Logger.Log_returns_write_error :
    (toyStore.auditor.Log fullDiskEnv emptyStoreFS EventAccess toyKey []).2 =
        some Errno.ENOSPC ∧
      (toyStore.auditor.Log fullDiskEnv auditDirFS EventAccess toyKey []).2 = none :=
  ⟨rfl, rfl⟩

/-- C16. Audit line format. When the logger is enabled, its file opens and
the write succeeds, `Log` returns nil and the file then holds its previous
content (nothing, when it did not exist) followed by
`<timestamp> | <actor> | <event> | <key>`, then ` | <details>` exactly when
`details` is not empty, then a line feed; the actor is the value of `USER`,
or `unknown` when that value is empty. -/
theorem Logger.Log_appends_formatted_line (l : Logger) (env : Env) (fs fs1 : FS)
    (event key details : Str) (hen : l.enabled = true)
    (hopen : fs.OpenAppend l.path = .ok fs1) (hw : env.auditWriteErr = none) :
    (l.Log env fs event key details).2 = none ∧
    ∃ old, (fs.ReadFile l.path = .ok old ∨
        (fs.ReadFile l.path = .error Errno.ENOENT ∧ old = [])) ∧
      (l.Log env fs event key details).1.ReadFile l.path =
        .ok (old ++ (env.stamp ++ " | ".toList ++
          (if env.user = [] then "unknown".toList else env.user) ++ " | ".toList ++
          event ++ " | ".toList ++ key ++
          (if details = [] then [] else " | ".toList ++ details) ++ ['\n'])) := by
  obtain ⟨h1, old, h2, h3⟩ := Logger.Log_readFile l env fs fs1 event key details hen hopen hw
  refine ⟨h1, old, h2, ?_⟩
  rw [h3]
  by_cases hd : details = [] <;> simp [Logger.line, hd]

/-- C17 as stated fails on the code. `Put(k, p, "a\nb")` on the empty store
appends to the audit log a text with two line feeds, that is, two lines. -/
theorem Logger.Log_one_line_counterexample :
    (toyStore.Put toyExt toyEnv emptyStoreFS "k".toList "p".toList "a\nb".toList).1.ReadFile
        toyStore.auditor.path = .ok "T | u | MODIFY | k | a\nb\n".toList ∧
      emptyStoreFS.ReadFile toyStore.auditor.path = .error Errno.ENOENT ∧
      ("T | u | MODIFY | k | a\nb\n".toList).count '\n' = 2 :=
  ⟨rfl, rfl, by decide⟩

/-- C17 (amended). One line per audit event. When the timestamp, the value of
`USER`, the event kind, the key and the details contain no line feed, a
successful enabled `Log` call leaves the previous content of the log file in
place and appends a text that contains exactly one line feed, its last
character. -/
theorem Logger.Log_adds_one_line (l : Logger) (env : Env) (fs fs1 : FS)
    (event key details : Str) (hen : l.enabled = true)
    (hopen : fs.OpenAppend l.path = .ok fs1) (hw : env.auditWriteErr = none)
    (hstamp : '\n' ∉ env.stamp) (huser : '\n' ∉ env.user) (hevent : '\n' ∉ event)
    (hkey : '\n' ∉ key) (hdetails : '\n' ∉ details) :
    ∃ old text, (fs.ReadFile l.path = .ok old ∨
        (fs.ReadFile l.path = .error Errno.ENOENT ∧ old = [])) ∧
      (l.Log env fs event key details).1.ReadFile l.path = .ok (old ++ text) ∧
      text.count '\n' = 1 ∧ text.getLast? = some '\n' := by
  obtain ⟨_, old, h2, h3⟩ := Logger.Log_readFile l env fs fs1 event key details hen hopen hw
  refine ⟨old, Logger.line env event key details, h2, h3, ?_, ?_⟩
  · have hsep : (" | ".toList).count '\n' = 0 := by decide
    have hunk : ("unknown".toList).count '\n' = 0 := by decide
    have h1 := count_newline_zero _ hstamp
    have h2 := count_newline_zero _ huser
    have h3 := count_newline_zero _ hevent
    have h4 := count_newline_zero _ hkey
    have h5 := count_newline_zero _ hdetails
    by_cases hu : env.user = [] <;> by_cases hd : details = [] <;>
      simp [Logger.line, hu, hd, List.count_append, h1, h2, h3, h4, h5, hsep, hunk]
  · simp [Logger.line]

/-! ## Lemmas on the audit log of the store -/

theorem FS.MkdirAll_get_file_iff (fs : FS) (p q : Path) (d : Str) :
    (fs.MkdirAll p).1.get q = some (Node.file d) ↔ fs.get q = some (Node.file d) := by
  rcases FS.mkdirFrom_get p fs [] q with h1 | ⟨h1, h2⟩
  · rw [FS.MkdirAll, h1]
  · rw [FS.MkdirAll, h1, h2]
    simp

theorem Store.saveEntry_get_other {R I : Type} (x : Ext R I) (s : Store I) (fs : FS)
    (entry : Entry) (q : Path) (hq : q ≠ s.getEntryPath entry.Key) (d : Str) :
    (s.saveEntry x fs entry).1.get q = some (Node.file d) ↔ fs.get q = some (Node.file d) := by
  have hmk := FS.MkdirAll_get_file_iff fs (s.getEntryPath entry.Key).dropLast q d
  simp only [Store.saveEntry]
  rcases hm : fs.MkdirAll (s.getEntryPath entry.Key).dropLast with ⟨fs1, _ | e⟩
  · rw [hm] at hmk
    simp only []
    cases hd : x.Marshal entry with
    | none => exact hmk
    | some data =>
      simp only []
      cases hw : fs1.WriteFile (s.getEntryPath entry.Key) data with
      | error e => exact hmk
      | ok fs2 =>
        obtain ⟨_, _, _, rfl⟩ := FS.WriteFile_effect _ _ _ _ hw
        simp only []
        rw [FS.get_set_ne fs1 _ hq]
        exact hmk
  · rw [hm] at hmk
    exact hmk

theorem Store.Put_get_audit {R I : Type} (x : Ext R I) (s : Store I) (hs : s.Built) (env : Env)
    (fs : FS) (key password message : Str) (d : Str) :
    (s.Put x env fs key password message).1.get s.auditor.path = some (Node.file d) ↔
      (s.auditor.Log env fs EventModify key message).1.get s.auditor.path =
        some (Node.file d) := by
  simp only [Store.Put]
  cases he : Encrypt x env.entropy password s.recipients with
  | error e => rfl
  | ok encrypted =>
    simp only []
    apply s.saveEntry_get_other x
    exact fun h => s.yamlNamed_ne_audit hs _ (s.yamlNamed_getEntryPath _) h.symm

theorem Store.Delete_get_audit {I : Type} (s : Store I) (hs : s.Built) (env : Env)
    (fs : FS) (key : Str) :
    (s.Delete env fs key).1.get s.auditor.path =
      (s.auditor.Log env fs EventDelete key []).1.get s.auditor.path := by
  rcases s.Delete_cases env fs key with ⟨fs2, h1, h2⟩ | ⟨e, _, h2⟩
  · rw [h2]
    obtain ⟨rfl, _, _⟩ := FS.Remove_ok _ _ _ h1
    exact FS.get_erase_ne _ (fun h => s.getEntryPath_ne_audit hs key h.symm)
  · rw [h2]

theorem Store.Get_fs {R I : Type} (x : Ext R I) (s : Store I) (env : Env) (fs : FS)
    (key : Str) (version : Int) :
    (s.Get x env fs key version).1 = (s.auditor.Log env fs EventAccess key []).1 := by
  simp only [Store.Get]
  cases s.loadEntry x (s.auditor.Log env fs EventAccess key []).1 key with
  | error e => rfl
  | ok entry =>
    simp only []
    split <;> rfl

/-- C18. Audit events per operation and secrecy of the log. The file system
after `Get` is the one after a single `Log(ACCESS, key, "")`; the audit log
after `Put` holds what it holds after a single `Log(MODIFY, key, message)`,
and after `Delete` what it holds after a single `Log(DELETE, key, "")`; `List`
returns no file system and does not depend on the logger. Hence two `Put`
calls that differ only in the plaintext leave the same audit log: no
plaintext reaches it. -/
theorem Store.audit_events_per_operation {R I : Type} (x : Ext R I) (s : Store I)
    (hs : s.Built) (env : Env) (fs : FS) (key password message : Str) (version : Int) :
    (s.Get x env fs key version).1 = (s.auditor.Log env fs EventAccess key []).1 ∧
    (∀ d, (s.Put x env fs key password message).1.get s.auditor.path = some (Node.file d) ↔
      (s.auditor.Log env fs EventModify key message).1.get s.auditor.path =
        some (Node.file d)) ∧
    (s.Delete env fs key).1.get s.auditor.path =
      (s.auditor.Log env fs EventDelete key []).1.get s.auditor.path ∧
    (∀ l : Logger, ({ s with auditor := l } : Store I).ListKeys fs = s.ListKeys fs) ∧
    (∀ (other : Str) (d : Str),
      (s.Put x env fs key password message).1.get s.auditor.path = some (Node.file d) ↔
        (s.Put x env fs key other message).1.get s.auditor.path = some (Node.file d)) := by
  refine ⟨s.Get_fs x env fs key version, s.Put_get_audit x hs env fs key password message,
    s.Delete_get_audit hs env fs key, fun l => rfl, ?_⟩
  intro other d
  rw [s.Put_get_audit x hs env fs key password message,
    s.Put_get_audit x hs env fs key other message]

/-! ## Lemmas on the key and recipient files -/

theorem identityLoop_spec {R I : Type} (x : Ext R I) (lines : List Str) :
    ∀ acc : List I, (identityLoop x lines acc).map some =
      acc.map some ++ ((lines.map TrimSpace).filter
        (fun l => decide (l ≠ []) && !HasPrefix l ['#'] &&
          (x.ParseX25519Identity l).isSome)).map x.ParseX25519Identity := by
  induction lines with
  | nil => intro acc; simp [identityLoop]
  | cons line rest ih =>
    intro acc
    simp only [identityLoop, List.map_cons, List.filter_cons]
    by_cases h1 : TrimSpace line = []
    · simp [h1, ih]
    · by_cases h2 : HasPrefix (TrimSpace line) ['#'] = true
      · simp [h1, h2, ih]
      · cases hp : x.ParseX25519Identity (TrimSpace line) with
        | none => simp [h1, h2, ParseIdentity, hp, ih]
        | some i => simp [h1, h2, ParseIdentity, hp, ih]

theorem recipientLoop_spec {R I : Type} (x : Ext R I) (lines : List Str) :
    ∀ acc : List Str, recipientLoop x lines acc =
      acc ++ (lines.map TrimSpace).filter
        (fun l => decide (l ≠ []) && !HasPrefix l ['#'] &&
          (x.ParseX25519Recipient l).isSome) := by
  induction lines with
  | nil => intro acc; simp [recipientLoop]
  | cons line rest ih =>
    intro acc
    simp only [recipientLoop, List.map_cons, List.filter_cons]
    by_cases h1 : TrimSpace line = []
    · simp [h1, ih]
    · by_cases h2 : HasPrefix (TrimSpace line) ['#'] = true
      · simp [h1, h2, ih]
      · cases hp : x.ParseX25519Recipient (TrimSpace line) with
        | none => simp [h1, h2, ParseRecipient, hp, ih]
        | some i => simp [h1, h2, ParseRecipient, hp, ih]

theorem Join_name (dir : Path) (name : Str) (h0 : name ≠ []) (h1 : name ≠ ['.'])
    (h2 : name ≠ ['.', '.']) (hs : '/' ∉ name) : Join dir name = dir ++ [name] := by
  simp [Join, splitSlash_noslash name hs, cleanStep, h0, h1, h2]

theorem Store.New_ok {R I : Type} (x : Ext R I) (fs : FS) (path : Path)
    (ageKeyPath : Option Path) (pfAudit : Str) (recipients : List Str)
    (h : loadRecipients x fs (path ++ [recipientsName]) = .ok recipients) :
    ∃ s : Store I, Store.New x fs path ageKeyPath pfAudit = .ok s ∧ s.path = path ∧
      s.recipients = recipients ∧ s.Built ∧
      (ageKeyPath = none → s.identities = []) := by
  have hj : Join path recipientsName = path ++ [recipientsName] :=
    Join_name path recipientsName (by decide) (by decide) (by decide) (by decide)
  have ha : Join path auditName = path ++ [auditName] :=
    Join_name path auditName (by decide) (by decide) (by decide) (by decide)
  simp only [Store.New, hj, h, ha]
  refine ⟨_, rfl, rfl, rfl, rfl, ?_⟩
  intro hk
  subst hk
  rfl

/-! ## The claims on the key and recipient files -/

/-- C19. `LoadIdentityFile` parses leniently. For a readable file, let the
kept lines be its lines trimmed of white space that are not empty, do not
begin with `#` and parse as an identity, in file order. When there is none
the call fails with the no-valid-identities error, and only then; otherwise
it returns the identities the kept lines parse to, in that order, whatever
malformed lines stand between them. -/
theorem LoadIdentityFile_lenient {R I : Type} (x : Ext R I) (fs : FS) (path : Path)
    (data : Str) (hread : fs.ReadFile path = .ok data) :
    (LoadIdentityFile x fs path = .error IdentityFileError.noValidIdentities ↔
      identityLinesSpec x data = []) ∧
    (identityLinesSpec x data ≠ [] →
      ∃ ids, LoadIdentityFile x fs path = .ok ids ∧
        ids.map some = (identityLinesSpec x data).map x.ParseX25519Identity ∧
        ids.length = (identityLinesSpec x data).length) := by
  have hspec := identityLoop_spec x (splitLines data) []
  simp only [List.map_nil, List.nil_append] at hspec
  have hlen : (identityLoop x (splitLines data) []).length = (identityLinesSpec x data).length := by
    have := congrArg List.length hspec
    simpa [identityLinesSpec] using this
  constructor
  · simp only [LoadIdentityFile, hread]
    by_cases h0 : (identityLoop x (splitLines data) []).length = 0
    · simp only [h0, if_true, true_iff]
      rw [h0] at hlen
      exact List.length_eq_zero.1 hlen.symm
    · simp only [h0, if_false]
      constructor
      · intro h; cases h
      · intro h
        rw [h] at hlen
        exact absurd hlen h0
  · intro hne
    have h0 : (identityLoop x (splitLines data) []).length ≠ 0 := by
      rw [hlen]
      exact fun h => hne (List.length_eq_zero.1 h)
    exact ⟨identityLoop x (splitLines data) [], by simp [LoadIdentityFile, hread, h0],
      hspec, hlen⟩

/-- C20. Recipient-file loading. For every content of the recipient file,
`loadRecipients` returns without error its lines trimmed of white space that
are not empty, not `#`-prefixed and parse as a recipient, in file order; a
missing file yields the empty list without error, and `New` then succeeds
with an empty recipient set. -/
theorem loadRecipients_lenient {R I : Type} (x : Ext R I) (fs : FS) (path : Path) :
    (∀ data, fs.ReadFile path = .ok data →
      loadRecipients x fs path = .ok (recipientLinesSpec x data)) ∧
    (fs.ReadFile path = .error Errno.ENOENT → loadRecipients x fs path = .ok []) ∧
    (∀ (root : Path) (ageKeyPath : Option Path) (pfAudit : Str),
      fs.ReadFile (root ++ [recipientsName]) = .error Errno.ENOENT →
        ∃ s : Store I, Store.New x fs root ageKeyPath pfAudit = .ok s ∧ s.path = root ∧
          s.recipients = []) := by
  refine ⟨?_, ?_, ?_⟩
  · intro data h
    simp [loadRecipients, h, recipientLoop_spec, recipientLinesSpec]
  · intro h
    simp [loadRecipients, h, Errno.IsNotExist]
  · intro root ageKeyPath pfAudit h
    have hl : loadRecipients x fs (root ++ [recipientsName]) = .ok [] := by
      simp [loadRecipients, h, Errno.IsNotExist]
    obtain ⟨s, h1, h2, h3, _⟩ := Store.New_ok x fs root ageKeyPath pfAudit [] hl
    exact ⟨s, h1, h2, h3⟩

/-! ## Lemmas on file systems that agree off the audit log -/

theorem FS.AgreeOff.symm {a : Path} {f g : FS} (h : FS.AgreeOff a f g) : FS.AgreeOff a g f :=
  fun q hq => (h q hq).symm

theorem FS.AgreeOff.trans {a : Path} {f g k : FS} (h1 : FS.AgreeOff a f g)
    (h2 : FS.AgreeOff a g k) : FS.AgreeOff a f k :=
  fun q hq => (h1 q hq).trans (h2 q hq)

theorem FS.AgreeOff.set {a : Path} {f g : FS} (h : FS.AgreeOff a f g) (p : Path) (n : Node) :
    FS.AgreeOff a (f.set p n) (g.set p n) := by
  intro q hq
  by_cases hqp : q = p
  · rw [hqp, FS.get_set_self, FS.get_set_self]
  · rw [FS.get_set_ne f n hqp, FS.get_set_ne g n hqp]
    exact h q hq

theorem FS.AgreeOff.erase {a : Path} {f g : FS} (h : FS.AgreeOff a f g) (p : Path) :
    FS.AgreeOff a (f.erase p) (g.erase p) := by
  intro q hq
  by_cases hqp : q = p
  · rw [hqp, FS.get_erase_self, FS.get_erase_self]
  · rw [FS.get_erase_ne f hqp, FS.get_erase_ne g hqp]
    exact h q hq

theorem FS.not_prefix_dropLast {a p : Path} (h : ¬ a <+: p) : ¬ a <+: p.dropLast :=
  fun h0 => h (h0.trans (List.dropLast_prefix p))

theorem FS.AgreeOff.mkdirFrom {a : Path} (rest : List Str) :
    ∀ (f g : FS) (cur : Path), FS.AgreeOff a f g → ¬ a <+: (cur ++ rest) →
      (f.mkdirFrom cur rest).2 = (g.mkdirFrom cur rest).2 ∧
        FS.AgreeOff a (f.mkdirFrom cur rest).1 (g.mkdirFrom cur rest).1 := by
  induction rest with
  | nil =>
    intro f g cur h hp
    have hcur : cur ≠ a := by
      intro h0
      apply hp
      simp [h0]
    have hn := h.node hcur
    simp only [FS.mkdirFrom, ← hn]
    cases hf : f.node cur with
    | none =>
      by_cases hab : FS.absent cur = Errno.ENOENT
      · simp only [hab, if_true]
        exact ⟨trivial, h.set cur _⟩
      · simp only [hab, if_false]
        exact ⟨trivial, h⟩
    | some m => cases m <;> exact ⟨rfl, h⟩
  | cons c cs ih =>
    intro f g cur h hp
    have hcur : cur ≠ a := by
      intro h0
      apply hp
      rw [h0]
      exact List.prefix_append _ _
    have hp2 : ¬ a <+: ((cur ++ [c]) ++ cs) := by simpa [List.append_assoc] using hp
    have hn := h.node hcur
    simp only [FS.mkdirFrom, ← hn]
    cases hf : f.node cur with
    | none =>
      by_cases hab : FS.absent cur = Errno.ENOENT
      · simp only [hab, if_true]
        exact ih _ _ _ (h.set cur _) hp2
      · simp only [hab, if_false]
        exact ⟨trivial, h⟩
    | some m =>
      cases m with
      | file d => exact ⟨rfl, h⟩
      | dir => exact ih _ _ _ h hp2

theorem FS.AgreeOff.WriteFile {a : Path} {f g : FS} (h : FS.AgreeOff a f g) {p : Path}
    (hp : ¬ a <+: p) (data : Str) :
    (∃ e, f.WriteFile p data = .error e ∧ g.WriteFile p data = .error e) ∨
      (∃ f2 g2, f.WriteFile p data = .ok f2 ∧ g.WriteFile p data = .ok g2 ∧
        FS.AgreeOff a f2 g2) := by
  have hst := h.stat (FS.not_prefix_dropLast hp)
  have hsp := h.stat hp
  simp only [FS.WriteFile, ← hst, ← hsp]
  cases hs : f.stat p with
  | ok n =>
    cases n with
    | file d => exact Or.inr ⟨_, _, rfl, rfl, h.set p _⟩
    | dir => exact Or.inl ⟨_, rfl, rfl⟩
  | error e =>
    simp only
    split
    · exact Or.inr ⟨_, _, rfl, rfl, h.set p _⟩
    · exact Or.inl ⟨_, rfl, rfl⟩

theorem FS.hasChild_iff (fs : FS) (p : Path) :
    fs.hasChild p = true ↔ ∃ q, q ≠ [] ∧ q.dropLast = p ∧ fs.get q ≠ none := by
  constructor
  · intro h
    unfold FS.hasChild at h
    rw [List.any_eq_true] at h
    obtain ⟨e, he, hc⟩ := h
    simp only [decide_eq_true_eq] at hc
    refine ⟨e.1, hc.1, hc.2, ?_⟩
    rw [Ne, FS.get_eq_none_iff]
    exact fun hn => hn (List.mem_map_of_mem Prod.fst he)
  · rintro ⟨q, hq, hqp, hg⟩
    by_contra hc
    have hc2 : fs.hasChild p = false := by simpa using hc
    exact hg (FS.get_of_hasChild_false fs p q hc2 hq hqp)

theorem FS.AgreeOff.hasChild {a : Path} {f g : FS} (h : FS.AgreeOff a f g) {p : Path}
    (hp : p ≠ a.dropLast) : f.hasChild p = g.hasChild p := by
  have key : ∀ f g : FS, FS.AgreeOff a f g → f.hasChild p = true → g.hasChild p = true := by
    intro f g h hf
    obtain ⟨q, hq, hqp, hg⟩ := (FS.hasChild_iff f p).1 hf
    have hqa : q ≠ a := fun h0 => hp (by rw [← hqp, h0])
    exact (FS.hasChild_iff g p).2 ⟨q, hq, hqp, by rw [← h q hqa]; exact hg⟩
  cases hf : f.hasChild p with
  | true => exact (key f g h hf).symm
  | false =>
    cases hg : g.hasChild p with
    | false => rfl
    | true =>
      have := key g f h.symm hg
      rw [hf] at this
      cases this

theorem FS.AgreeOff.Remove {a : Path} {f g : FS} (h : FS.AgreeOff a f g) {p : Path}
    (hp : ¬ a <+: p) (hroot : p ≠ a.dropLast) :
    (∃ e, f.Remove p = .error e ∧ g.Remove p = .error e) ∨
      (∃ f2 g2, f.Remove p = .ok f2 ∧ g.Remove p = .ok g2 ∧ FS.AgreeOff a f2 g2) := by
  have hst := h.stat hp
  have hc := h.hasChild hroot
  simp only [FS.Remove, ← hst, ← hc]
  cases hs : f.stat p with
  | error e => exact Or.inl ⟨e, rfl, rfl⟩
  | ok n =>
    cases n with
    | file d => exact Or.inr ⟨_, _, rfl, rfl, h.erase p⟩
    | dir =>
      by_cases h0 : p = []
      · exact Or.inl ⟨Errno.EBUSY, by simp [h0], by simp [h0]⟩
      · cases hf : f.hasChild p with
        | true => exact Or.inl ⟨Errno.ENOTEMPTY, by simp [h0], by simp [h0]⟩
        | false => exact Or.inr ⟨_, _, by simp [h0], by simp [h0], h.erase p⟩

theorem FS.AgreeOff.ReadFile {a : Path} {f g : FS} (h : FS.AgreeOff a f g) {p : Path}
    (hp : ¬ a <+: p) : f.ReadFile p = g.ReadFile p := by
  simp only [FS.ReadFile, h.stat hp]

theorem Store.loadEntry_agree {R I : Type} (x : Ext R I) (s s2 : Store I)
    (hpath : s2.path = s.path) {f g : FS} (h : FS.AgreeOff s.auditor.path f g) (key : Str)
    (hp : ¬ s.auditor.path <+: s.getEntryPath key) :
    s2.loadEntry x g key = s.loadEntry x f key := by
  have hgp : s2.getEntryPath key = s.getEntryPath key := by
    simp only [Store.getEntryPath, hpath]
  simp only [Store.loadEntry, hgp, h.ReadFile hp]

theorem Store.saveEntry_agree {R I : Type} (x : Ext R I) (s s2 : Store I)
    (hpath : s2.path = s.path) {f g : FS} (h : FS.AgreeOff s.auditor.path f g)
    (entry : Entry) (hp : ¬ s.auditor.path <+: s.getEntryPath entry.Key) :
    (s.saveEntry x f entry).2 = (s2.saveEntry x g entry).2 ∧
      FS.AgreeOff s.auditor.path (s.saveEntry x f entry).1 (s2.saveEntry x g entry).1 := by
  have hgp : s2.getEntryPath entry.Key = s.getEntryPath entry.Key := by
    simp only [Store.getEntryPath, hpath]
  have hmk := FS.AgreeOff.mkdirFrom (s.getEntryPath entry.Key).dropLast f g [] h
    (by simpa using FS.not_prefix_dropLast hp)
  simp only [Store.saveEntry, hgp, FS.MkdirAll]
  rcases hf : f.mkdirFrom [] (s.getEntryPath entry.Key).dropLast with ⟨f1, ef⟩
  rcases hg : g.mkdirFrom [] (s.getEntryPath entry.Key).dropLast with ⟨g1, eg⟩
  rw [hf, hg] at hmk
  obtain ⟨he, hag⟩ := hmk
  simp only at he hag
  subst he
  cases ef with
  | some e => exact ⟨rfl, hag⟩
  | none =>
    simp only []
    cases hd : x.Marshal entry with
    | none => exact ⟨rfl, hag⟩
    | some data =>
      simp only []
      rcases hag.WriteFile hp data with ⟨e, h1, h2⟩ | ⟨f2, g2, h1, h2, h3⟩
      · rw [h1, h2]
        exact ⟨rfl, hag⟩
      · rw [h1, h2]
        exact ⟨rfl, h3⟩

theorem Logger.Log_agree (l l2 : Logger) (hl : l2.path = l.path) (env env2 : Env) (fs : FS)
    (event key details event2 key2 details2 : Str) :
    FS.AgreeOff l.path (l.Log env fs event key details).1
      (l2.Log env2 fs event2 key2 details2).1 := by
  intro q hq
  rw [Logger.Log_get_file l env fs event key details q hq,
    Logger.Log_get_file l2 env2 fs event2 key2 details2 q (by rw [hl]; exact hq)]

theorem Store.Get_agree {R I : Type} (x : Ext R I) (s s2 : Store I) (hpath : s2.path = s.path)
    (hid : s2.identities = s.identities) (haud : s2.auditor.path = s.auditor.path)
    (env env2 : Env) (fs : FS) (key : Str) (version : Int)
    (hp : ¬ s.auditor.path <+: s.getEntryPath key) :
    (s.Get x env fs key version).2 = (s2.Get x env2 fs key version).2 ∧
      FS.AgreeOff s.auditor.path (s.Get x env fs key version).1
        (s2.Get x env2 fs key version).1 := by
  have hag := Logger.Log_agree s.auditor s2.auditor haud env env2 fs EventAccess key []
    EventAccess key []
  have hl := s.loadEntry_agree x s2 hpath hag key hp
  constructor
  · simp only [Store.Get, hl]
    cases s.loadEntry x (s.auditor.Log env fs EventAccess key []).1 key with
    | error e => rfl
    | ok entry =>
      simp only []
      split
      · rfl
      · simp only [Store.decryptVersion, hid]
  · rw [s.Get_fs, s2.Get_fs]
    exact hag

theorem Store.Delete_agree {I : Type} (s s2 : Store I) (hpath : s2.path = s.path)
    (haud : s2.auditor.path = s.auditor.path) (env env2 : Env) (fs : FS) (key : Str)
    (hp : ¬ s.auditor.path <+: s.getEntryPath key)
    (hroot : s.getEntryPath key ≠ s.auditor.path.dropLast) :
    (s.Delete env fs key).2 = (s2.Delete env2 fs key).2 ∧
      FS.AgreeOff s.auditor.path (s.Delete env fs key).1 (s2.Delete env2 fs key).1 := by
  have hag := Logger.Log_agree s.auditor s2.auditor haud env env2 fs EventDelete key []
    EventDelete key []
  have hgp : s2.getEntryPath key = s.getEntryPath key := by
    simp only [Store.getEntryPath, hpath]
  simp only [Store.Delete, hgp]
  rcases hag.Remove hp hroot with ⟨e, h1, h2⟩ | ⟨f2, g2, h1, h2, h3⟩
  · rw [h1, h2]
    simp only []
    by_cases he : e.IsNotExist = true
    · rw [if_pos he, if_pos he]
      exact ⟨rfl, hag⟩
    · rw [if_neg he, if_neg he]
      exact ⟨rfl, hag⟩
  · rw [h1, h2]
    exact ⟨rfl, h3⟩

theorem Store.Put_agree {R I : Type} (x : Ext R I) (s s2 : Store I) (hs : s.Built)
    (hpath : s2.path = s.path) (hrec : s2.recipients = s.recipients)
    (haud : s2.auditor.path = s.auditor.path) (env env2 : Env)
    (hnow : env2.now = env.now) (huser : env2.user = env.user)
    (hentropy : env2.entropy = env.entropy) (fs : FS) (key password message : Str)
    (hp : ¬ s.auditor.path <+: s.getEntryPath key)
    (hentry : ∀ e, s.loadEntry x fs key = .ok e →
      ¬ s.auditor.path <+: s.getEntryPath e.Key) :
    (s.Put x env fs key password message).2 = (s2.Put x env2 fs key password message).2 ∧
      FS.AgreeOff s.auditor.path (s.Put x env fs key password message).1
        (s2.Put x env2 fs key password message).1 := by
  have hag := Logger.Log_agree s.auditor s2.auditor haud env env2 fs EventModify key message
    EventModify key message
  have hl := s.loadEntry_agree x s2 hpath hag key hp
  simp only [Store.Put, hl, hrec, hentropy]
  cases he : Encrypt x env.entropy password s.recipients with
  | error e => exact ⟨rfl, hag⟩
  | ok encrypted =>
    simp only []
    have hnv : ∀ entry : Entry, newVersion env2 entry encrypted message =
        newVersion env entry encrypted message := by
      intro entry
      simp only [newVersion, hnow, huser]
    simp only [hnv]
    apply s.saveEntry_agree x s2 hpath hag
    simp only []
    cases hload : s.loadEntry x (s.auditor.Log env fs EventModify key message).1 key with
    | error err => exact hp
    | ok entry =>
      exact hentry entry ((s.loadEntry_Log x hs env fs EventModify key message key entry).1 hload)

/-- C15 as stated fails on the code, twice. On the empty store `/s`,
`Put(.audit.log/x, p, "")` fails with the logger enabled, which has just made
`.audit.log` a regular file, and succeeds with the logger disabled. On the
empty store `/r.yaml`, `Delete(../r)` names the store root itself: it fails
with the logger enabled, whose log file makes the directory non-empty, and
succeeds with the logger disabled. -/
theorem Store.audit_influence_counterexample :
    (toyStore.Put toyExt toyEnv emptyStoreFS ".audit.log/x".toList "p".toList []).2 =
        some (StoreError.mkdir Errno.ENOTDIR) ∧
      (toyStoreQuiet.Put toyExt toyEnv emptyStoreFS ".audit.log/x".toList "p".toList []).2 =
        none ∧
      (yamlRootStore.Delete toyEnv yamlRootFS "../r".toList).2 =
        some (StoreError.delete Errno.ENOTEMPTY) ∧
      ((yamlRootStore.withAudit false).Delete toyEnv yamlRootFS "../r".toList).2 = none :=
  ⟨rfl, rfl, rfl, rfl⟩

/-- C15 (amended). Audit state does not influence store outcomes away from
the audit log. Take a `Get`, `Put` or `Delete` call on a key whose entry path
does not run through the audit log path and is not the store root (for
`Put`, the same holds of the key carried by the entry it loads). Then the
returned value and error are the same, and the resulting file systems record
the same node at every path but the audit log, whether the logger is enabled
or disabled and whether its write succeeds or fails. -/
theorem Store.audit_does_not_influence {R I : Type} (x : Ext R I) (s : Store I) (hs : s.Built)
    (enabled : Bool) (w : Option Errno) (env : Env) (fs : FS)
    (key password message : Str) (version : Int)
    (hkey : s.clearOfAudit (s.getEntryPath key))
    (hentry : ∀ e, s.loadEntry x fs key = .ok e → s.clearOfAudit (s.getEntryPath e.Key)) :
    ((s.Get x env fs key version).2 =
        ((s.withAudit enabled).Get x (env.withAuditWrite w) fs key version).2 ∧
      FS.AgreeOff s.auditor.path (s.Get x env fs key version).1
        ((s.withAudit enabled).Get x (env.withAuditWrite w) fs key version).1) ∧
    ((s.Put x env fs key password message).2 =
        ((s.withAudit enabled).Put x (env.withAuditWrite w) fs key password message).2 ∧
      FS.AgreeOff s.auditor.path (s.Put x env fs key password message).1
        ((s.withAudit enabled).Put x (env.withAuditWrite w) fs key password message).1) ∧
    ((s.Delete env fs key).2 =
        ((s.withAudit enabled).Delete (env.withAuditWrite w) fs key).2 ∧
      FS.AgreeOff s.auditor.path (s.Delete env fs key).1
        ((s.withAudit enabled).Delete (env.withAuditWrite w) fs key).1) := by
  have hroot : s.getEntryPath key ≠ s.auditor.path.dropLast := by
    rw [hs, List.dropLast_concat]
    exact hkey.2
  exact ⟨s.Get_agree x (s.withAudit enabled) rfl rfl rfl env (env.withAuditWrite w) fs key
      version hkey.1,
    s.Put_agree x (s.withAudit enabled) hs rfl rfl rfl env (env.withAuditWrite w) rfl rfl rfl
      fs key password message hkey.1 (fun e he => (hentry e he).1),
    s.Delete_agree (s.withAudit enabled) rfl rfl env (env.withAuditWrite w) fs key hkey.1
      hroot⟩

/-! ## The claims of `age.go`, `audit.go` and the loaders on concrete inputs -/

/-- C12 on a concrete input: of the recipients `age1a`, `bad`, `worse` the
second is the first that does not parse, and `Encrypt` names it. -/
theorem Encrypt_rejects_invalid_recipient_witness :
    ["age1a".toList, "bad".toList, "worse".toList] ≠ [] ∧
      toyExt.ParseX25519Recipient "worse".toList = none ∧
      Encrypt toyExt 0 "p".toList ["age1a".toList, "bad".toList, "worse".toList] =
        .error (AgeError.invalidRecipient "bad".toList) ∧
      ∃ bad, ["age1a".toList, "bad".toList, "worse".toList].find?
          (fun r => (toyExt.ParseX25519Recipient r).isNone) = some bad ∧
        Encrypt toyExt 0 "p".toList ["age1a".toList, "bad".toList, "worse".toList] =
          .error (AgeError.invalidRecipient bad) :=
  ⟨List.cons_ne_nil _ _, rfl, rfl,
    (Encrypt_rejects_invalid_recipient toyExt 0 "p".toList
      ["age1a".toList, "bad".toList, "worse".toList]).1 (List.cons_ne_nil _ _)
      ⟨"worse".toList, by simp, rfl⟩⟩

theorem keyedExt_encrypts : ∀ (entropy : Nat) (rs : List Str) (data : Str), rs ≠ [] →
    ∃ c, keyedExt.EncryptArmor entropy rs data = .ok c :=
  fun _ _ _ _ => ⟨_, rfl⟩

theorem keyedExt_decrypts : ∀ (entropy : Nat) (rs ids : List Str) (data c : Str),
    keyedExt.EncryptArmor entropy rs data = .ok c →
      (∃ i ∈ ids, ∃ r ∈ rs, keyedKeyOf i r) → keyedExt.DecryptArmor ids c = .ok data := by
  intro entropy rs ids data c hc hk
  have h2 : (Except.ok (encNat rs.length ++ (rs.map (fun r => r.getLastD 'x') ++ data)) :
      Except EncFail Str) = .ok c := hc
  cases h2
  obtain ⟨i, hi, r, hr, hir⟩ := hk
  have hlen : (rs.map (fun r => r.getLastD 'x')).length = rs.length := List.length_map _ _
  have htake : (rs.map (fun r => r.getLastD 'x') ++ data).take rs.length =
      rs.map (fun r => r.getLastD 'x') := by
    rw [← hlen]
    exact List.take_left' rfl
  have hdrop : (rs.map (fun r => r.getLastD 'x') ++ data).drop rs.length = data := by
    rw [← hlen]
    exact List.drop_left' rfl
  have hany : ids.any (fun i =>
      (rs.map (fun r => r.getLastD 'x')).contains (i.getLastD 'x')) = true := by
    rw [List.any_eq_true]
    refine ⟨i, hi, ?_⟩
    rw [List.contains_iff_exists_mem_beq]
    exact ⟨r.getLastD 'x', List.mem_map_of_mem _ hr, by simpa [keyedKeyOf] using hir⟩
  simp only [keyedExt, decNat_encNat, htake, hdrop, hany, if_true]

/-- C13 on a concrete input, with the library in which decryption needs the
right key: the plaintext `secret`, encrypted for `age1a`, `age1b` and `age1c`,
decrypts to `secret` with the identities `AGE-z` and `AGE-b`, the second of
which is the private key of the second recipient; with `AGE-z` alone it does
not decrypt. The empty plaintext decrypts to the empty plaintext. -/
theorem Encrypt_Decrypt_round_trip_witness :
    ["age1a".toList, "age1b".toList, "age1c".toList] ≠ [] ∧
      Encrypt keyedExt 0 "secret".toList ["age1a".toList, "age1b".toList, "age1c".toList] =
        .ok "1110abcsecret".toList ∧
      Decrypt keyedExt "1110abcsecret".toList ["AGE-z".toList] =
        .error (AgeError.decryptor DecFail.decrypt) ∧
      Decrypt keyedExt "1110abcsecret".toList ["AGE-z".toList, "AGE-b".toList] =
        .ok "secret".toList ∧
      Encrypt keyedExt 0 [] ["age1a".toList, "age1b".toList, "age1c".toList] =
        .ok "1110abc".toList ∧
      Decrypt keyedExt "1110abc".toList ["AGE-z".toList, "AGE-b".toList] = .ok [] ∧
      ∃ c,
        Encrypt keyedExt 0 "secret".toList ["age1a".toList, "age1b".toList, "age1c".toList] =
          .ok c ∧
        Decrypt keyedExt c ["AGE-z".toList, "AGE-b".toList] = .ok "secret".toList :=
  ⟨List.cons_ne_nil _ _, rfl, rfl, rfl, rfl, rfl,
    match Encrypt_Decrypt_round_trip keyedExt keyedKeyOf
      0 "secret".toList ["age1a".toList, "age1b".toList, "age1c".toList]
      ["AGE-z".toList, "AGE-b".toList] (List.cons_ne_nil _ _)
      (fun r hr => by
        simp only [List.mem_cons, List.mem_singleton, List.not_mem_nil, or_false] at hr
        rcases hr with h | h | h <;> subst h <;> exact ⟨_, rfl⟩)
      ⟨"AGE-b".toList, by simp, "age1b".toList, by simp, "age1b".toList, rfl, rfl⟩ with
    | ⟨_, _, _, _, _, _, h⟩ => h keyedExt_encrypts keyedExt_decrypts⟩

/-- C16 on a concrete input: the first `Log(MODIFY, a/b, m)` on the empty
store creates the log with the line `T | u | MODIFY | a/b | m`. -/
theorem Logger.Log_appends_formatted_line_witness :
    toyStore.auditor.enabled = true ∧
      (toyStore.auditor.Log toyEnv emptyStoreFS EventModify toyKey "m".toList).1.ReadFile
          toyStore.auditor.path = .ok "T | u | MODIFY | a/b | m\n".toList ∧
      (toyStore.auditor.Log toyEnv emptyStoreFS EventModify toyKey "m".toList).2 = none ∧
      ∃ old, (emptyStoreFS.ReadFile toyStore.auditor.path = .ok old ∨
          (emptyStoreFS.ReadFile toyStore.auditor.path = .error Errno.ENOENT ∧ old = [])) ∧
        (toyStore.auditor.Log toyEnv emptyStoreFS EventModify toyKey "m".toList).1.ReadFile
            toyStore.auditor.path =
          .ok (old ++ (toyEnv.stamp ++ " | ".toList ++
            (if toyEnv.user = [] then "unknown".toList else toyEnv.user) ++ " | ".toList ++
            EventModify ++ " | ".toList ++ toyKey ++
            (if "m".toList = [] then [] else " | ".toList ++ "m".toList) ++ ['\n'])) :=
  ⟨rfl, rfl,
    Logger.Log_appends_formatted_line toyStore.auditor toyEnv emptyStoreFS
      (emptyStoreFS.OpenAppend toyStore.auditor.path).toOption.get! EventModify toyKey
      "m".toList rfl rfl rfl⟩

/-- C17 (amended) on a concrete input: `Log(DELETE, a/b, "")` after a first
`Put` appends one line to the log that `Put` left. -/
theorem Logger.Log_adds_one_line_witness :
    toyStore.auditor.enabled = true ∧
      toyFS1.ReadFile toyStore.auditor.path = .ok "T | u | MODIFY | a/b | m1\n".toList ∧
      ∃ old text, (toyFS1.ReadFile toyStore.auditor.path = .ok old ∨
          (toyFS1.ReadFile toyStore.auditor.path = .error Errno.ENOENT ∧ old = [])) ∧
        (toyStore.auditor.Log toyEnv toyFS1 EventDelete toyKey []).1.ReadFile
            toyStore.auditor.path = .ok (old ++ text) ∧
        text.count '\n' = 1 ∧ text.getLast? = some '\n' :=
  ⟨rfl, rfl,
    Logger.Log_adds_one_line toyStore.auditor toyEnv toyFS1
      (toyFS1.OpenAppend toyStore.auditor.path).toOption.get! EventDelete toyKey [] rfl rfl
      rfl (by decide) (by decide) (by decide) (by decide) (by decide)⟩

/-- C18 on a concrete store: the second `Put` on `a/b` leaves in the audit log
what a single `Log(MODIFY, a/b, m2)` leaves, whatever the plaintext. -/
theorem Store.audit_events_per_operation_witness :
    toyStore.Built ∧
      toyFS2.ReadFile toyStore.auditor.path =
        .ok "T | u | MODIFY | a/b | m1\nT | u | MODIFY | a/b | m2\n".toList ∧
      (toyStore.Get toyExt toyEnv toyFS1 toyKey 0).1 =
        (toyStore.auditor.Log toyEnv toyFS1 EventAccess toyKey []).1 ∧
      (∀ d, (toyStore.Put toyExt toyEnv toyFS1 toyKey "p2".toList "m2".toList).1.get
            toyStore.auditor.path = some (Node.file d) ↔
          (toyStore.auditor.Log toyEnv toyFS1 EventModify toyKey "m2".toList).1.get
            toyStore.auditor.path = some (Node.file d)) ∧
      (toyStore.Delete toyEnv toyFS1 toyKey).1.get toyStore.auditor.path =
        (toyStore.auditor.Log toyEnv toyFS1 EventDelete toyKey []).1.get
          toyStore.auditor.path ∧
      (∀ l : Logger,
        ({ toyStore with auditor := l } : Store Str).ListKeys toyFS1 =
          toyStore.ListKeys toyFS1) ∧
      (∀ (other : Str) (d : Str),
        (toyStore.Put toyExt toyEnv toyFS1 toyKey "p2".toList "m2".toList).1.get
            toyStore.auditor.path = some (Node.file d) ↔
          (toyStore.Put toyExt toyEnv toyFS1 toyKey other "m2".toList).1.get
            toyStore.auditor.path = some (Node.file d)) :=
  ⟨rfl, rfl,
    Store.audit_events_per_operation toyExt toyStore rfl toyEnv toyFS1 toyKey "p2".toList
      "m2".toList 0⟩

/-- C19 on a concrete file: of the five lines of the key file, the padded
`AGE-A` and `AGE-B` are kept, in that order; the comment, the malformed line
and the blank line are skipped. -/
theorem LoadIdentityFile_lenient_witness :
    toyConfigFS.ReadFile ["k".toList] = .ok toyKeyFile ∧
      identityLinesSpec toyExt toyKeyFile = ["AGE-A".toList, "AGE-B".toList] ∧
      LoadIdentityFile toyExt toyConfigFS ["k".toList] =
        .ok ["AGE-A".toList, "AGE-B".toList] ∧
      ∃ ids, LoadIdentityFile toyExt toyConfigFS ["k".toList] = .ok ids ∧
        ids.map some = (identityLinesSpec toyExt toyKeyFile).map toyExt.ParseX25519Identity ∧
        ids.length = (identityLinesSpec toyExt toyKeyFile).length :=
  ⟨rfl, by decide, rfl,
    (LoadIdentityFile_lenient toyExt toyConfigFS ["k".toList] toyKeyFile rfl).2 (by decide)⟩

/-- C20 on concrete files: the recipient file of `/s` yields `age1a` and
`age1b`; on the empty store, which has no recipient file, `New` succeeds
with no recipient. -/
theorem loadRecipients_lenient_witness :
    (toyConfigFS.ReadFile ["s".toList, recipientsName] = .ok toyRecipientsFile ∧
      recipientLinesSpec toyExt toyRecipientsFile = ["age1a".toList, "age1b".toList] ∧
      loadRecipients toyExt toyConfigFS ["s".toList, recipientsName] =
        .ok (recipientLinesSpec toyExt toyRecipientsFile)) ∧
    (emptyStoreFS.ReadFile (["s".toList] ++ [recipientsName]) = .error Errno.ENOENT ∧
      ∃ s : Store Str, Store.New toyExt emptyStoreFS ["s".toList] none [] = .ok s ∧
        s.path = ["s".toList] ∧ s.recipients = []) :=
  ⟨⟨rfl, by decide,
      (loadRecipients_lenient toyExt toyConfigFS ["s".toList, recipientsName]).1
        toyRecipientsFile rfl⟩,
    ⟨rfl,
      (loadRecipients_lenient toyExt emptyStoreFS ["s".toList, recipientsName]).2.2
        ["s".toList] none [] rfl⟩⟩

/-- C15 (amended) on a concrete store: `Get`, `Put` and `Delete` on `a/b`
return the same and leave the same nodes off the audit log when the logger is
switched off and its write would fail. -/
theorem Store.audit_does_not_influence_witness :
    toyStore.Built ∧ toyStore.clearOfAudit (toyStore.getEntryPath toyKey) ∧
      toyStore.loadEntry toyExt toyFS1 toyKey = .ok toyEntry1 ∧
      ((toyStore.Get toyExt toyEnv toyFS1 toyKey 0).2 =
          ((toyStore.withAudit false).Get toyExt (toyEnv.withAuditWrite (some Errno.ENOSPC))
            toyFS1 toyKey 0).2 ∧
        FS.AgreeOff toyStore.auditor.path (toyStore.Get toyExt toyEnv toyFS1 toyKey 0).1
          ((toyStore.withAudit false).Get toyExt (toyEnv.withAuditWrite (some Errno.ENOSPC))
            toyFS1 toyKey 0).1) ∧
      ((toyStore.Put toyExt toyEnv toyFS1 toyKey "p2".toList "m2".toList).2 =
          ((toyStore.withAudit false).Put toyExt (toyEnv.withAuditWrite (some Errno.ENOSPC))
            toyFS1 toyKey "p2".toList "m2".toList).2 ∧
        FS.AgreeOff toyStore.auditor.path
          (toyStore.Put toyExt toyEnv toyFS1 toyKey "p2".toList "m2".toList).1
          ((toyStore.withAudit false).Put toyExt (toyEnv.withAuditWrite (some Errno.ENOSPC))
            toyFS1 toyKey "p2".toList "m2".toList).1) ∧
      ((toyStore.Delete toyEnv toyFS1 toyKey).2 =
          ((toyStore.withAudit false).Delete (toyEnv.withAuditWrite (some Errno.ENOSPC))
            toyFS1 toyKey).2 ∧
        FS.AgreeOff toyStore.auditor.path (toyStore.Delete toyEnv toyFS1 toyKey).1
          ((toyStore.withAudit false).Delete (toyEnv.withAuditWrite (some Errno.ENOSPC))
            toyFS1 toyKey).1) :=
  ⟨rfl, ⟨by decide, by decide⟩, rfl,
    Store.audit_does_not_influence toyExt toyStore rfl false (some Errno.ENOSPC) toyEnv toyFS1
      toyKey "p2".toList "m2".toList 0 ⟨by decide, by decide⟩
      (fun e he => by
        have h1 : toyStore.loadEntry toyExt toyFS1 toyKey = .ok toyEntry1 := rfl
        rw [h1] at he
        cases he
        exact ⟨by decide, by decide⟩)⟩

/-! ## The claims on `Get` and the command `get` at their failing inputs -/

/-- C23 at its failing input. The entry file of `k` parses to an entry without
versions; `loadEntry` returns it without error, the clamp of `Get` sets
`version` to 0, and the index `version-1` is out of range: `Get` panics,
whatever the version asked for. -/
theorem Store.Get_faults_without_versions :
    toyStore.loadEntry toyExt noVersionsFS "k".toList =
        .ok { Key := "k".toList, Versions := [] } ∧
      (toyStore.Get toyExt toyEnv noVersionsFS "k".toList 0).2 = Outcome.fault ∧
      (toyStore.Get toyExt toyEnv noVersionsFS "k".toList 1).2 = Outcome.fault ∧
      (toyStore.Get toyExt toyEnv noVersionsFS "k".toList (-1)).2 = Outcome.fault :=
  ⟨rfl, rfl, rfl, rfl⟩

/-- C24 at its failing input. `Put(k, "", "")` succeeds and stores the empty
plaintext, `Get(k, 0)` returns it, and `runGet` then indexes `password[-1]`:
the command panics. On the plaintext `p` the same command prints `p` and a
line feed. -/
theorem runGet_faults_on_empty_secret :
    Store.New toyExt toyConfigFS ["s".toList] (some ["k".toList]) [] = .ok toyOpened ∧
      (toyOpened.Put toyExt toyEnv toyConfigFS "k".toList [] []).2 = none ∧
      (toyOpened.Get toyExt toyEnv emptySecretFS "k".toList 0).2 = Outcome.ok [] ∧
      (runGet toyExt toyEnv emptySecretFS (some toyConfig) [] toyGetFlags true "k".toList).2 =
        CliOutcome.fault ∧
      (runGet toyExt toyEnv (toyOpened.Put toyExt toyEnv toyConfigFS "k".toList "p".toList []).1
        (some toyConfig) [] toyGetFlags true "k".toList).2 = CliOutcome.ok "p\n".toList :=
  ⟨rfl, rfl, rfl, rfl, rfl⟩

/-! ## Lemmas on the store `New` builds -/

theorem loadRecipients_valid {R I : Type} (x : Ext R I) (fs : FS) (path : Path)
    (recipients : List Str) (h : loadRecipients x fs path = .ok recipients) :
    ∀ r ∈ recipients, ∃ a, x.ParseX25519Recipient r = some a := by
  intro r hr
  simp only [loadRecipients] at h
  cases hread : fs.ReadFile path with
  | error e =>
    rw [hread] at h
    simp only [] at h
    split at h
    · cases h
      simp at hr
    · cases h
  | ok data =>
    rw [hread] at h
    simp only [Except.ok.injEq] at h
    rw [← h, recipientLoop_spec] at hr
    simp only [List.nil_append, List.mem_filter, Bool.and_eq_true] at hr
    exact Option.isSome_iff_exists.1 hr.2.2

theorem Store.New_inv {R I : Type} (x : Ext R I) (fs : FS) (path : Path)
    (ageKeyPath : Option Path) (pfAudit : Str) (s : Store I)
    (h : Store.New x fs path ageKeyPath pfAudit = .ok s) :
    loadRecipients x fs (path ++ [recipientsName]) = .ok s.recipients ∧ s.path = path ∧
      s.Built := by
  cases hl : loadRecipients x fs (path ++ [recipientsName]) with
  | error e =>
    have hj : Join path recipientsName = path ++ [recipientsName] :=
      Join_name path recipientsName (by decide) (by decide) (by decide) (by decide)
    simp [Store.New, hj, hl] at h
  | ok recipients =>
    obtain ⟨s1, h1, h2, h3, h4, _⟩ := Store.New_ok x fs path ageKeyPath pfAudit recipients hl
    rw [h1] at h
    cases h
    exact ⟨by rw [h3], h2, h4⟩

theorem Encrypt_of_valid {R I : Type} (x : Ext R I) (entropy : Nat) (data : Str)
    (recipients : List Str)
    (hvalid : ∀ r ∈ recipients, ∃ a, x.ParseX25519Recipient r = some a) :
    (recipients = [] ∧ Encrypt x entropy data recipients = .error AgeError.noRecipients) ∨
      (recipients ≠ [] ∧ ∃ rs, rs ≠ [] ∧ parseRecipients x recipients = .ok rs ∧
        Encrypt x entropy data recipients =
          match x.EncryptArmor entropy rs data with
          | .error step => .error (AgeError.encryptor step)
          | .ok encrypted => .ok encrypted) := by
  by_cases hne : recipients = []
  · left
    subst hne
    exact ⟨rfl, rfl⟩
  · right
    obtain ⟨rs, hrs⟩ := parseRecipients_of_valid x recipients hvalid
    have hmap := parseRecipients_ok x recipients rs hrs
    have hrsne : rs ≠ [] := by
      intro h0
      rw [h0] at hmap
      simp at hmap
      exact hne hmap
    have hlen : recipients.length ≠ 0 := fun h => hne (List.length_eq_zero.1 h)
    exact ⟨hne, rs, hrsne, hrs, by simp only [Encrypt, hlen, if_false, hrs]⟩

/-! ## The claim on the recipients of a store -/

/-- C25. `Put` cannot fail on an invalid recipient. In a store built by `New`
every string of the recipient set is accepted by `ParseX25519Recipient`, the
parser `Encrypt` uses. So `Encrypt` under the recipients of the store never
returns the invalid-recipient error and neither does `Put`; `Encrypt` fails
with the no-recipients error exactly when the set is empty, and its only
other error is a failure inside the library; when the library encrypts for
every non-empty recipient list, the no-recipients error is the only one. -/
theorem Store.Put_never_invalid_recipient {R I : Type} (x : Ext R I) (fs : FS) (path : Path)
    (ageKeyPath : Option Path) (pfAudit : Str) (s : Store I)
    (hnew : Store.New x fs path ageKeyPath pfAudit = .ok s) :
    (∀ r ∈ s.recipients, ∃ a, x.ParseX25519Recipient r = some a) ∧
    (∀ entropy data bad,
      Encrypt x entropy data s.recipients ≠ .error (AgeError.invalidRecipient bad)) ∧
    (∀ env fs1 key password message bad,
      (s.Put x env fs1 key password message).2 ≠
        some (StoreError.encrypt (AgeError.invalidRecipient bad))) ∧
    (∀ entropy data,
      Encrypt x entropy data s.recipients = .error AgeError.noRecipients ↔ s.recipients = []) ∧
    (∀ entropy data e, Encrypt x entropy data s.recipients = .error e →
      e = AgeError.noRecipients ∨ ∃ step, e = AgeError.encryptor step) ∧
    ((∀ entropy rs data, rs ≠ [] → ∃ c, x.EncryptArmor entropy rs data = .ok c) →
      ∀ entropy data e, Encrypt x entropy data s.recipients = .error e →
        e = AgeError.noRecipients ∧ s.recipients = []) := by
  obtain ⟨hload, _, _⟩ := Store.New_inv x fs path ageKeyPath pfAudit s hnew
  have hvalid := loadRecipients_valid x fs _ _ hload
  have hcases := fun entropy data => Encrypt_of_valid x entropy data s.recipients hvalid
  have herr : ∀ entropy data e, Encrypt x entropy data s.recipients = .error e →
      (e = AgeError.noRecipients ∧ s.recipients = []) ∨
        ∃ step rs, rs ≠ [] ∧ e = AgeError.encryptor step ∧
          x.EncryptArmor entropy rs data = .error step := by
    intro entropy data e he
    rcases hcases entropy data with ⟨h0, h1⟩ | ⟨_, rs, hrs, _, h1⟩
    · rw [h1] at he
      cases he
      exact Or.inl ⟨rfl, h0⟩
    · rw [h1] at he
      cases harm : x.EncryptArmor entropy rs data with
      | error step =>
        rw [harm] at he
        cases he
        exact Or.inr ⟨step, rs, hrs, rfl, harm⟩
      | ok c =>
        rw [harm] at he
        cases he
  have hnever : ∀ entropy data bad,
      Encrypt x entropy data s.recipients ≠ .error (AgeError.invalidRecipient bad) := by
    intro entropy data bad he
    rcases herr entropy data _ he with ⟨h, _⟩ | ⟨step, _, _, h, _⟩ <;> cases h
  refine ⟨hvalid, hnever, ?_, ?_, ?_, ?_⟩
  · intro env fs1 key password message bad hput
    simp only [Store.Put] at hput
    cases he : Encrypt x env.entropy password s.recipients with
    | error e =>
      rw [he] at hput
      simp only [Option.some.injEq, StoreError.encrypt.injEq] at hput
      rw [hput] at he
      exact hnever _ _ _ he
    | ok c =>
      rw [he] at hput
      simp only [Store.saveEntry] at hput
      revert hput
      repeat' split
      all_goals intro h0; cases h0
  · intro entropy data
    constructor
    · intro he
      rcases herr entropy data _ he with ⟨_, h⟩ | ⟨step, _, _, h, _⟩
      · exact h
      · cases h
    · intro h0
      rcases hcases entropy data with ⟨_, h1⟩ | ⟨h1, _⟩
      · exact h1
      · exact absurd h0 h1
  · intro entropy data e he
    rcases herr entropy data e he with ⟨h, _⟩ | ⟨step, _, _, h, _⟩
    · exact Or.inl h
    · exact Or.inr ⟨step, h⟩
  · intro hsucc entropy data e he
    rcases herr entropy data e he with h | ⟨step, rs, hrs, _, harm⟩
    · exact h
    · obtain ⟨c, hc⟩ := hsucc entropy rs data hrs
      rw [hc] at harm
      cases harm

/-! ## Lemmas on the store without identities -/

theorem Store.New_without_identities {R I : Type} (x : Ext R I) (fs : FS) (path : Path)
    (ageKeyPath : Option Path) (pfAudit : Str) (recipients : List Str)
    (hrec : loadRecipients x fs (path ++ [recipientsName]) = .ok recipients)
    (hkey : ageKeyPath = none ∨
      ∃ keyPath e, ageKeyPath = some keyPath ∧ LoadIdentityFile x fs keyPath = .error e) :
    ∃ s : Store I, Store.New x fs path ageKeyPath pfAudit = .ok s ∧ s.path = path ∧
      s.recipients = recipients ∧ s.identities = [] ∧ s.Built := by
  have hj : Join path recipientsName = path ++ [recipientsName] :=
    Join_name path recipientsName (by decide) (by decide) (by decide) (by decide)
  have ha : Join path auditName = path ++ [auditName] :=
    Join_name path auditName (by decide) (by decide) (by decide) (by decide)
  rcases hkey with h | ⟨keyPath, e, h, hload⟩
  · subst h
    simp only [Store.New, hj, hrec, ha]
    exact ⟨_, rfl, rfl, rfl, rfl, rfl⟩
  · subst h
    simp only [Store.New, hj, hrec, ha, hload]
    exact ⟨_, rfl, rfl, rfl, rfl, rfl⟩

theorem Store.saveEntry_error_cases {R I : Type} (x : Ext R I)
    (hmar : ∀ e, ∃ d, x.Marshal e = some d) (s : Store I) (fs : FS) (entry : Entry) :
    (s.saveEntry x fs entry).2 = none ∨
      (∃ e, (s.saveEntry x fs entry).2 = some (StoreError.mkdir e)) ∨
      (∃ e, (s.saveEntry x fs entry).2 = some (StoreError.saveEntry e)) := by
  simp only [Store.saveEntry]
  rcases hm : fs.MkdirAll (s.getEntryPath entry.Key).dropLast with ⟨fs1, _ | e⟩
  · obtain ⟨d, hd⟩ := hmar entry
    simp only [hd]
    cases hw : fs1.WriteFile (s.getEntryPath entry.Key) d with
    | error e => exact Or.inr (Or.inr ⟨e, rfl⟩)
    | ok fs2 => exact Or.inl rfl
  · exact Or.inr (Or.inl ⟨e, rfl⟩)

theorem Store.Put_error_cases {R I : Type} (x : Ext R I)
    (hsucc : ∀ entropy rs data, rs ≠ [] → ∃ c, x.EncryptArmor entropy rs data = .ok c)
    (hmar : ∀ e, ∃ d, x.Marshal e = some d) (s : Store I)
    (hvalid : ∀ r ∈ s.recipients, ∃ a, x.ParseX25519Recipient r = some a)
    (hne : s.recipients ≠ []) (env : Env) (fs : FS) (key password message : Str) :
    (s.Put x env fs key password message).2 = none ∨
      (∃ e, (s.Put x env fs key password message).2 = some (StoreError.mkdir e)) ∨
      (∃ e, (s.Put x env fs key password message).2 = some (StoreError.saveEntry e)) := by
  rcases Encrypt_of_valid x env.entropy password s.recipients hvalid with
    ⟨h0, _⟩ | ⟨_, rs, hrs, _, henc⟩
  · exact absurd h0 hne
  · obtain ⟨c, hc⟩ := hsucc env.entropy rs password hrs
    rw [hc] at henc
    simp only [Store.Put, henc]
    exact Store.saveEntry_error_cases x hmar s _ _

theorem Store.Get_without_identities {R I : Type} (x : Ext R I) (s : Store I) (hs : s.Built)
    (hid : s.identities = []) (env : Env) (fs : FS) (key : Str) (version : Int) (entry : Entry)
    (hload : s.loadEntry x fs key = .ok entry) (hne : entry.Versions ≠ []) :
    (s.Get x env fs key version).2 =
      Outcome.err (StoreError.decrypt AgeError.noIdentities) := by
  have hdec : ∀ v : Version, s.decryptVersion x v =
      Outcome.err (StoreError.decrypt AgeError.noIdentities) := by
    intro v
    simp [Store.decryptVersion, Decrypt, hid]
  have hlen : 1 ≤ entry.Versions.length := by
    cases h : entry.Versions with
    | nil => exact absurd h hne
    | cons a rest => simp
  have hcl := Store.Get_by_index x s hs env fs key entry version hload hlen
  by_cases hin : 1 ≤ version ∧ version ≤ (entry.Versions.length : Int)
  · obtain ⟨v, _, hv⟩ := hcl.1 hin
    rw [hv, hdec]
  · obtain ⟨v, _, hv, _⟩ := hcl.2.1 (by omega)
    rw [hv, hdec]

/-! ## The claim on the store without identities -/

/-- C21 as stated fails on the code, twice. On the store `/s` opened with a
missing key file, whose recipient set is not empty, `Put(.recipients/x, p, "")`
fails: the entry path runs through the recipient file. And `New` fails, with
no identity path given, when the recipient list cannot be read. -/
theorem Store.write_only_counterexample :
    Store.New toyExt toyConfigFS ["s".toList] (some ["missing".toList]) [] = .ok toyWriteOnly ∧
      toyWriteOnly.identities = [] ∧ toyWriteOnly.recipients ≠ [] ∧
      (toyWriteOnly.Put toyExt toyEnv toyConfigFS ".recipients/x".toList "p".toList []).2 =
        some (StoreError.mkdir Errno.ENOTDIR) ∧
      (Store.New toyExt recipientsDirFS ["s".toList] none [] : Except NewError (Store Str)) =
        .error (NewError.loadRecipients Errno.EISDIR) :=
  ⟨rfl, rfl, by decide, rfl, rfl⟩

/-- C21 (amended). Write-only store. When the recipient list loads and the
identity file cannot be loaded, or no identity path is given, `New` succeeds
with those recipients and an empty identity set. On such a store `Put` never
consults the identities; when the recipient set is not empty and the
libraries encrypt and serialise, `Put` succeeds unless a parent directory
cannot be created or the entry file cannot be written. And `Get` on a key
whose entry loads with at least one version fails with the decryption error
for a missing identity, never with not-found. -/
theorem Store.write_only_store {R I : Type} (x : Ext R I) (fs0 : FS) (path : Path)
    (ageKeyPath : Option Path) (pfAudit : Str) (recipients : List Str)
    (hrec : loadRecipients x fs0 (path ++ [recipientsName]) = .ok recipients)
    (hkey : ageKeyPath = none ∨
      ∃ keyPath e, ageKeyPath = some keyPath ∧ LoadIdentityFile x fs0 keyPath = .error e) :
    ∃ s : Store I, Store.New x fs0 path ageKeyPath pfAudit = .ok s ∧ s.identities = [] ∧
      s.recipients = recipients ∧
      (∀ (identities : List I) env fs key password message,
        ({ s with identities := identities } : Store I).Put x env fs key password message =
          s.Put x env fs key password message) ∧
      ((∀ entropy rs data, rs ≠ [] → ∃ c, x.EncryptArmor entropy rs data = .ok c) →
        (∀ e, ∃ d, x.Marshal e = some d) → recipients ≠ [] →
        ∀ env fs key password message,
          (s.Put x env fs key password message).2 = none ∨
          (∃ e, (s.Put x env fs key password message).2 = some (StoreError.mkdir e)) ∨
          (∃ e, (s.Put x env fs key password message).2 = some (StoreError.saveEntry e))) ∧
      (∀ env fs key version entry, s.loadEntry x fs key = .ok entry → entry.Versions ≠ [] →
        (s.Get x env fs key version).2 =
          Outcome.err (StoreError.decrypt AgeError.noIdentities)) := by
  obtain ⟨s, hnew, _, hr, hid, hs⟩ :=
    Store.New_without_identities x fs0 path ageKeyPath pfAudit recipients hrec hkey
  refine ⟨s, hnew, hid, hr, fun _ _ _ _ _ _ => rfl, ?_, ?_⟩
  · intro hsucc hmar hne env fs key password message
    have hvalid : ∀ r ∈ s.recipients, ∃ a, x.ParseX25519Recipient r = some a := by
      rw [hr]
      exact loadRecipients_valid x fs0 _ _ hrec
    exact Store.Put_error_cases x hsucc hmar s hvalid (by rw [hr]; exact hne) env fs key
      password message
  · intro env fs key version entry hload hne
    exact Store.Get_without_identities x s hs hid env fs key version entry hload hne

/-! ## The claim on the command `rollback` -/

/-- C22 as stated fails on the code, four times. On a store without recipient
list, `rollback a/b 1` reads version 1 and then fails in `Put`: nothing is
appended. On a store whose recipient list was changed after version 1 was
written, the rollback succeeds, and `Get(k, 0)` then fails: the new version is
encrypted for the new recipient, whom the identity at hand does not match.
On a store where the entry file of `b` carries the key `a`, `rollback b 1`
succeeds and appends to the entry file of `a`; the entry of `b` keeps its
single version. With a YAML library that, like `yaml.v3`, does not read back
the message made of a line break, a space, a letter and a line break,
`rollback k 1` with that message succeeds, and the entry file of `k` then no
longer parses: `Get(k, 0)` fails. -/
theorem runRollback_counterexample :
    (openStore toyExt noRecipientsFS (some toyConfig) [] [] = .ok noRecipientsStore ∧
      noRecipientsStore.loadEntry toyExt noRecipientsFS toyKey = .ok toyEntry1 ∧
      (noRecipientsStore.Get toyExt toyEnv noRecipientsFS toyKey 1).2 =
        Outcome.ok "p1".toList ∧
      (runRollback toyExt toyScan toyEnv toyEnv noRecipientsFS (some toyConfig) [] [] []
        toyKey "1".toList).2 =
          CliOutcome.err (CliError.rollback (StoreError.encrypt AgeError.noRecipients)) ∧
      noRecipientsStore.loadEntry toyExt
        (runRollback toyExt toyScan toyEnv toyEnv noRecipientsFS (some toyConfig) [] [] []
          toyKey "1".toList).1 toyKey = .ok toyEntry1) ∧
    (openStore keyedExt rotatedFS (some toyConfig) [] [] = .ok rotatedStore ∧
      (rotatedStore.Get keyedExt toyEnv rotatedFS "k".toList 1).2 = Outcome.ok "p1".toList ∧
      (runRollback keyedExt toyScan toyEnv toyEnv rotatedFS (some toyConfig) [] [] []
        "k".toList "1".toList).2 =
          CliOutcome.ok "Successfully rolled back 'k' to version 1\n".toList ∧
      (rotatedStore.Get keyedExt toyEnv
        (runRollback keyedExt toyScan toyEnv toyEnv rotatedFS (some toyConfig) [] [] []
          "k".toList "1".toList).1 "k".toList 0).2 =
          Outcome.err (StoreError.decrypt (AgeError.decryptor DecFail.decrypt))) ∧
    (openStore toyExt copiedFS (some toyConfig) [] [] = .ok toyOpened ∧
      toyOpened.loadEntry toyExt copiedFS "b".toList = .ok toyEntryA ∧
      (runRollback toyExt toyScan toyEnv toyEnv copiedFS (some toyConfig) [] [] []
        "b".toList "1".toList).2 =
          CliOutcome.ok "Successfully rolled back 'b' to version 1\n".toList ∧
      toyOpened.loadEntry toyExt
        (runRollback toyExt toyScan toyEnv toyEnv copiedFS (some toyConfig) [] [] []
          "b".toList "1".toList).1 "b".toList = .ok toyEntryA ∧
      (toyOpened.GetHistory toyExt
        (runRollback toyExt toyScan toyEnv toyEnv copiedFS (some toyConfig) [] [] []
          "b".toList "1".toList).1 "a".toList 0).map List.length = .ok 2) ∧
    (openStore quirkExt twoVersionsFS (some toyConfig) [] [] = .ok toyOpened ∧
      toyOpened.loadEntry quirkExt twoVersionsFS "k".toList = .ok toyEntryK ∧
      (toyOpened.Get quirkExt toyEnv twoVersionsFS "k".toList 1).2 = Outcome.ok "p1".toList ∧
      (runRollback quirkExt toyScan toyEnv toyEnv twoVersionsFS (some toyConfig) [] []
        quirkMessage "k".toList "1".toList).2 =
          CliOutcome.ok "Successfully rolled back 'k' to version 1\n".toList ∧
      (toyOpened.Get quirkExt toyEnv
        (runRollback quirkExt toyScan toyEnv toyEnv twoVersionsFS (some toyConfig) [] []
          quirkMessage "k".toList "1".toList).1 "k".toList 0).2 =
          Outcome.err StoreError.parseEntry) :=
  ⟨⟨rfl, rfl, rfl, rfl, rfl⟩, ⟨rfl, rfl, rfl, rfl⟩, ⟨rfl, rfl, rfl, rfl, rfl⟩,
    ⟨rfl, rfl, rfl, rfl, rfl⟩⟩

/-! ## Lemmas on `Put` over an existing entry -/

theorem FS.mkdirFrom_of_dir (rest : List Str) :
    ∀ (fs : FS) (cur : Path), fs.resolve cur rest = .ok Node.dir →
      fs.mkdirFrom cur rest = (fs, none) := by
  induction rest with
  | nil =>
    intro fs cur h
    simp only [FS.resolve] at h
    simp only [FS.mkdirFrom]
    cases hn : fs.node cur with
    | none => simp [hn] at h
    | some n =>
      rw [hn] at h
      simp only [Except.ok.injEq] at h
      subst h
      rfl
  | cons c cs ih =>
    intro fs cur h
    simp only [FS.resolve] at h
    simp only [FS.mkdirFrom]
    cases hn : fs.node cur with
    | none => simp [hn] at h
    | some n =>
      cases n with
      | file d => simp [hn] at h
      | dir =>
        rw [hn] at h
        exact ih fs (cur ++ [c]) h

theorem Store.Put_existing_ok {R I : Type} (x : Ext R I)
    (hmar : ∀ e, ∃ d, x.Marshal e = some d) (s : Store I) (hs : s.Built) (env : Env)
    (fs : FS) (key password message : Str) (entry : Entry) (c : Str)
    (hload : s.loadEntry x fs key = .ok entry)
    (hpath : s.getEntryPath entry.Key = s.getEntryPath key)
    (henc : Encrypt x env.entropy password s.recipients = .ok c) :
    (s.Put x env fs key password message).2 = none := by
  have hl := (s.loadEntry_Log x hs env fs EventModify key message key entry).2 hload
  obtain ⟨d, hread, _⟩ := (s.loadEntry_ok_iff x _ key entry).1 hl
  have hst := (FS.ReadFile_ok_iff_stat _ _ _).1 hread
  have hpne := s.getEntryPath_ne_nil key
  have hpar := FS.stat_dropLast _ _ _ hst hpne
  have hmk : (s.auditor.Log env fs EventModify key message).1.MkdirAll
      (s.getEntryPath key).dropLast = ((s.auditor.Log env fs EventModify key message).1, none) :=
    FS.mkdirFrom_of_dir _ _ _ ((FS.stat_ok_resolve _ _ _).1 hpar)
  obtain ⟨data, hdata⟩ := hmar
    { entry with Versions := entry.Versions ++ [newVersion env entry c message] }
  simp only [Store.Put, henc, hl, Store.saveEntry, hpath, hmk, hdata, FS.WriteFile, hst]

theorem openStore_inv {R I : Type} (x : Ext R I) (fs : FS) (cfg : Option Config)
    (pfAudit storeFlag : Str) (s : Store I)
    (h : openStore x fs cfg pfAudit storeFlag = .ok s) :
    ∃ path ageKeyPath, Store.New x fs path ageKeyPath pfAudit = .ok s := by
  simp only [openStore] at h
  cases cfg with
  | none => cases h
  | some cfg =>
    simp only [] at h
    cases hl : cfg.Stores.lookup (if storeFlag = [] then cfg.DefaultStore else storeFlag) with
    | none =>
      rw [hl] at h
      cases h
    | some storeConfig =>
      rw [hl] at h
      simp only [] at h
      cases hn : Store.New x fs storeConfig.Path cfg.AgeKeyPath pfAudit with
      | error e =>
        rw [hn] at h
        cases h
      | ok s1 =>
        rw [hn] at h
        simp only [Except.ok.injEq] at h
        subst h
        exact ⟨_, _, hn⟩

/-- C22 (amended). Rollback restores a previous version by appending. Let the
YAML library serialise every entry and be faithful (an entry file that parses
yields the entry that was serialised), and let the encryption library encrypt
for every non-empty recipient list. Let the store have a non-empty recipient
set. Let the entry file of `key` hold an entry with `n` versions that carries
a key with the same entry path, and let version `v`, with `1 ≤ v ≤ n`, decrypt
to `plain`. Then `rollback key v` succeeds, and the entry file of `key`
afterwards holds the serialised entry made of the old version list followed
by one version numbered `n + 1` whose ciphertext is the encryption of `plain`
for the recipients of the store, with the message `Rollback to version v`
when the message flag is empty. When that entry file parses, the entry of
`key` is exactly that entry; and when moreover the identities of the store
decrypt what is encrypted for its recipients, `Get(key, 0)` then returns
`plain`. -/
theorem runRollback_appends {R I : Type} (x : Ext R I)
    (hfaith : ∀ e d e1, x.Marshal e = some d → x.Unmarshal d = some e1 → e1 = e)
    (hmar : ∀ e, ∃ d, x.Marshal e = some d)
    (hsucc : ∀ entropy rs data, rs ≠ [] → ∃ c, x.EncryptArmor entropy rs data = .ok c)
    (scan : Str → Option Int) (envGet envPut : Env) (fs : FS) (cfg : Option Config)
    (pfAudit storeFlag messageFlag key version : Str) (s : Store I) (v : Int)
    (entry : Entry) (old : Version) (plain : Str)
    (hscan : scan version = some v)
    (hopen : openStore x fs cfg pfAudit storeFlag = .ok s)
    (hrec : s.recipients ≠ [])
    (hload : s.loadEntry x fs key = .ok entry)
    (hpath : s.getEntryPath entry.Key = s.getEntryPath key)
    (hv : 1 ≤ v ∧ v ≤ (entry.Versions.length : Int))
    (hold : entry.Versions[(v - 1).toNat]? = some old)
    (hplain : Decrypt x old.Password s.identities = .ok plain) :
    ∃ encrypted data,
      (runRollback x scan envGet envPut fs cfg pfAudit storeFlag messageFlag key version).2 =
        CliOutcome.ok ("Successfully rolled back '".toList ++ key ++
          "' to version ".toList ++ formatInt v ++ "\n".toList) ∧
      Encrypt x envPut.entropy plain s.recipients = .ok encrypted ∧
      x.Marshal
          { Key := entry.Key
            Versions := entry.Versions ++
              [{ Version := (entry.Versions.length : Int) + 1
                 Password := encrypted
                 Timestamp := envPut.now
                 Author := envPut.user
                 Message := rollbackMessage messageFlag v }] } = some data ∧
      (runRollback x scan envGet envPut fs cfg pfAudit storeFlag messageFlag key
          version).1.ReadFile (s.getEntryPath key) = .ok data ∧
      (messageFlag = [] →
        rollbackMessage messageFlag v = "Rollback to version ".toList ++ formatInt v) ∧
      ((∃ e, s.loadEntry x
          (runRollback x scan envGet envPut fs cfg pfAudit storeFlag messageFlag key
            version).1 key = .ok e) →
        s.loadEntry x
            (runRollback x scan envGet envPut fs cfg pfAudit storeFlag messageFlag key
              version).1 key =
          .ok { Key := entry.Key
                Versions := entry.Versions ++
                  [{ Version := (entry.Versions.length : Int) + 1
                     Password := encrypted
                     Timestamp := envPut.now
                     Author := envPut.user
                     Message := rollbackMessage messageFlag v }] } ∧
        ((∀ entropy p c, Encrypt x entropy p s.recipients = .ok c →
            Decrypt x c s.identities = .ok p) →
          ∀ env,
            (s.Get x env
              (runRollback x scan envGet envPut fs cfg pfAudit storeFlag messageFlag key
                version).1 key 0).2 = Outcome.ok plain)) := by
  obtain ⟨path, ageKeyPath, hnew⟩ := openStore_inv x fs cfg pfAudit storeFlag s hopen
  obtain ⟨hlr, _, hs⟩ := Store.New_inv x fs path ageKeyPath pfAudit s hnew
  have hvalid := loadRecipients_valid x fs _ _ hlr
  have hlen : 1 ≤ entry.Versions.length := by omega
  -- the call of `Get`
  have hget2 : (s.Get x envGet fs key v).2 = Outcome.ok plain := by
    obtain ⟨w, hw, hres⟩ :=
      (Store.Get_by_index x s hs envGet fs key entry v hload hlen).1 hv
    rw [hold] at hw
    cases hw
    rw [hres]
    simp [Store.decryptVersion, hplain]
  have hget : s.Get x envGet fs key v =
      ((s.auditor.Log envGet fs EventAccess key []).1, Outcome.ok plain) :=
    Prod.ext (s.Get_fs x envGet fs key v) hget2
  have hload1 : s.loadEntry x (s.auditor.Log envGet fs EventAccess key []).1 key = .ok entry :=
    (s.loadEntry_Log x hs envGet fs EventAccess key [] key entry).2 hload
  -- the call of `Put`
  obtain ⟨c, hc⟩ : ∃ c, Encrypt x envPut.entropy plain s.recipients = .ok c := by
    rcases Encrypt_of_valid x envPut.entropy plain s.recipients hvalid with
      ⟨h0, _⟩ | ⟨_, rs, hrs, _, henc⟩
    · exact absurd h0 hrec
    · obtain ⟨c, hc⟩ := hsucc envPut.entropy rs plain hrs
      rw [hc] at henc
      exact ⟨c, henc⟩
  have hput2 := Store.Put_existing_ok x hmar s hs envPut
    (s.auditor.Log envGet fs EventAccess key []).1 key plain
    (rollbackMessage messageFlag v) entry c hload1 hpath hc
  have hput : s.Put x envPut (s.auditor.Log envGet fs EventAccess key []).1 key plain
      (rollbackMessage messageFlag v) =
      ((s.Put x envPut (s.auditor.Log envGet fs EventAccess key []).1 key plain
        (rollbackMessage messageFlag v)).1, none) := Prod.ext rfl hput2
  obtain ⟨encrypted, data, henc, hm, hread⟩ := Store.Put_written x s hs envPut _ _ key plain
    (rollbackMessage messageFlag v) entry (Or.inl ⟨hload1, hpath⟩) hput
  have hrun : runRollback x scan envGet envPut fs cfg pfAudit storeFlag messageFlag key version =
      ((s.Put x envPut (s.auditor.Log envGet fs EventAccess key []).1 key plain
        (rollbackMessage messageFlag v)).1,
       CliOutcome.ok ("Successfully rolled back '".toList ++ key ++
          "' to version ".toList ++ formatInt v ++ "\n".toList)) := by
    simp only [runRollback, hscan, hopen, hget]
    rw [hput]
  rw [hrun]
  refine ⟨encrypted, data, rfl, henc, hm, hread, fun h => by simp [rollbackMessage, h], ?_⟩
  intro hback
  obtain ⟨encrypted2, henc2, hload2⟩ := Store.Put_load x hfaith s hs envPut _ _ key plain
    (rollbackMessage messageFlag v) entry (Or.inl ⟨hload1, hpath⟩) hput hback
  rw [henc] at henc2
  cases henc2
  refine ⟨hload2, ?_⟩
  intro hdec env
  have hdecNew := hdec envPut.entropy plain encrypted henc
  obtain ⟨w, hw, hres, _⟩ :=
    (Store.Get_by_index x s hs env _ key _ 0 hload2 (by simp)).2.1
      (Or.inl (le_refl _))
  simp only [List.length_append, List.length_singleton, Nat.add_sub_cancel] at hw
  rw [List.getElem?_append_right (le_refl _)] at hw
  simp only [Nat.sub_self, List.getElem?_cons_zero, Option.some.injEq] at hw
  rw [hres, ← hw]
  simp [Store.decryptVersion, newVersion, hdecNew]

/-! ## Lemmas on plain keys -/

theorem Store.getEntryPath_plain {I : Type} (s : Store I) {key : Str} (h : PlainKey key) :
    ∃ init last, splitSlash key = init ++ [last] ∧
      s.getEntryPath key = s.path ++ init ++ [last ++ yamlExt] := by
  obtain ⟨init, last, h1, h2⟩ := splitSlash_append_noslash key yamlExt (by decide)
  have hinit : ∀ seg ∈ init, seg ≠ [] ∧ seg ≠ ['.'] ∧ seg ≠ ['.', '.'] := fun seg hs =>
    h seg (by rw [h1]; exact List.mem_append_left _ hs)
  refine ⟨init, last, h1, ?_⟩
  simp only [Store.getEntryPath, Join, h2, List.foldl_append, List.foldl_cons, List.foldl_nil,
    cleanStep_yaml, foldl_cleanStep_valid init hinit]

theorem Store.getEntryPath_plain_injective {I : Type} (s : Store I) {k1 k2 : Str}
    (h1 : PlainKey k1) (h2 : PlainKey k2) (h : s.getEntryPath k1 = s.getEntryPath k2) :
    k1 = k2 := by
  obtain ⟨i1, l1, hs1, hp1⟩ := s.getEntryPath_plain h1
  obtain ⟨i2, l2, hs2, hp2⟩ := s.getEntryPath_plain h2
  rw [hp1, hp2, List.append_assoc, List.append_assoc] at h
  have h3 := List.append_cancel_left h
  have hlen : i1.length = i2.length := by
    have := congrArg List.length h3
    simpa using this
  obtain ⟨h4, h5⟩ := List.append_inj h3 hlen
  simp only [List.cons.injEq, and_true] at h5
  have h6 : l1 = l2 := List.append_cancel_right h5
  rw [← joinSlash_splitSlash k1, ← joinSlash_splitSlash k2, hs1, hs2, h4, h6]

theorem Store.getEntryPath_plain_inside {I : Type} (s : Store I) {key : Str}
    (h : PlainKey key) : s.path <+: s.getEntryPath key ∧ s.getEntryPath key ≠ s.path := by
  obtain ⟨init, last, _, hp⟩ := s.getEntryPath_plain h
  rw [hp, List.append_assoc]
  refine ⟨List.prefix_append _ _, ?_⟩
  intro h0
  have := congrArg List.length h0
  simp at this

/-! ## Lemmas on file systems that differ in the content of one file -/

theorem FS.resolve_congr_kind (fs fs1 : FS) (cs : List Str) :
    ∀ cur : Path,
      (∀ k, k < cs.length →
        (fs1.node (cur ++ cs.take k)).map Node.isFile =
          (fs.node (cur ++ cs.take k)).map Node.isFile) →
      fs1.node (cur ++ cs) = fs.node (cur ++ cs) →
      fs1.resolve cur cs = fs.resolve cur cs := by
  induction cs with
  | nil =>
    intro cur _ h
    simp only [List.append_nil] at h
    simp [FS.resolve, h]
  | cons c cs ih =>
    intro cur hk h
    have h0 := hk 0 (by simp)
    simp only [List.take_zero, List.append_nil] at h0
    have hrec : fs1.resolve (cur ++ [c]) cs = fs.resolve (cur ++ [c]) cs := by
      apply ih
      · intro k hk1
        have := hk (k + 1) (by simpa using hk1)
        simpa using this
      · simpa using h
    simp only [FS.resolve]
    cases h1 : fs1.node cur with
    | none =>
      rw [h1] at h0
      cases h2 : fs.node cur with
      | none => rfl
      | some n => rw [h2] at h0; cases h0
    | some n1 =>
      rw [h1] at h0
      cases h2 : fs.node cur with
      | none => rw [h2] at h0; cases h0
      | some n2 =>
        rw [h2] at h0
        cases n1 <;> cases n2 <;> simp [Node.isFile] at h0 ⊢
        exact hrec

theorem FS.SameBut.node_kind {a : Path} {f g : FS} (h : FS.SameBut a f g) (ha : a ≠ [])
    (q : Path) : (f.node q).map Node.isFile = (g.node q).map Node.isFile := by
  by_cases hq : q = a
  · obtain ⟨_, ⟨d1, h1⟩, ⟨d2, h2⟩⟩ := h
    subst hq
    simp [FS.node, ha, h1, h2, Node.isFile]
  · rw [h.1.node hq]

theorem FS.SameBut.stat_same {a : Path} {f g : FS} (h : FS.SameBut a f g) (ha : a ≠ []) {p : Path}
    (hp : p ≠ a) : f.stat p = g.stat p := by
  have hr : f.resolve [] p = g.resolve [] p := by
    apply FS.resolve_congr_kind
    · intro k _
      simpa using h.node_kind ha (p.take k)
    · simpa using h.1.node hp
  unfold FS.stat
  rw [hr]

theorem FS.SameBut.set_same {a : Path} {f g : FS} (h : FS.SameBut a f g) {p : Path} (hp : p ≠ a)
    (n : Node) : FS.SameBut a (f.set p n) (g.set p n) := by
  obtain ⟨h0, ⟨d1, h1⟩, ⟨d2, h2⟩⟩ := h
  refine ⟨h0.set p n, ⟨d1, ?_⟩, ⟨d2, ?_⟩⟩
  · rw [FS.get_set_ne f n (Ne.symm hp), h1]
  · rw [FS.get_set_ne g n (Ne.symm hp), h2]

theorem FS.SameBut.Log_same {a : Path} {f g : FS} (h : FS.SameBut a f g) (ha : a ≠ []) (l : Logger)
    (hl : l.path ≠ a) (hpar : l.path.dropLast ≠ a) (env : Env) (event key details : Str) :
    FS.SameBut a (l.Log env f event key details).1 (l.Log env g event key details).1 := by
  have hst := h.stat_same ha hpar
  have hsl := h.stat_same ha hl
  have hn := h.1.node hl
  simp only [Logger.Log, FS.OpenAppend, hst, hsl]
  by_cases hen : l.enabled = false
  · simpa [hen] using h
  · simp only [hen, if_false]
    have happ : ∀ f1 g1 : FS, FS.SameBut a f1 g1 → ∀ data : Str,
        FS.SameBut a (f1.appendTo l.path data) (g1.appendTo l.path data) := by
      intro f1 g1 h1 data
      have hn1 := h1.1.node hl
      simp only [FS.appendTo, hn1]
      cases g1.node l.path with
      | none => exact h1
      | some m =>
        cases m with
        | dir => exact h1
        | file d0 => exact h1.set_same hl _
    have hfin : ∀ f1 g1 : FS, FS.SameBut a f1 g1 →
        FS.SameBut a
          (match env.auditWriteErr with
            | some e => (f1, some e)
            | none => (f1.appendTo l.path (Logger.line env event key details), none)).1
          (match env.auditWriteErr with
            | some e => (g1, some e)
            | none => (g1.appendTo l.path (Logger.line env event key details), none)).1 := by
      intro f1 g1 h1
      cases env.auditWriteErr with
      | some e => exact h1
      | none => exact happ f1 g1 h1 _
    cases hg : g.stat l.path with
    | ok n =>
      cases n with
      | file d => exact hfin f g h
      | dir => exact h
    | error e =>
      cases hd : g.stat l.path.dropLast with
      | error e2 => cases e <;> exact h
      | ok n =>
        cases n with
        | file d => cases e <;> exact h
        | dir =>
          cases e <;> first
            | exact hfin _ _ (h.set_same hl (Node.file []))
            | exact h

theorem Store.loadEntry_Log_sameBut {R I : Type} (x : Ext R I) (s : Store I) (hs : s.Built)
    (env : Env) (fs : FS) (event key details k1 k2 : Str) (h1 : PlainKey k1)
    (h2 : PlainKey k2) (hne : k1 ≠ k2) (d d1 : Str)
    (hfile : fs.get (s.getEntryPath k2) = some (Node.file d)) :
    s.loadEntry x
        (s.auditor.Log env (fs.set (s.getEntryPath k2) (Node.file d1)) event key details).1 k1 =
      s.loadEntry x (s.auditor.Log env fs event key details).1 k1 := by
  have ha := s.getEntryPath_ne_nil k2
  have hsame : FS.SameBut (s.getEntryPath k2) (fs.set (s.getEntryPath k2) (Node.file d1)) fs :=
    ⟨fun q hq => FS.get_set_ne fs _ hq, ⟨d1, FS.get_set_self fs _ _⟩, ⟨d, hfile⟩⟩
  have hl : s.auditor.path ≠ s.getEntryPath k2 := (s.getEntryPath_ne_audit hs k2).symm
  have hpar : s.auditor.path.dropLast ≠ s.getEntryPath k2 := by
    rw [hs, List.dropLast_concat]
    exact (s.getEntryPath_plain_inside h2).2.symm
  have hlog := hsame.Log_same ha s.auditor hl hpar env event key details
  have hp : s.getEntryPath k1 ≠ s.getEntryPath k2 :=
    fun h => hne (s.getEntryPath_plain_injective h1 h2 h)
  simp only [Store.loadEntry, FS.ReadFile, hlog.stat_same ha hp]

/-! ## The claim on the key-to-path mapping -/

/-- C26 as stated fails on the code. In a store where the entry file of `b` is
a copy of the entry file of `a`, and so carries the key `a`, a successful
`Put(b, q, "")` overwrites the entry file of `a` and leaves the one of `b`
as it was. -/
theorem Store.Put_overwrites_other_key :
    PlainKey "a".toList ∧ PlainKey "b".toList ∧
      toyOpened.getEntryPath "a".toList ≠ toyOpened.getEntryPath "b".toList ∧
      copiedFS.get (toyOpened.getEntryPath "a".toList) =
        some (Node.file (toyMarshal toyEntryA)) ∧
      (toyOpened.Put toyExt toyEnv copiedFS "b".toList "q".toList []).2 = none ∧
      (toyOpened.Put toyExt toyEnv copiedFS "b".toList "q".toList []).1.get
          (toyOpened.getEntryPath "a".toList) =
        some (Node.file (toyMarshal
          { toyEntryA with
            Versions := toyEntryA.Versions ++
              [{ Version := 2, Password := "Eq".toList, Timestamp := 7, Author := "u".toList,
                 Message := [] }] })) ∧
      (toyOpened.Put toyExt toyEnv copiedFS "b".toList "q".toList []).1.get
          (toyOpened.getEntryPath "b".toList) =
        some (Node.file (toyMarshal toyEntryA)) :=
  ⟨by unfold PlainKey; decide, by unfold PlainKey; decide, by decide, rfl, rfl, rfl, rfl⟩

/-- C26 (amended). Key-to-path mapping is injective and confined to the store.
For two distinct keys whose `/`-separated segments are all non-empty and
none of which is `.` or `..`, `getEntryPath` returns distinct paths; each is
the store root followed by the segments of the key with `.yaml` appended to
the last one, hence strictly inside the store root. `Get` and `Delete` on one
such key leave what is recorded at the entry path of the other as it is, and
`Get` returns the same when the content of the other entry file changes, as
does the entry `Put` loads. `Put` on one such key leaves the entry file of the
other as it is provided the entry it loads, if any, carries a key with the
same entry path. -/
theorem Store.keys_map_to_separate_files {R I : Type} (x : Ext R I) (s : Store I)
    (hs : s.Built) (k1 k2 : Str) (h1 : PlainKey k1) (h2 : PlainKey k2) (hne : k1 ≠ k2) :
    s.getEntryPath k1 ≠ s.getEntryPath k2 ∧
    (∃ init last, splitSlash k1 = init ++ [last] ∧
      s.getEntryPath k1 = s.path ++ init ++ [last ++ yamlExt]) ∧
    (s.path <+: s.getEntryPath k1 ∧ s.getEntryPath k1 ≠ s.path) ∧
    (∀ env fs version,
      (s.Get x env fs k1 version).1.get (s.getEntryPath k2) = fs.get (s.getEntryPath k2)) ∧
    (∀ env fs version d d1, fs.get (s.getEntryPath k2) = some (Node.file d) →
      (s.Get x env (fs.set (s.getEntryPath k2) (Node.file d1)) k1 version).2 =
          (s.Get x env fs k1 version).2 ∧
        ∀ message,
          s.loadEntry x (s.auditor.Log env (fs.set (s.getEntryPath k2) (Node.file d1))
              EventModify k1 message).1 k1 =
            s.loadEntry x (s.auditor.Log env fs EventModify k1 message).1 k1) ∧
    (∀ env fs,
      (s.Delete env fs k1).1.get (s.getEntryPath k2) = fs.get (s.getEntryPath k2)) ∧
    (∀ env fs password message,
      (∀ e, s.loadEntry x fs k1 = .ok e → s.getEntryPath e.Key = s.getEntryPath k1) →
      ∀ d, (s.Put x env fs k1 password message).1.get (s.getEntryPath k2) =
          some (Node.file d) ↔ fs.get (s.getEntryPath k2) = some (Node.file d)) := by
  have hp : s.getEntryPath k1 ≠ s.getEntryPath k2 :=
    fun h => hne (s.getEntryPath_plain_injective h1 h2 h)
  have haud : s.getEntryPath k2 ≠ s.auditor.path := s.getEntryPath_ne_audit hs k2
  refine ⟨hp, s.getEntryPath_plain h1, s.getEntryPath_plain_inside h1, ?_, ?_, ?_, ?_⟩
  · intro env fs version
    rw [s.Get_fs x env fs k1 version]
    exact Logger.Log_get_file s.auditor env fs EventAccess k1 [] _ haud
  · intro env fs version d d1 hfile
    refine ⟨?_, fun message =>
      s.loadEntry_Log_sameBut x hs env fs EventModify k1 message k1 k2 h1 h2 hne d d1 hfile⟩
    have hload :=
      s.loadEntry_Log_sameBut x hs env fs EventAccess k1 [] k1 k2 h1 h2 hne d d1 hfile
    simp only [Store.Get, hload]
    cases s.loadEntry x (s.auditor.Log env fs EventAccess k1 []).1 k1 with
    | error e => rfl
    | ok entry =>
      simp only []
      split <;> rfl
  · intro env fs
    have hlog := Logger.Log_get_file s.auditor env fs EventDelete k1 [] _ haud
    simp only [Store.Delete]
    cases hr : (s.auditor.Log env fs EventDelete k1 []).1.Remove (s.getEntryPath k1) with
    | error e =>
      simp only []
      split <;> exact hlog
    | ok fs2 =>
      obtain ⟨rfl, _, _⟩ := FS.Remove_ok _ _ _ hr
      simp only []
      rw [FS.get_erase_ne _ (Ne.symm hp), hlog]
  · intro env fs password message hentry d
    have hlog := Logger.Log_get_file s.auditor env fs EventModify k1 message _ haud
    simp only [Store.Put]
    cases Encrypt x env.entropy password s.recipients with
    | error e =>
      simp only []
      rw [hlog]
    | ok encrypted =>
      simp only []
      cases hl : s.loadEntry x (s.auditor.Log env fs EventModify k1 message).1 k1 with
      | error e =>
        simp only []
        rw [Store.saveEntry_get_other x s _ _ _ (Ne.symm hp) d, hlog]
      | ok entry =>
        simp only []
        have hkey := hentry entry
          ((s.loadEntry_Log x hs env fs EventModify k1 message k1 entry).1 hl)
        rw [Store.saveEntry_get_other x s _ _ _ (by rw [hkey]; exact Ne.symm hp) d, hlog]

/-! ## The claims on the write-only store, the rollback and the keys on concrete inputs -/

theorem toyExt_decrypt_opened : ∀ entropy p c,
    Encrypt toyExt entropy p toyOpened.recipients = .ok c →
      Decrypt toyExt c toyOpened.identities = .ok p := by
  intro entropy p c h
  have hc : c = 'E' :: p.reverse := by
    have : Encrypt toyExt entropy p toyOpened.recipients = .ok ('E' :: p.reverse) := rfl
    rw [this] at h
    simp only [Except.ok.injEq] at h
    exact h.symm
  subst hc
  simp [Decrypt, toyOpened, toyExt]

theorem quirkExt_decrypt_opened : ∀ entropy p c,
    Encrypt quirkExt entropy p toyOpened.recipients = .ok c →
      Decrypt quirkExt c toyOpened.identities = .ok p := by
  intro entropy p c h
  have hc : c = 'E' :: p.reverse := by
    have : Encrypt quirkExt entropy p toyOpened.recipients = .ok ('E' :: p.reverse) := rfl
    rw [this] at h
    simp only [Except.ok.injEq] at h
    exact h.symm
  subst hc
  simp [Decrypt, toyOpened, quirkExt, toyExt]

/-- C21 (amended) on a concrete store: with the key file missing, `New` on the
configured store yields the two recipients and no identity; `Put(k, p, "")`
succeeds there, and `Get(k, 0)` then fails for want of an identity. -/
theorem Store.write_only_store_witness :
    loadRecipients toyExt toyConfigFS (["s".toList] ++ [recipientsName]) =
        .ok ["age1a".toList, "age1b".toList] ∧
      LoadIdentityFile toyExt toyConfigFS ["missing".toList] =
        .error (IdentityFileError.readFile Errno.ENOENT) ∧
      (toyWriteOnly.Put toyExt toyEnv toyConfigFS "k".toList "p".toList []).2 = none ∧
      (toyWriteOnly.Get toyExt toyEnv
        (toyWriteOnly.Put toyExt toyEnv toyConfigFS "k".toList "p".toList []).1
        "k".toList 0).2 = Outcome.err (StoreError.decrypt AgeError.noIdentities) ∧
      ∃ s : Store Str,
        Store.New toyExt toyConfigFS ["s".toList] (some ["missing".toList]) [] = .ok s ∧
        s.identities = [] ∧ s.recipients = ["age1a".toList, "age1b".toList] ∧
        (∀ env fs key password message,
          (s.Put toyExt env fs key password message).2 = none ∨
          (∃ e, (s.Put toyExt env fs key password message).2 = some (StoreError.mkdir e)) ∨
          (∃ e, (s.Put toyExt env fs key password message).2 =
            some (StoreError.saveEntry e))) ∧
        (∀ env fs key version entry, s.loadEntry toyExt fs key = .ok entry →
          entry.Versions ≠ [] →
          (s.Get toyExt env fs key version).2 =
            Outcome.err (StoreError.decrypt AgeError.noIdentities)) :=
  ⟨rfl, rfl, rfl, rfl,
    (Store.write_only_store toyExt toyConfigFS ["s".toList] (some ["missing".toList]) []
      ["age1a".toList, "age1b".toList] rfl
      (Or.inr ⟨["missing".toList], IdentityFileError.readFile Errno.ENOENT, rfl, rfl⟩)).imp
      (fun _ h => ⟨h.1, h.2.1, h.2.2.1,
        h.2.2.2.2.1 (fun _ _ _ _ => ⟨_, rfl⟩) (fun _ => ⟨_, rfl⟩) (List.cons_ne_nil _ _),
        h.2.2.2.2.2⟩)⟩

set_option maxRecDepth 8000 in
theorem quirkExt_rollback_reads :
    toyOpened.loadEntry quirkExt
      (runRollback quirkExt toyScan toyEnv toyEnv twoVersionsFS (some toyConfig) [] [] []
        "k".toList "1".toList).1 "k".toList = .ok toyEntryK3 := rfl

/-- C22 (amended) on a concrete store, with the YAML library that does not
read back every message: with the versions `p1` and `p2` of `k`,
`rollback k 1` appends version 3, whose plaintext is `p1` and whose message is
`Rollback to version 1`; the entry file parses, and `Get(k, 0)` then returns
`p1`. -/
theorem runRollback_appends_witness :
    toyScan "1".toList = some 1 ∧
      openStore quirkExt twoVersionsFS (some toyConfig) [] [] = .ok toyOpened ∧
      toyOpened.loadEntry quirkExt twoVersionsFS "k".toList = .ok toyEntryK ∧
      rollbackMessage [] 1 = "Rollback to version 1".toList ∧
      ∃ encrypted,
        (runRollback quirkExt toyScan toyEnv toyEnv twoVersionsFS (some toyConfig) [] [] []
          "k".toList "1".toList).2 =
          CliOutcome.ok ("Successfully rolled back '".toList ++ "k".toList ++
            "' to version ".toList ++ formatInt 1 ++ "\n".toList) ∧
        Encrypt quirkExt toyEnv.entropy "p1".toList toyOpened.recipients = .ok encrypted ∧
        toyOpened.loadEntry quirkExt
            (runRollback quirkExt toyScan toyEnv toyEnv twoVersionsFS (some toyConfig) [] [] []
              "k".toList "1".toList).1 "k".toList =
          .ok { Key := toyEntryK.Key
                Versions := toyEntryK.Versions ++
                  [{ Version := (toyEntryK.Versions.length : Int) + 1
                     Password := encrypted
                     Timestamp := toyEnv.now
                     Author := toyEnv.user
                     Message := rollbackMessage [] 1 }] } ∧
        ∀ env,
          (toyOpened.Get quirkExt env
            (runRollback quirkExt toyScan toyEnv toyEnv twoVersionsFS (some toyConfig) [] [] []
              "k".toList "1".toList).1 "k".toList 0).2 = Outcome.ok "p1".toList :=
  ⟨rfl, rfl, rfl, rfl,
    match runRollback_appends quirkExt quirkExt_faithful (fun _ => ⟨_, rfl⟩)
      (fun _ _ _ _ => ⟨_, rfl⟩)
      toyScan toyEnv toyEnv twoVersionsFS (some toyConfig) [] [] [] "k".toList "1".toList
      toyOpened 1 toyEntryK
      { Version := 1, Password := "E1p".toList, Timestamp := 7, Author := "u".toList,
        Message := "m1".toList }
      "p1".toList rfl rfl (List.cons_ne_nil _ _) rfl rfl
      ⟨by decide, by decide⟩ rfl rfl with
    | ⟨encrypted, _, h1, h2, _, _, _, h6⟩ =>
      ⟨encrypted, h1, h2, (h6 ⟨_, quirkExt_rollback_reads⟩).1,
        (h6 ⟨_, quirkExt_rollback_reads⟩).2 quirkExt_decrypt_opened⟩⟩

/-- C25 on a concrete store: the recipients `New` reads from the recipient
file of `/s` both parse, and `Encrypt` for them succeeds. -/
theorem Store.Put_never_invalid_recipient_witness :
    Store.New toyExt toyConfigFS ["s".toList] (some ["k".toList]) [] = .ok toyOpened ∧
      toyOpened.recipients = ["age1a".toList, "age1b".toList] ∧
      Encrypt toyExt 0 "p".toList toyOpened.recipients = .ok "Ep".toList ∧
      (∀ r ∈ toyOpened.recipients, ∃ a, toyExt.ParseX25519Recipient r = some a) ∧
      ∀ entropy data bad,
        Encrypt toyExt entropy data toyOpened.recipients ≠
          .error (AgeError.invalidRecipient bad) :=
  ⟨rfl, rfl, rfl,
    (Store.Put_never_invalid_recipient toyExt toyConfigFS ["s".toList] (some ["k".toList]) []
      toyOpened rfl).1,
    (Store.Put_never_invalid_recipient toyExt toyConfigFS ["s".toList] (some ["k".toList]) []
      toyOpened rfl).2.1⟩

/-- C26 (amended) on a concrete store: the keys `a/b` and `z` have distinct
entry paths inside `/s`, and `Put(a/b, p, "")` on the store that holds both
leaves the entry file of `z` as it is. -/
theorem Store.keys_map_to_separate_files_witness :
    toyOpened.Built ∧ PlainKey "a/b".toList ∧ PlainKey "z".toList ∧
      toyOpened.getEntryPath "a/b".toList = ["s".toList, "a".toList, "b.yaml".toList] ∧
      toyOpened.getEntryPath "z".toList = ["s".toList, "z.yaml".toList] ∧
      toyOpened.getEntryPath "a/b".toList ≠ toyOpened.getEntryPath "z".toList ∧
      (toyOpened.path <+: toyOpened.getEntryPath "a/b".toList ∧
        toyOpened.getEntryPath "a/b".toList ≠ toyOpened.path) ∧
      ∀ d,
        (toyOpened.Put toyExt toyEnv
            (toyOpened.Put toyExt toyEnv toyConfigFS "z".toList "q".toList []).1
            "a/b".toList "p".toList []).1.get (toyOpened.getEntryPath "z".toList) =
          some (Node.file d) ↔
        (toyOpened.Put toyExt toyEnv toyConfigFS "z".toList "q".toList []).1.get
          (toyOpened.getEntryPath "z".toList) = some (Node.file d) :=
  ⟨rfl, by unfold PlainKey; decide, by unfold PlainKey; decide, rfl, rfl,
    (Store.keys_map_to_separate_files toyExt toyOpened rfl "a/b".toList "z".toList
      (by unfold PlainKey; decide) (by unfold PlainKey; decide) (by decide)).1,
    (Store.keys_map_to_separate_files toyExt toyOpened rfl "a/b".toList "z".toList
      (by unfold PlainKey; decide) (by unfold PlainKey; decide) (by decide)).2.2.1,
    (Store.keys_map_to_separate_files toyExt toyOpened rfl "a/b".toList "z".toList
      (by unfold PlainKey; decide) (by unfold PlainKey; decide) (by decide)).2.2.2.2.2.2
      toyEnv _ "p".toList []
      (fun e he => by
        have h1 : toyOpened.loadEntry toyExt
            (toyOpened.Put toyExt toyEnv toyConfigFS "z".toList "q".toList []).1
            "a/b".toList = .error (StoreError.notFound "a/b".toList) := rfl
        rw [h1] at he
        cases he)⟩

end Pf
